import Mathlib

/-!
Verification of the school-scheduling engine (`bedwards/school-scheduling`).

This file gives a shallow embedding of the greedy scheduling pipeline of
`src/web/src/db/schedule-loader.ts` (`generateSchedule` and its five phases)
and of the objective-coefficient computation of `solveScheduleILP`
(`src/unnamed/part_002`), and proves or refutes the frozen claims about them.

Modelling conventions:
* JavaScript string period keys `"day-slot"` are modelled by the pair
  `(day, slot) : Nat × Nat`; the string encoding is injective on pairs of
  decimal naturals, so this is faithful.
* A JavaScript `Set` used only through `has` / `add` / `delete` is modelled
  by a `Finset (Nat × Nat)`.
* A JavaScript `Map` used only through `get` / `set` is modelled by a total
  function updated with `Function.update` (`Map.set` overwrites, matching
  `Function.update`); `get`-with-`|| 0` defaulting maps become total
  functions with default `0`.
* `Array.prototype.sort` is stable (ECMAScript 2019); a stable sort for a
  total preorder has a unique result, so it is modelled by
  `List.insertionSort`, which is stable and structurally recursive (hence
  kernel-evaluable).
* Identifiers are `String`s, as in the source.
-/

abbrev StudentId := String
abbrev TeacherId := String
abbrev CourseId := String
abbrev RoomId := String

/-- A `(day, slot)` meeting time, `Period` of `shared/types`. -/
structure Period where
  day : Nat
  slot : Nat
deriving DecidableEq, Repr, Inhabited

/-- The period key `"{day}-{slot}"` used by the source, as a pair. -/
def Period.key (p : Period) : Nat × Nat := (p.day, p.slot)

/-- The `Finset` of keys of a period list (a JS `Set` populated by a loop of `add`s). -/
def periodKeys (ps : List Period) : Finset (Nat × Nat) := (ps.map Period.key).toFinset

/-- `Student`: the fields read by the scheduling engine. -/
structure Student where
  id : StudentId
  grade : Nat
  requiredCourses : List CourseId
  electivePreferences : List CourseId
deriving DecidableEq, Repr, Inhabited

/-- `Teacher`: the fields read by the scheduling engine. -/
structure Teacher where
  id : TeacherId
  subjects : List CourseId
  maxSections : Nat
  unavailable : List Period
deriving DecidableEq, Repr, Inhabited

/-- `Course`: the fields read by the scheduling engine.  `gradeRestrictions`
is `none` when absent (the loader leaves it `undefined` for an empty list). -/
structure Course where
  id : CourseId
  maxStudents : Nat
  periodsPerWeek : Nat
  gradeRestrictions : Option (List Nat)
  requiredFeatures : List String
  sections : Nat
deriving DecidableEq, Repr, Inhabited

/-- `Room`: the fields read by the scheduling engine. -/
structure Room where
  id : RoomId
  capacity : Nat
  features : List String
  unavailable : List Period
deriving DecidableEq, Repr, Inhabited

/-- `Section` as produced and mutated by the engine. -/
structure Section where
  id : String
  courseId : CourseId
  teacherId : Option TeacherId
  roomId : Option RoomId
  periods : List Period
  enrolledStudents : List StudentId
  capacity : Nat
deriving DecidableEq, Repr, Inhabited

structure ScheduleConfig where
  periodsPerDay : Nat
  daysPerWeek : Nat
deriving DecidableEq, Repr, Inhabited

structure ScheduleInput where
  students : List Student
  teachers : List Teacher
  courses : List Course
  rooms : List Room
  config : ScheduleConfig
deriving DecidableEq, Repr, Inhabited

structure UnassignedStudent where
  studentId : StudentId
  courseId : CourseId
  reason : String
deriving DecidableEq, Repr, Inhabited

/-- `ScheduleMetadata` as filled in by `generateSchedule`.  The score is a
rational: every value the source computes is a small dyadic rational, which
IEEE doubles represent exactly, so `ℚ` is a faithful model. -/
structure ScheduleMetadata where
  generatedAt : String
  algorithmVersion : String
  score : ℚ
  solveTimeMs : Int
  constraintsSatisfied : Nat
  constraintsTotal : Nat
deriving DecidableEq, Repr, Inhabited

structure ScheduleResult where
  sections : List Section
  unassignedStudents : List UnassignedStudent
  metadata : ScheduleMetadata
deriving DecidableEq, Repr, Inhabited

/-- Options of the web scheduler (`SchedulerOptions`); the progress callback
has no effect on the returned value and is omitted. -/
structure SchedulerOptions where
  maxOptimizationIterations : Option Nat
deriving DecidableEq, Repr, Inhabited

/-- `new Map(list.map(x => [key x, x]))` followed by `.get`: later entries
overwrite earlier ones. -/
def buildMap {α : Type} (key : α → String) (l : List α) : String → Option α :=
  l.foldl (fun m x => Function.update m (key x) (some x)) (fun _ => none)

/-- Element access `l[i]`, total with a default (all uses are in-bounds). -/
def secAt (secs : List Section) (i : Nat) : Section := secs.getD i default

/-! ## Phase 1: `createSections` -/

/-- The inner loop of `createSections`: produce `fuel` more sections of
`course` starting at index `i`, assigning `pool[i % pool.length]` (which is
`undefined`, i.e. `none`, when the pool is empty: `i % 0 = i` in Lean and
`List.get?` of `[]` is `none`, matching the JS `NaN` index), and threading
the per-teacher running section count. -/
def makeSections (course : Course) (pool : List Teacher) :
    Nat → Nat → (TeacherId → Nat) → (TeacherId → Nat) × List Section
  | _, 0, count => (count, [])
  | i, fuel + 1, count =>
    let teacher := pool.get? (i % pool.length)
    let sec : Section :=
      { id := course.id ++ "-" ++ toString (i + 1)
        courseId := course.id
        teacherId := teacher.map (·.id)
        roomId := none
        periods := []
        enrolledStudents := []
        capacity := course.maxStudents }
    let count' := match teacher with
      | some t => Function.update count t.id (count t.id + 1)
      | none => count
    let res := makeSections course pool (i + 1) fuel count'
    (res.1, sec :: res.2)

/-- The course loop of `createSections`, threading the running counts. -/
def createSectionsGo (teachers : List Teacher) :
    List Course → (TeacherId → Nat) → List Section
  | [], _ => []
  | course :: rest, count =>
    let qualifiedTeachers := teachers.filter fun t =>
      course.id ∈ t.subjects && count t.id < t.maxSections
    let res := makeSections course qualifiedTeachers 0 course.sections count
    res.2 ++ createSectionsGo teachers rest res.1

/-- Phase 1 (`createSections` of `schedule-loader.ts`): for each course in
input order, filter the qualified teachers whose running count is below
`maxSections`, then produce `course.sections` sections round-robin over the
qualified pool. -/
def createSections (courses : List Course) (teachers : List Teacher) : List Section :=
  createSectionsGo teachers courses (fun _ => 0)

/-! ## Grouping sections by course

`sectionsByCourse` is a JS `Map` built by `get`-or-`[]`, `push`, `set`:
keys appear in first-occurrence order and each group lists its members in
input order.  We group indices into the section list. -/

/-- Append `i` to the group of `cid`, or create a new group at the end. -/
def addToGroup (groups : List (CourseId × List Nat)) (cid : CourseId) (i : Nat) :
    List (CourseId × List Nat) :=
  match groups with
  | [] => [(cid, [i])]
  | (c, is) :: rest =>
    if c = cid then (c, is ++ [i]) :: rest else (c, is) :: addToGroup rest cid i

/-- Group section indices by `courseId`, in first-occurrence order. -/
def groupByCourse (secs : List Section) : List (CourseId × List Nat) :=
  (secs.enum.map fun x => (x.2.courseId, x.1)).foldl
    (fun gs ci => addToGroup gs ci.1 ci.2) []

/-! ## Phase 2: `assignTimeSlots` -/

/-- The running state of Phase 2. -/
structure TimeState where
  sections : List Section
  slotUsage : Nat → Nat
  gradeSlotUsage : Nat → Nat → Nat
  teacherOcc : TeacherId → Option (Finset (Nat × Nat))

/-- Seed the teacher-occupancy map with each teacher's unavailable periods
(`Map.set` in a loop: later duplicates overwrite). -/
def initTeacherOcc (teachers : List Teacher) : TeacherId → Option (Finset (Nat × Nat)) :=
  teachers.foldl
    (fun m t => Function.update m t.id (some (periodKeys t.unavailable)))
    (fun _ => none)

/-- Teacher availability for a slot: free on every day, `!teacherSchedule ||
![...Array(daysPerWeek).keys()].some(day => has(day-slot))`. -/
def teacherAvailable (occ : Option (Finset (Nat × Nat))) (daysPerWeek slot : Nat) : Bool :=
  match occ with
  | none => true
  | some o => ! (List.range daysPerWeek).any fun day => (day, slot) ∈ o

/-- The penalty accumulated inside the candidate loop of `assignTimeSlots`:
`slotUsage + (reuse ? 1000 : 0) + Σ gradeUsage * 500`. -/
def slotPenalty (st : TimeState) (courseUsedSlots : Finset Nat) (grades : List Nat)
    (slot : Nat) : Nat :=
  grades.foldl (fun pen grade => pen + st.gradeSlotUsage grade slot * 500)
    (st.slotUsage slot + (if slot ∈ courseUsedSlots then 1000 else 0))

/-- The `availableSlots` array: feasible slots with their penalties, in
ascending slot order. -/
def availableSlots (st : TimeState) (occ : Option (Finset (Nat × Nat)))
    (config : ScheduleConfig) (courseUsedSlots : Finset Nat) (grades : List Nat) :
    List (Nat × Nat) :=
  (List.range config.periodsPerDay).filterMap fun slot =>
    if teacherAvailable occ config.daysPerWeek slot then
      some (slot, slotPenalty st courseUsedSlots grades slot)
    else none

/-- `availableSlots.sort((a, b) => a.usage - b.usage)`: a stable ascending
sort by penalty. -/
def sortByUsage (l : List (Nat × Nat)) : List (Nat × Nat) :=
  List.insertionSort (fun a b => a.2 ≤ b.2) l

/-- Commit one section's chosen slot: set its periods to `(d, slot)` for all
days, mark the teacher occupied, bump the usage counters. -/
def commitSlot (st : TimeState) (idx : Nat) (chosenSlot : Nat) (grades : List Nat)
    (config : ScheduleConfig) : TimeState :=
  let sec := secAt st.sections idx
  let newPeriods := (List.range config.daysPerWeek).map fun day => Period.mk day chosenSlot
  let sections' := st.sections.set idx { sec with periods := sec.periods ++ newPeriods }
  let slotUsage' := Function.update st.slotUsage chosenSlot (st.slotUsage chosenSlot + 1)
  let gradeSlotUsage' := grades.foldl
    (fun g grade => Function.update g grade
      (Function.update (g grade) chosenSlot (g grade chosenSlot + 1)))
    st.gradeSlotUsage
  let teacherOcc' := match sec.teacherId with
    | none => st.teacherOcc
    | some tid => match st.teacherOcc tid with
      | none => st.teacherOcc
      | some o => Function.update st.teacherOcc tid
          (some (o ∪ periodKeys newPeriods))
  { sections := sections', slotUsage := slotUsage',
    gradeSlotUsage := gradeSlotUsage', teacherOcc := teacherOcc' }

/-- Process the sections of one course group in order, threading
`courseUsedSlots`. -/
def assignCourseSlots (config : ScheduleConfig) (grades : List Nat) :
    List Nat → TimeState → Finset Nat → TimeState
  | [], st, _ => st
  | idx :: rest, st, courseUsedSlots =>
    let sec := secAt st.sections idx
    let occ := sec.teacherId.bind st.teacherOcc
    let avail := availableSlots st occ config courseUsedSlots grades
    let chosenSlot := ((sortByUsage avail).head?.map Prod.fst).getD 0
    let st' := commitSlot st idx chosenSlot grades config
    assignCourseSlots config grades rest st' (insert chosenSlot courseUsedSlots)

/-- Phase 2 (`assignTimeSlots` of `schedule-loader.ts`): group sections by
course and, for each section in order, choose the feasible slot of minimum
penalty (stable sort then first element; slot `0` if none), then commit it. -/
def assignTimeSlots (sections : List Section) (teachers : List Teacher)
    (config : ScheduleConfig) (courseMap : CourseId → Option Course) : List Section :=
  let st0 : TimeState :=
    { sections := sections
      slotUsage := fun _ => 0
      gradeSlotUsage := fun _ _ => 0
      teacherOcc := initTeacherOcc teachers }
  let groups := groupByCourse sections
  let final := groups.foldl
    (fun st group =>
      let grades := ((courseMap group.1).bind (·.gradeRestrictions)).getD []
      assignCourseSlots config grades group.2 st ∅)
    st0
  final.sections

/-! ## Phase 3: `assignRooms` -/

/-- Seed the room-occupancy map with each room's unavailable periods. -/
def initRoomOcc (rooms : List Room) : RoomId → Finset (Nat × Nat) :=
  rooms.foldl (fun m r => Function.update m r.id (periodKeys r.unavailable)) (fun _ => ∅)

/-- The `suitableRooms` filter: enough capacity and all required features. -/
def suitableRooms (rooms : List Room) (sec : Section) (requiredFeatures : List String) :
    List Room :=
  rooms.filter fun r =>
    ! decide (r.capacity < sec.capacity) && requiredFeatures.all (fun f => r.features.contains f)

/-- `suitableRooms.sort((a, b) => a.capacity - b.capacity)`: stable ascending
sort by capacity. -/
def sortByCapacity (l : List Room) : List Room :=
  List.insertionSort (fun a b => a.capacity ≤ b.capacity) l

/-- `canUse`: every section period absent from the room's occupied set. -/
def roomFree (occ : RoomId → Finset (Nat × Nat)) (sec : Section) (room : Room) : Bool :=
  sec.periods.all fun p => decide (p.key ∉ occ room.id)

/-- Walk the sorted candidate list and return the first available room. -/
def firstFreeRoom (occ : RoomId → Finset (Nat × Nat)) (sec : Section) :
    List Room → Option Room
  | [] => none
  | room :: rest =>
    if roomFree occ sec room then some room else firstFreeRoom occ sec rest

/-- The section loop of `assignRooms`, threading the room occupancies. -/
def assignRoomsGo (rooms : List Room) (courseMap : CourseId → Option Course) :
    List Section → (RoomId → Finset (Nat × Nat)) → List Section
  | [], _ => []
  | sec :: rest, occ =>
    let requiredFeatures := match courseMap sec.courseId with
      | some c => c.requiredFeatures
      | none => []
    let candidates := sortByCapacity (suitableRooms rooms sec requiredFeatures)
    match firstFreeRoom occ sec candidates with
    | none => sec :: assignRoomsGo rooms courseMap rest occ
    | some room =>
      { sec with roomId := some room.id } ::
        assignRoomsGo rooms courseMap rest
          (Function.update occ room.id (occ room.id ∪ periodKeys sec.periods))

/-- Phase 3 (`assignRooms` of `schedule-loader.ts`): walk the sections in
order; assign the first suitable room (sorted by ascending capacity) that is
free at all section periods, and mark its occupancy.  `config` is accepted
but unused, as in the source. -/
def assignRooms (sections : List Section) (rooms : List Room)
    (courseMap : CourseId → Option Course) (_config : ScheduleConfig) : List Section :=
  assignRoomsGo rooms courseMap sections (initRoomOcc rooms)

/-! ## Phase 4: `runGreedyAssignment` / `assignStudentToSection` -/

/-- Indices of the sections of one course, in section-list order
(`sections.filter(s => s.courseId === courseId)`). -/
def courseSectionIdxs (sections : List Section) (courseId : CourseId) : List Nat :=
  (List.range sections.length).filter fun i => (secAt sections i).courseId == courseId

/-- Stable ascending sort of section indices by current enrolled count
(`sort((a, b) => a.enrolledStudents.length - b.enrolledStudents.length)`). -/
def sortIdxBySize (secs : List Section) (idxs : List Nat) : List Nat :=
  List.insertionSort
    (fun i j =>
      (secAt secs i).enrolledStudents.length ≤ (secAt secs j).enrolledStudents.length)
    idxs

/-- The section walk of `assignStudentToSection`: skip full sections, skip
time conflicts, enroll into the first acceptable section. -/
def tryEnroll (studentId : StudentId) :
    List Nat → List Section → (StudentId → Finset (Nat × Nat)) →
      List Section × (StudentId → Finset (Nat × Nat)) × Bool
  | [], sections, sched => (sections, sched, false)
  | i :: rest, sections, sched =>
    let sec := secAt sections i
    if sec.capacity ≤ sec.enrolledStudents.length then
      tryEnroll studentId rest sections sched
    else if sec.periods.any (fun p => decide (p.key ∈ sched studentId)) then
      tryEnroll studentId rest sections sched
    else
      (sections.set i { sec with enrolledStudents := sec.enrolledStudents ++ [studentId] },
       Function.update sched studentId (sched studentId ∪ periodKeys sec.periods),
       true)

/-- `assignStudentToSection` of `schedule-loader.ts`. -/
def assignStudentToSection (studentId : StudentId) (courseId : CourseId)
    (sections : List Section) (sched : StudentId → Finset (Nat × Nat)) :
    List Section × (StudentId → Finset (Nat × Nat)) × Bool :=
  tryEnroll studentId (sortIdxBySize sections (courseSectionIdxs sections courseId))
    sections sched

/-- The running state of the greedy passes. -/
structure GreedyState where
  sections : List Section
  sched : StudentId → Finset (Nat × Nat)
  unassigned : List UnassignedStudent

/-- One student's required pass: look the course up, silently skip a grade
mismatch, otherwise try to enroll; record an `Unassigned` entry on a missing
course or a failed enrollment. -/
def requiredPass (courseMap : CourseId → Option Course) (student : Student) :
    List CourseId → GreedyState → GreedyState
  | [], st => st
  | courseId :: rest, st =>
    match courseMap courseId with
    | none =>
      requiredPass courseMap student rest
        { st with unassigned :=
            st.unassigned ++ [⟨student.id, courseId, "Course not found"⟩] }
    | some course =>
      if (match course.gradeRestrictions with
          | some gr => ! gr.contains student.grade
          | none => false) then
        requiredPass courseMap student rest st
      else
        let res := assignStudentToSection student.id courseId st.sections st.sched
        let st' : GreedyState := { st with sections := res.1, sched := res.2.1 }
        if res.2.2 then
          requiredPass courseMap student rest st'
        else
          requiredPass courseMap student rest
            { st' with unassigned := st'.unassigned ++
                [⟨student.id, courseId, "No available section (conflict or capacity)"⟩] }

/-- One student's elective pass: failures are silent. -/
def electivePass (courseMap : CourseId → Option Course) (student : Student) :
    List CourseId → GreedyState → GreedyState
  | [], st => st
  | courseId :: rest, st =>
    match courseMap courseId with
    | none => electivePass courseMap student rest st
    | some course =>
      if (match course.gradeRestrictions with
          | some gr => ! gr.contains student.grade
          | none => false) then
        electivePass courseMap student rest st
      else
        let res := assignStudentToSection student.id courseId st.sections st.sched
        electivePass courseMap student rest { st with sections := res.1, sched := res.2.1 }

/-- Phase 4 (`runGreedyAssignment` of `schedule-loader.ts`): the required
pass over all students in input order, then the elective pass. -/
def runGreedyAssignment (sections : List Section) (input : ScheduleInput)
    (courseMap : CourseId → Option Course) :
    List Section × (StudentId → Finset (Nat × Nat)) × List UnassignedStudent :=
  let st0 : GreedyState := { sections := sections, sched := fun _ => ∅, unassigned := [] }
  let st1 := input.students.foldl
    (fun st student => requiredPass courseMap student student.requiredCourses st) st0
  let st2 := input.students.foldl
    (fun st student => electivePass courseMap student student.electivePreferences st) st1
  (st2.sections, st2.sched, st2.unassigned)

/-- `buildStudentSchedules`: recompute each known student's period-key set
from the current enrollments (unknown enrolled ids are skipped by the
`if (schedule)` guard). -/
def buildStudentSchedules (sections : List Section) (students : List Student) :
    StudentId → Finset (Nat × Nat) :=
  let known := students.map (·.id)
  sections.foldl
    (fun sched sec =>
      sec.enrolledStudents.foldl
        (fun sched sid =>
          if sid ∈ known then
            Function.update sched sid (sched sid ∪ periodKeys sec.periods)
          else sched)
        sched)
    (fun _ => ∅)

/-! ## Phase 5: `optimizeSections` -/

/-- The running state of the rebalancing loop.  The per-course index lists
are part of the state because the source sorts the group arrays in place:
their order carries over from one iteration to the next. -/
structure OptState where
  sections : List Section
  groups : List (CourseId × List Nat)
  sched : StudentId → Finset (Nat × Nat)

/-- The candidate walk of one rebalancing attempt: tentatively delete the
largest section's periods from the student's set, test the smallest
section's periods and capacity, then either commit the move (and stop) or
restore the set and try the next candidate. -/
def tryMove (largestIdx smallestIdx : Nat) :
    List StudentId → List Section → (StudentId → Finset (Nat × Nat)) →
      List Section × (StudentId → Finset (Nat × Nat)) × Bool
  | [], sections, sched => (sections, sched, false)
  | sid :: rest, sections, sched =>
    let largest := secAt sections largestIdx
    let smallest := secAt sections smallestIdx
    let sched1 := Function.update sched sid (sched sid \ periodKeys largest.periods)
    let conflict := smallest.periods.any fun p => decide (p.key ∈ sched1 sid)
    if !conflict && smallest.enrolledStudents.length < smallest.capacity then
      ((sections.set largestIdx
          { largest with enrolledStudents := largest.enrolledStudents.filter (· != sid) }).set
          smallestIdx
          { smallest with enrolledStudents := smallest.enrolledStudents ++ [sid] },
       Function.update sched1 sid (sched1 sid ∪ periodKeys smallest.periods),
       true)
    else
      tryMove largestIdx smallestIdx rest sections
        (Function.update sched1 sid (sched1 sid ∪ periodKeys largest.periods))

/-- One course group of one rebalancing iteration: skip groups of fewer than
two sections, sort the group by current size (in place: the sorted order is
kept in the state), compare the extremes, and try to move one student. -/
def onePassGroup (sections : List Section) (sched : StudentId → Finset (Nat × Nat))
    (group : CourseId × List Nat) :
    (CourseId × List Nat) × List Section × (StudentId → Finset (Nat × Nat)) × Bool :=
  if group.2.length < 2 then (group, sections, sched, false)
  else
    let sorted := sortIdxBySize sections group.2
    let smallestIdx := sorted.headD 0
    let largestIdx := sorted.getLastD 0
    let smallest := secAt sections smallestIdx
    let largest := secAt sections largestIdx
    if largest.enrolledStudents.length - smallest.enrolledStudents.length ≤ 1 then
      ((group.1, sorted), sections, sched, false)
    else
      let res := tryMove largestIdx smallestIdx largest.enrolledStudents sections sched
      ((group.1, sorted), res.1, res.2.1, res.2.2)

/-- The group loop of one rebalancing iteration, threading the `improved`
flag. -/
def onePassGo : List (CourseId × List Nat) → List Section →
    (StudentId → Finset (Nat × Nat)) → Bool →
    List (CourseId × List Nat) × List Section × (StudentId → Finset (Nat × Nat)) × Bool
  | [], sections, sched, improved => ([], sections, sched, improved)
  | group :: rest, sections, sched, improved =>
    let res := onePassGroup sections sched group
    let resRest := onePassGo rest res.2.1 res.2.2.1 (improved || res.2.2.2)
    (res.1 :: resRest.1, resRest.2.1, resRest.2.2.1, resRest.2.2.2)

/-- One full iteration over all course groups. -/
def onePass (st : OptState) : OptState × Bool :=
  let res := onePassGo st.groups st.sections st.sched false
  ({ sections := res.2.1, groups := res.1, sched := res.2.2.1 }, res.2.2.2)

/-- The iteration loop of `optimizeSections`: run up to `fuel` passes,
stopping after the first non-improving pass; also counts executed passes. -/
def optimizeRun : Nat → OptState → OptState × Nat
  | 0, st => (st, 0)
  | fuel + 1, st =>
    let res := onePass st
    if res.2 then
      let resRec := optimizeRun fuel res.1
      (resRec.1, resRec.2 + 1)
    else (res.1, 1)

/-- Phase 5 (`optimizeSections` of `schedule-loader.ts`).  `courseMap` is
accepted but unused, as in the source. -/
def optimizeSections (sections : List Section) (sched : StudentId → Finset (Nat × Nat))
    (_courseMap : CourseId → Option Course) (maxIterations : Nat) : List Section :=
  (optimizeRun maxIterations
    { sections := sections, groups := groupByCourse sections, sched := sched }).1.sections

/-! ## Scoring and the pipeline -/

/-- `Math.max(...sizes)` over a nonempty list (`0` for `[]`, unreachable). -/
def maxList : List Nat → Nat
  | [] => 0
  | x :: xs => xs.foldl max x

/-- `Math.min(...sizes)` over a nonempty list (`0` for `[]`, unreachable). -/
def minList : List Nat → Nat
  | [] => 0
  | x :: xs => xs.foldl min x

/-- `calculateScore` of `schedule-loader.ts`: `100 − 5·empty −
0.5·Σ (max − min) − 10·roomless − 10·teacherless`, clamped to `[0, 100]`. -/
def calculateScore (sections : List Section) (_input : ScheduleInput) : ℚ :=
  let score : ℚ := 100
  let score := score - (sections.filter (fun s => s.enrolledStudents.length == 0)).length * 5
  let score := (groupByCourse sections).foldl
    (fun sc g =>
      if g.2.length < 2 then sc
      else
        let sizes := g.2.map fun i => (secAt sections i).enrolledStudents.length
        sc - ((maxList sizes - minList sizes : Nat) : ℚ) * (1 / 2))
    score
  let score := score - (sections.filter (fun s => s.roomId.isNone)).length * 10
  let score := score - (sections.filter (fun s => s.teacherId.isNone)).length * 10
  max 0 (min 100 score)

/-- `generateSchedule` of `schedule-loader.ts` (the web engine: greedy only).
The ambient clock is made explicit: `startTime` and `endTime` are the two
`Date.now()` readings and `generatedAt` the `new Date().toISOString()`
string; the function is otherwise pure. -/
def generateSchedule (input : ScheduleInput) (options : SchedulerOptions)
    (startTime endTime : Int) (generatedAt : String) : ScheduleResult :=
  let maxOptimizationIterations := options.maxOptimizationIterations.getD 500
  let courseMap := buildMap Course.id input.courses
  let sections1 := createSections input.courses input.teachers
  let sections2 := assignTimeSlots sections1 input.teachers input.config courseMap
  let sections3 := assignRooms sections2 input.rooms courseMap input.config
  let greedyRes := runGreedyAssignment sections3 input courseMap
  let sections4 := greedyRes.1
  let studentSchedules := buildStudentSchedules sections4 input.students
  let sections5 := optimizeSections sections4 studentSchedules courseMap
    maxOptimizationIterations
  { sections := sections5
    unassignedStudents := greedyRes.2.2
    metadata :=
      { generatedAt := generatedAt
        algorithmVersion := "1.0.0-greedy-workers"
        score := calculateScore sections5 input
        solveTimeMs := endTime - startTime
        constraintsSatisfied := 0
        constraintsTotal := 0 } }

/-! ## The ILP objective coefficient (`solveScheduleILP`, CLI engine) -/

/-- The per-pair objective weight computation of `solveScheduleILP`: skip a
grade-ineligible pair; start from `1000` for a required course, then
overwrite with `10 − rank` whenever the course occurs in the elective list;
emit the term only when the weight is positive.  `none` means the variable
is omitted from the objective. -/
def objectiveTerm (courseMap : CourseId → Option Course) (student : Student)
    (sec : Section) : Option Int :=
  let course := courseMap sec.courseId
  if (match course.bind (·.gradeRestrictions) with
      | some gr => ! gr.contains student.grade
      | none => false) then
    none
  else
    let weight : Int := if sec.courseId ∈ student.requiredCourses then 1000 else 0
    let weight : Int := match student.electivePreferences.indexOf? sec.courseId with
      | some rank => 10 - (rank : Int)
      | none => weight
    if 0 < weight then some weight else none

/-- The objective terms of the ILP model, in loop order: one optional term
per (student index, section index) pair. -/
def objectiveTerms (courseMap : CourseId → Option Course) (students : List Student)
    (sections : List Section) : List (Nat × Nat × Int) :=
  students.enum.foldr
    (fun si acc =>
      sections.enum.foldr
        (fun ki acc' =>
          match objectiveTerm courseMap si.2 ki.2 with
          | some w => (si.1, ki.1, w) :: acc'
          | none => acc')
        acc)
    []

/-! ## General lemmas about the stable sort -/

/-- The first element attaining the minimum of `key`, i.e. the head of a
stable ascending sort by `key`. -/
def firstMinBy {α : Type} (key : α → Nat) : List α → Option α
  | [] => none
  | a :: l =>
    match firstMinBy key l with
    | none => some a
    | some m => if key a ≤ key m then some a else some m

theorem insertionSort_key_eq_nil {α : Type} (key : α → Nat) (l : List α)
    (h : List.insertionSort (fun a b => key a ≤ key b) l = []) : l = [] := by
  have := List.length_insertionSort (fun a b => key a ≤ key b) l
  rw [h] at this
  exact List.length_eq_zero.mp this.symm

/-- The head of the stable ascending sort by `key` is the first element of
the input attaining the minimal key. -/
theorem head_insertionSort {α : Type} (key : α → Nat) (l : List α) :
    (List.insertionSort (fun a b => key a ≤ key b) l).head? = firstMinBy key l := by
  induction l with
  | nil => rfl
  | cons a l ih =>
    show (List.orderedInsert _ a (List.insertionSort _ l)).head? = _
    cases h : List.insertionSort (fun a b => key a ≤ key b) l with
    | nil =>
      have hl : l = [] := insertionSort_key_eq_nil key l h
      subst hl
      rfl
    | cons b t =>
      rw [h] at ih
      simp only [List.head?_cons] at ih
      simp only [firstMinBy, ← ih]
      by_cases hle : key a ≤ key b
      · simp [List.orderedInsert, hle]
      · simp [List.orderedInsert, hle]

theorem sorted_insertionSort_key {α : Type} (key : α → Nat) (l : List α) :
    (List.insertionSort (fun a b => key a ≤ key b) l).Pairwise
      (fun a b => key a ≤ key b) := by
  haveI : IsTotal α (fun a b => key a ≤ key b) := ⟨fun a b => Nat.le_total (key a) (key b)⟩
  haveI : IsTrans α (fun a b => key a ≤ key b) := ⟨fun _ _ _ => Nat.le_trans⟩
  exact List.sorted_insertionSort _ l

theorem perm_insertionSort_key {α : Type} (key : α → Nat) (l : List α) :
    (List.insertionSort (fun a b => key a ≤ key b) l).Perm l :=
  List.perm_insertionSort _ l

/-- Every member of a `key`-sorted list is bounded below by the head. -/
theorem pairwise_headD_le {α : Type} (key : α → Nat) (d : α) :
    ∀ (l : List α), l.Pairwise (fun a b => key a ≤ key b) →
      ∀ x ∈ l, key (l.headD d) ≤ key x
  | [], _, x, hx => absurd hx (List.not_mem_nil x)
  | a :: l, hp, x, hx => by
    rcases List.mem_cons.mp hx with rfl | hx
    · exact Nat.le_refl _
    · exact (List.pairwise_cons.mp hp).1 x hx

/-- The head of a nonempty list (via `headD`) is a member. -/
theorem headD_mem {α : Type} (d : α) : ∀ (l : List α), l ≠ [] → l.headD d ∈ l
  | [], h => absurd rfl h
  | a :: l, _ => List.mem_cons_self a l

/-- The last element of a nonempty list (via `getLastD`) is a member. -/
theorem getLastD_mem {α : Type} (d : α) : ∀ (l : List α), l ≠ [] → l.getLastD d ∈ l
  | [], h => absurd rfl h
  | [a], _ => by simp
  | a :: b :: l, _ => by
    have h1 : (a :: b :: l).getLastD d = (b :: l).getLastD d := by
      simp [List.getLastD_cons]
    rw [h1]
    exact List.mem_cons_of_mem a (getLastD_mem d (b :: l) (by simp))

/-- Every member of a `key`-sorted list is bounded above by the last
element. -/
theorem pairwise_le_getLastD {α : Type} (key : α → Nat) (d : α) :
    ∀ (l : List α), l.Pairwise (fun a b => key a ≤ key b) →
      ∀ x ∈ l, key x ≤ key (l.getLastD d)
  | [], _, x, hx => absurd hx (List.not_mem_nil x)
  | [a], _, x, hx => by
    rcases List.mem_cons.mp hx with rfl | hx
    · exact Nat.le_refl _
    · exact absurd hx (List.not_mem_nil x)
  | a :: b :: l, hp, x, hx => by
    have htail := (List.pairwise_cons.mp hp).2
    have hhead := (List.pairwise_cons.mp hp).1
    have hl : (a :: b :: l).getLastD d = (b :: l).getLastD d := by
      simp [List.getLastD_cons]
    rcases List.mem_cons.mp hx with rfl | hx
    · rw [hl]
      exact hhead _ (getLastD_mem d (b :: l) (by simp))
    · rw [hl]
      exact pairwise_le_getLastD key d (b :: l) htail x hx

/-! ## Claim C4: the ILP objective coefficients -/

/-- The objective-coefficient rule as the code actually implements it
(elective membership takes precedence over the required bonus): the pair is
skipped when grade-ineligible; otherwise, when the course occurs in the
elective list at (0-indexed) `rank`, the coefficient is `10 − rank` for
`rank < 10` and the variable is omitted for `rank ≥ 10` — even when the
course is also required; otherwise the coefficient is `1000` when the course
is required; otherwise the variable is omitted. -/
def objectiveTermSpec (courseMap : CourseId → Option Course) (student : Student)
    (sec : Section) : Option Int :=
  if (match (courseMap sec.courseId).bind (·.gradeRestrictions) with
      | some gr => ! gr.contains student.grade
      | none => false) then
    none
  else
    match student.electivePreferences.indexOf? sec.courseId with
    | some rank => if rank < 10 then some (10 - (rank : Int)) else none
    | none => if sec.courseId ∈ student.requiredCourses then some 1000 else none

/-- Claim C4 (amended): for every (student, section) pair, the objective
coefficient computed by `solveScheduleILP` follows `objectiveTermSpec`: the
elective rank takes precedence over the required-course bonus, so a course
that is both required and an elective gets weight `10 − rank` (or is omitted
when `rank ≥ 10`), not `1000`. -/
theorem claim_C4_amended (courseMap : CourseId → Option Course) (student : Student)
    (sec : Section) : objectiveTerm courseMap student sec = objectiveTermSpec courseMap student sec := by
  unfold objectiveTerm objectiveTermSpec
  by_cases hgrade : (match (courseMap sec.courseId).bind (·.gradeRestrictions) with
      | some gr => ! gr.contains student.grade
      | none => false) = true
  · simp only [if_pos hgrade]
  · simp only [if_neg hgrade]
    cases hidx : student.electivePreferences.indexOf? sec.courseId with
    | none =>
      by_cases hreq : sec.courseId ∈ student.requiredCourses
      · simp [hidx, hreq]
      · simp [hidx, hreq]
    | some rank =>
      by_cases hr : rank < 10
      · have h1 : (0 : Int) < 10 - (rank : Int) := by omega
        simp [hidx, h1, hr]
      · have h1 : ¬ ((0 : Int) < 10 - (rank : Int)) := by omega
        simp [hidx, h1, hr]

/-- A course that is required and also the first elective preference. -/
def c4Course : Course :=
  ⟨"ALG", 30, 5, none, [], 1⟩

def c4Student : Student :=
  ⟨"S1", 9, ["ALG"], ["ALG"]⟩

def c4Section : Section :=
  ⟨"ALG-1", "ALG", none, none, [], [], 30⟩

/-- Claim C4 counterexample: for a grade-eligible pair whose course is in the
student's required list (and also rank 0 of the elective list), the code
emits coefficient `10`, not the `1000` the claim asserts. -/
theorem claim_C4_counterexample :
    c4Section.courseId ∈ c4Student.requiredCourses ∧
    objectiveTerm (buildMap Course.id [c4Course]) c4Student c4Section = some 10 ∧
    objectiveTerm (buildMap Course.id [c4Course]) c4Student c4Section ≠ some 1000 := by
  refine ⟨by decide, by decide, by decide⟩

/-! ## Claim C3: the teacher section cap -/

/-- The number of sections a teacher is assigned to. -/
def teacherLoad (secs : List Section) (tid : TeacherId) : Nat :=
  (secs.filter fun s => s.teacherId == some tid).length

/-- The largest per-course section count of the input. -/
def maxCourseSections (courses : List Course) : Nat :=
  (courses.map (·.sections)).foldr max 0

/-- The largest `maxSections` value over the teachers carrying an id. -/
def maxSectionsOf (teachers : List Teacher) (tid : TeacherId) : Nat :=
  ((teachers.filter fun t => t.id == tid).map (·.maxSections)).foldr max 0

theorem teacherLoad_append (a b : List Section) (tid : TeacherId) :
    teacherLoad (a ++ b) tid = teacherLoad a tid + teacherLoad b tid := by
  simp [teacherLoad, List.filter_append]

theorem teacherLoad_cons (s : Section) (rest : List Section) (tid : TeacherId) :
    teacherLoad (s :: rest) tid =
      (if s.teacherId == some tid then 1 else 0) + teacherLoad rest tid := by
  simp only [teacherLoad, List.filter_cons]
  by_cases h : s.teacherId == some tid
  · simp only [h, if_pos]
    simp [Nat.add_comm]
  · simp [h]

theorem mem_le_foldr_max (x : Nat) : ∀ (l : List Nat), x ∈ l → x ≤ l.foldr max 0
  | y :: ys, hx => by
    rcases List.mem_cons.mp hx with rfl | hx
    · exact Nat.le_max_left _ _
    · exact Nat.le_trans (mem_le_foldr_max x ys hx) (Nat.le_max_right _ _)

theorem foldr_max_le (n : Nat) : ∀ (l : List Nat), (∀ x ∈ l, x ≤ n) → l.foldr max 0 ≤ n
  | [], _ => Nat.zero_le n
  | y :: ys, h => by
    simp only [List.foldr_cons]
    exact Nat.max_le.mpr ⟨h y (List.mem_cons_self y ys),
      foldr_max_le n ys fun x hx => h x (List.mem_cons_of_mem y hx)⟩

/-- A teacher in the list has `maxSections` bounded by `maxSectionsOf` its
id. -/
theorem maxSections_le_maxSectionsOf (teachers : List Teacher) (t : Teacher)
    (ht : t ∈ teachers) : t.maxSections ≤ maxSectionsOf teachers t.id := by
  apply mem_le_foldr_max
  apply List.mem_map_of_mem
  exact List.mem_filter.mpr ⟨ht, by simp⟩

theorem if_bool_false {b : Bool} (h : b = false) :
    (if b = true then (1 : Nat) else 0) = 0 := by subst h; rfl

theorem if_bool_true {b : Bool} (h : b = true) :
    (if b = true then (1 : Nat) else 0) = 1 := by subst h; rfl

/-- The running count returned by `makeSections` tracks the load of the
sections it produced. -/
theorem makeSections_count (c : Course) (pool : List Teacher) (tid : TeacherId) :
    ∀ (fuel i : Nat) (count : TeacherId → Nat),
      (makeSections c pool i fuel count).1 tid =
        count tid + teacherLoad (makeSections c pool i fuel count).2 tid
  | 0, i, count => by simp [makeSections, teacherLoad]
  | fuel + 1, i, count => by
    simp only [makeSections]
    cases hT : pool.get? (i % pool.length) with
    | none =>
      simp only [hT, Option.map_none']
      rw [teacherLoad_cons]
      dsimp only
      rw [makeSections_count c pool tid fuel (i + 1) count]
      simp
    | some t =>
      simp only [hT, Option.map_some']
      rw [teacherLoad_cons]
      dsimp only
      rw [makeSections_count c pool tid fuel (i + 1)
        (Function.update count t.id (count t.id + 1))]
      by_cases hid : t.id = tid
      · subst hid
        rw [Function.update_same]
        simp only [beq_self_eq_true, if_pos]
        omega
      · rw [Function.update_noteq (Ne.symm hid)]
        have hbeq : (some t.id == some tid) = false := by simp [hid]
        rw [hbeq]
        simp

/-- `makeSections` produces at most `fuel` sections for any teacher. -/
theorem makeSections_load_le (c : Course) (pool : List Teacher) (tid : TeacherId) :
    ∀ (fuel i : Nat) (count : TeacherId → Nat),
      teacherLoad (makeSections c pool i fuel count).2 tid ≤ fuel
  | 0, i, count => by simp [makeSections, teacherLoad]
  | fuel + 1, i, count => by
    simp only [makeSections]
    cases hT : pool.get? (i % pool.length) with
    | none =>
      simp only [hT, Option.map_none']
      rw [teacherLoad_cons]
      dsimp only
      have := makeSections_load_le c pool tid fuel (i + 1) count
      rw [if_bool_false (show ((none : Option TeacherId) == some tid) = false from rfl)]
      omega
    | some t =>
      simp only [hT, Option.map_some']
      rw [teacherLoad_cons]
      dsimp only
      have := makeSections_load_le c pool tid fuel (i + 1)
        (Function.update count t.id (count t.id + 1))
      by_cases hbeq : (some t.id == some tid) = true
      · rw [if_bool_true hbeq]
        omega
      · rw [Bool.not_eq_true] at hbeq
        rw [if_bool_false hbeq]
        omega


/-- A teacher with nonzero load from `makeSections` occurs in the pool. -/
theorem makeSections_load_pool (c : Course) (pool : List Teacher) (tid : TeacherId) :
    ∀ (fuel i : Nat) (count : TeacherId → Nat),
      teacherLoad (makeSections c pool i fuel count).2 tid ≠ 0 →
        ∃ t ∈ pool, t.id = tid
  | 0, i, count, h => absurd (by simp [makeSections, teacherLoad]) h
  | fuel + 1, i, count, h => by
    simp only [makeSections] at h
    cases hT : pool.get? (i % pool.length) with
    | none =>
      rw [hT] at h
      simp only [Option.map_none'] at h
      rw [teacherLoad_cons] at h
      dsimp only at h
      rw [if_bool_false (show ((none : Option TeacherId) == some tid) = false from rfl)] at h
      exact makeSections_load_pool c pool tid fuel (i + 1) count (by omega)
    | some t =>
      rw [hT] at h
      simp only [Option.map_some'] at h
      by_cases hid : t.id = tid
      · exact ⟨t, List.get?_mem hT, hid⟩
      · have hbeq : (some t.id == some tid) = false := by simp [hid]
        rw [teacherLoad_cons] at h
        dsimp only at h
        rw [if_bool_false hbeq] at h
        exact makeSections_load_pool c pool tid fuel (i + 1)
          (Function.update count t.id (count t.id + 1)) (by omega)

/-- The load of `createSectionsGo` never raises a teacher's total above
`maxSectionsOf − 1 + maxCourseSections` (a teacher enters a course's pool
only while strictly below the cap, and one course adds at most its own
section count). -/
theorem createSectionsGo_bound (teachers : List Teacher) (tid : TeacherId) :
    ∀ (cs : List Course) (count : TeacherId → Nat),
      teacherLoad (createSectionsGo teachers cs count) tid + count tid ≤
        max (count tid) (maxSectionsOf teachers tid - 1 + maxCourseSections cs)
  | [], count => by
    simp only [createSectionsGo, teacherLoad]
    simp
  | c :: cs, count => by
    simp only [createSectionsGo, teacherLoad_append]
    set pool := teachers.filter fun t =>
      c.id ∈ t.subjects && count t.id < t.maxSections with hpooldef
    have hcount := makeSections_count c pool tid c.sections 0 count
    have hloadle := makeSections_load_le c pool tid c.sections 0 count
    have ih := createSectionsGo_bound teachers tid cs ((makeSections c pool 0 c.sections count).1)
    rw [hcount] at ih
    have hmono : maxCourseSections cs ≤ maxCourseSections (c :: cs) := by
      simp only [maxCourseSections, List.map_cons, List.foldr_cons]
      exact Nat.le_max_right _ _
    have hcsec : c.sections ≤ maxCourseSections (c :: cs) := by
      simp only [maxCourseSections, List.map_cons, List.foldr_cons]
      exact Nat.le_max_left _ _
    by_cases hz : teacherLoad (makeSections c pool 0 c.sections count).2 tid = 0
    · have hub : max (count tid + teacherLoad (makeSections c pool 0 c.sections count).2 tid)
          (maxSectionsOf teachers tid - 1 + maxCourseSections cs) ≤
          max (count tid) (maxSectionsOf teachers tid - 1 + maxCourseSections (c :: cs)) := by
        apply max_le_max
        · omega
        · omega
      have hfin := Nat.le_trans ih hub
      omega
    · obtain ⟨t, htpool, htid⟩ := makeSections_load_pool c pool tid c.sections 0 count hz
      rw [hpooldef] at htpool
      obtain ⟨hteach, hcond⟩ := List.mem_filter.mp htpool
      have hcnt : count t.id < t.maxSections := of_decide_eq_true (Bool.and_eq_true_iff.mp hcond).2
      have hms := maxSections_le_maxSectionsOf teachers t hteach
      rw [htid] at hms hcnt
      have hub : max (count tid + teacherLoad (makeSections c pool 0 c.sections count).2 tid)
          (maxSectionsOf teachers tid - 1 + maxCourseSections cs) ≤
          max (count tid) (maxSectionsOf teachers tid - 1 + maxCourseSections (c :: cs)) := by
        apply Nat.max_le.mpr
        constructor
        · have h1 : count tid + teacherLoad (makeSections c pool 0 c.sections count).2 tid ≤
              maxSectionsOf teachers tid - 1 + maxCourseSections (c :: cs) := by omega
          exact Nat.le_trans h1 (Nat.le_max_right _ _)
        · have h2 : maxSectionsOf teachers tid - 1 + maxCourseSections cs ≤
              maxSectionsOf teachers tid - 1 + maxCourseSections (c :: cs) := by omega
          exact Nat.le_trans h2 (Nat.le_max_right _ _)
      have hfin := Nat.le_trans ih hub
      omega

/-- A teacher with nonzero load was admitted to some pool, so its cap is
positive. -/
theorem createSectionsGo_pos (teachers : List Teacher) (tid : TeacherId) :
    ∀ (cs : List Course) (count : TeacherId → Nat),
      teacherLoad (createSectionsGo teachers cs count) tid ≠ 0 →
        1 ≤ maxSectionsOf teachers tid
  | [], count, h => absurd (by simp [createSectionsGo, teacherLoad]) h
  | c :: cs, count, h => by
    simp only [createSectionsGo, teacherLoad_append] at h
    set pool := teachers.filter fun t =>
      c.id ∈ t.subjects && count t.id < t.maxSections with hpooldef
    by_cases hz : teacherLoad (makeSections c pool 0 c.sections count).2 tid = 0
    · exact createSectionsGo_pos teachers tid cs
        ((makeSections c pool 0 c.sections count).1) (by omega)
    · obtain ⟨t, htpool, htid⟩ := makeSections_load_pool c pool tid c.sections 0 count hz
      rw [hpooldef] at htpool
      obtain ⟨hteach, hcond⟩ := List.mem_filter.mp htpool
      have hcnt : count t.id < t.maxSections := of_decide_eq_true (Bool.and_eq_true_iff.mp hcond).2
      have hms := maxSections_le_maxSectionsOf teachers t hteach
      rw [htid] at hms
      omega

/-- A teacher with `maxSections = 1` that is the only qualified teacher of a
two-section course. -/
def c3Teacher : Teacher := ⟨"T", ["C"], 1, []⟩

def c3Course : Course := ⟨"C", 30, 5, none, [], 2⟩

def c3CourseOneSection : Course := ⟨"C", 30, 5, none, [], 1⟩

/-- Claim C3 counterexample: with `max_sections = 1` and a single course of
two sections, Phase 1 assigns the teacher to 2 sections — the pool is
filtered once per course, so the round-robin within one course exceeds the
cap. -/
theorem claim_C3_counterexample :
    c3Teacher.maxSections = 1 ∧
    teacherLoad (createSections [c3Course] [c3Teacher]) "T" = 2 := by
  refine ⟨rfl, by decide⟩

/-- Claim C3 (amended): a teacher appears as `teacher_id` of at most
`max_sections − 1 + M` sections, where `M` is the largest per-course section
count of the input (`maxSectionsOf` takes the largest cap among teachers
sharing the id); in particular, when every course has at most one section,
the original cap `max_sections` holds. -/
theorem claim_C3_amended (courses : List Course) (teachers : List Teacher)
    (tid : TeacherId) :
    teacherLoad (createSections courses teachers) tid ≤
      maxSectionsOf teachers tid - 1 + maxCourseSections courses ∧
    ((∀ c ∈ courses, c.sections ≤ 1) →
      teacherLoad (createSections courses teachers) tid ≤ maxSectionsOf teachers tid) := by
  have hbound := createSectionsGo_bound teachers tid courses (fun _ => 0)
  have hmax : max 0 (maxSectionsOf teachers tid - 1 + maxCourseSections courses) =
      maxSectionsOf teachers tid - 1 + maxCourseSections courses :=
    Nat.max_eq_right (Nat.zero_le _)
  rw [hmax] at hbound
  simp only [createSections]
  constructor
  · omega
  · intro hone
    have hK : maxCourseSections courses ≤ 1 := by
      apply foldr_max_le
      intro x hx
      obtain ⟨c, hc, rfl⟩ := List.mem_map.mp hx
      exact hone c hc
    by_cases hz : teacherLoad (createSectionsGo teachers courses (fun _ => 0)) tid = 0
    · omega
    · have hms1 := createSectionsGo_pos teachers tid courses (fun _ => 0) hz
      omega

/-- Witness for the amended C3 at a concrete input. -/
theorem claim_C3_amended_witness :
    (∀ c ∈ [c3CourseOneSection], c.sections ≤ 1) ∧
    teacherLoad (createSections [c3CourseOneSection] [c3Teacher]) "T" ≤
      maxSectionsOf [c3Teacher] "T" := by
  have h := claim_C3_amended [c3CourseOneSection] [c3Teacher] "T"
  exact ⟨by decide, h.2 (by decide)⟩

/-! ## Frame lemmas: which fields each phase can touch

Each lemma is parameterized by a projection `f` that is insensitive to the
one field the phase writes; the phase then preserves `sections.map f`. -/

theorem map_set_secAt {β : Type} (f : Section → β) :
    ∀ (l : List Section) (i : Nat) (a : Section),
      f a = f (secAt l i) → (l.set i a).map f = l.map f
  | [], _, _, _ => rfl
  | x :: xs, 0, a, h => by
    simp only [secAt, List.getD] at h
    simp [List.set, h]
  | x :: xs, i + 1, a, h => by
    simp only [List.set, List.map_cons]
    rw [map_set_secAt f xs i a h]

theorem secAt_set_proj {β : Type} (f : Section → β) :
    ∀ (l : List Section) (i : Nat) (a : Section) (j : Nat),
      f a = f (secAt l i) → f (secAt (l.set i a) j) = f (secAt l j)
  | [], _, _, _, _ => rfl
  | x :: xs, 0, a, 0, h => by
    simp only [secAt, List.getD] at h
    simpa [List.set, secAt] using h
  | x :: xs, 0, a, j + 1, h => by simp [List.set, secAt]
  | x :: xs, i + 1, a, 0, h => by simp [List.set, secAt]
  | x :: xs, i + 1, a, j + 1, h => by
    simp only [List.set]
    exact secAt_set_proj f xs i a j h

theorem commitSlot_map {β : Type} (f : Section → β)
    (hf : ∀ (sec : Section) (ps : List Period), f { sec with periods := ps } = f sec)
    (st : TimeState) (idx chosenSlot : Nat) (grades : List Nat) (config : ScheduleConfig) :
    (commitSlot st idx chosenSlot grades config).sections.map f = st.sections.map f := by
  simp only [commitSlot]
  exact map_set_secAt f _ _ _ (hf _ _)

theorem assignCourseSlots_map {β : Type} (f : Section → β)
    (hf : ∀ (sec : Section) (ps : List Period), f { sec with periods := ps } = f sec)
    (config : ScheduleConfig) (grades : List Nat) :
    ∀ (idxs : List Nat) (st : TimeState) (used : Finset Nat),
      (assignCourseSlots config grades idxs st used).sections.map f = st.sections.map f
  | [], _, _ => rfl
  | idx :: rest, st, used => by
    simp only [assignCourseSlots]
    rw [assignCourseSlots_map f hf config grades rest _ _]
    exact commitSlot_map f hf st idx _ grades config

theorem foldl_assignCourse_map {β : Type} (f : Section → β)
    (hf : ∀ (sec : Section) (ps : List Period), f { sec with periods := ps } = f sec)
    (config : ScheduleConfig) (courseMap : CourseId → Option Course) :
    ∀ (groups : List (CourseId × List Nat)) (st : TimeState),
      ((groups.foldl
        (fun st group =>
          let grades := ((courseMap group.1).bind (·.gradeRestrictions)).getD []
          assignCourseSlots config grades group.2 st ∅)
        st).sections).map f = st.sections.map f
  | [], _ => rfl
  | g :: gs, st => by
    simp only [List.foldl_cons]
    rw [foldl_assignCourse_map f hf config courseMap gs _]
    exact assignCourseSlots_map f hf config _ g.2 st ∅

/-- Phase 2 only writes `periods`. -/
theorem assignTimeSlots_map {β : Type} (f : Section → β)
    (hf : ∀ (sec : Section) (ps : List Period), f { sec with periods := ps } = f sec)
    (sections : List Section) (teachers : List Teacher) (config : ScheduleConfig)
    (courseMap : CourseId → Option Course) :
    (assignTimeSlots sections teachers config courseMap).map f = sections.map f := by
  simp only [assignTimeSlots]
  exact foldl_assignCourse_map f hf config courseMap (groupByCourse sections) _

/-- Phase 3 only writes `roomId`. -/
theorem assignRoomsGo_map {β : Type} (f : Section → β)
    (hf : ∀ (sec : Section) (r : Option RoomId), f { sec with roomId := r } = f sec)
    (rooms : List Room) (courseMap : CourseId → Option Course) :
    ∀ (secs : List Section) (occ : RoomId → Finset (Nat × Nat)),
      (assignRoomsGo rooms courseMap secs occ).map f = secs.map f
  | [], _ => rfl
  | sec :: rest, occ => by
    simp only [assignRoomsGo]
    split
    · simp only [List.map_cons]
      rw [assignRoomsGo_map f hf rooms courseMap rest _]
    · simp only [List.map_cons]
      rw [hf, assignRoomsGo_map f hf rooms courseMap rest _]

theorem assignRooms_map {β : Type} (f : Section → β)
    (hf : ∀ (sec : Section) (r : Option RoomId), f { sec with roomId := r } = f sec)
    (sections : List Section) (rooms : List Room) (courseMap : CourseId → Option Course)
    (config : ScheduleConfig) :
    (assignRooms sections rooms courseMap config).map f = sections.map f :=
  assignRoomsGo_map f hf rooms courseMap sections _

theorem tryEnroll_map {β : Type} (f : Section → β)
    (hf : ∀ (sec : Section) (es : List StudentId),
      f { sec with enrolledStudents := es } = f sec) (sid : StudentId) :
    ∀ (idxs : List Nat) (secs : List Section) (sched : StudentId → Finset (Nat × Nat)),
      ((tryEnroll sid idxs secs sched).1).map f = secs.map f
  | [], _, _ => rfl
  | i :: rest, secs, sched => by
    simp only [tryEnroll]
    split
    · exact tryEnroll_map f hf sid rest secs sched
    · split
      · exact tryEnroll_map f hf sid rest secs sched
      · exact map_set_secAt f _ _ _ (hf _ _)

theorem assignStudentToSection_map {β : Type} (f : Section → β)
    (hf : ∀ (sec : Section) (es : List StudentId),
      f { sec with enrolledStudents := es } = f sec)
    (sid : StudentId) (cid : CourseId) (secs : List Section)
    (sched : StudentId → Finset (Nat × Nat)) :
    ((assignStudentToSection sid cid secs sched).1).map f = secs.map f :=
  tryEnroll_map f hf sid _ secs sched

theorem requiredPass_map {β : Type} (f : Section → β)
    (hf : ∀ (sec : Section) (es : List StudentId),
      f { sec with enrolledStudents := es } = f sec)
    (courseMap : CourseId → Option Course) (student : Student) :
    ∀ (cids : List CourseId) (st : GreedyState),
      ((requiredPass courseMap student cids st).sections).map f = st.sections.map f
  | [], _ => rfl
  | cid :: rest, st => by
    simp only [requiredPass]
    split
    · rw [requiredPass_map f hf courseMap student rest _]
    · split
      · rw [requiredPass_map f hf courseMap student rest _]
      · split
        · rw [requiredPass_map f hf courseMap student rest _]
          exact assignStudentToSection_map f hf student.id cid st.sections st.sched
        · rw [requiredPass_map f hf courseMap student rest _]
          exact assignStudentToSection_map f hf student.id cid st.sections st.sched

theorem electivePass_map {β : Type} (f : Section → β)
    (hf : ∀ (sec : Section) (es : List StudentId),
      f { sec with enrolledStudents := es } = f sec)
    (courseMap : CourseId → Option Course) (student : Student) :
    ∀ (cids : List CourseId) (st : GreedyState),
      ((electivePass courseMap student cids st).sections).map f = st.sections.map f
  | [], _ => rfl
  | cid :: rest, st => by
    simp only [electivePass]
    split
    · rw [electivePass_map f hf courseMap student rest _]
    · split
      · rw [electivePass_map f hf courseMap student rest _]
      · rw [electivePass_map f hf courseMap student rest _]
        exact assignStudentToSection_map f hf student.id cid st.sections st.sched

theorem foldl_requiredPass_map {β : Type} (f : Section → β)
    (hf : ∀ (sec : Section) (es : List StudentId),
      f { sec with enrolledStudents := es } = f sec)
    (courseMap : CourseId → Option Course) :
    ∀ (students : List Student) (st : GreedyState),
      ((students.foldl
        (fun st student => requiredPass courseMap student student.requiredCourses st)
        st).sections).map f = st.sections.map f
  | [], _ => rfl
  | s :: ss, st => by
    simp only [List.foldl_cons]
    rw [foldl_requiredPass_map f hf courseMap ss _]
    exact requiredPass_map f hf courseMap s s.requiredCourses st

theorem foldl_electivePass_map {β : Type} (f : Section → β)
    (hf : ∀ (sec : Section) (es : List StudentId),
      f { sec with enrolledStudents := es } = f sec)
    (courseMap : CourseId → Option Course) :
    ∀ (students : List Student) (st : GreedyState),
      ((students.foldl
        (fun st student => electivePass courseMap student student.electivePreferences st)
        st).sections).map f = st.sections.map f
  | [], _ => rfl
  | s :: ss, st => by
    simp only [List.foldl_cons]
    rw [foldl_electivePass_map f hf courseMap ss _]
    exact electivePass_map f hf courseMap s s.electivePreferences st

/-- Phase 4 only writes `enrolledStudents`. -/
theorem runGreedyAssignment_map {β : Type} (f : Section → β)
    (hf : ∀ (sec : Section) (es : List StudentId),
      f { sec with enrolledStudents := es } = f sec)
    (sections : List Section) (input : ScheduleInput)
    (courseMap : CourseId → Option Course) :
    ((runGreedyAssignment sections input courseMap).1).map f = sections.map f := by
  simp only [runGreedyAssignment]
  rw [foldl_electivePass_map f hf courseMap input.students _]
  rw [foldl_requiredPass_map f hf courseMap input.students _]

theorem tryMove_map {β : Type} (f : Section → β)
    (hf : ∀ (sec : Section) (es : List StudentId),
      f { sec with enrolledStudents := es } = f sec)
    (lI sI : Nat) :
    ∀ (cands : List StudentId) (secs : List Section)
      (sched : StudentId → Finset (Nat × Nat)),
      ((tryMove lI sI cands secs sched).1).map f = secs.map f
  | [], _, _ => rfl
  | sid :: rest, secs, sched => by
    simp only [tryMove]
    split
    · have houter : f { secAt secs sI with
          enrolledStudents := (secAt secs sI).enrolledStudents ++ [sid] } =
          f (secAt (secs.set lI { secAt secs lI with
            enrolledStudents := (secAt secs lI).enrolledStudents.filter (· != sid) }) sI) := by
        rw [hf]
        exact (secAt_set_proj f secs lI _ sI (hf _ _)).symm
      rw [map_set_secAt f _ _ _ houter]
      exact map_set_secAt f _ _ _ (hf _ _)
    · exact tryMove_map f hf lI sI rest secs _

theorem onePassGroup_map {β : Type} (f : Section → β)
    (hf : ∀ (sec : Section) (es : List StudentId),
      f { sec with enrolledStudents := es } = f sec)
    (secs : List Section) (sched : StudentId → Finset (Nat × Nat))
    (group : CourseId × List Nat) :
    ((onePassGroup secs sched group).2.1).map f = secs.map f := by
  simp only [onePassGroup]
  split
  · rfl
  · split
    · rfl
    · exact tryMove_map f hf _ _ _ secs sched

theorem onePassGo_map {β : Type} (f : Section → β)
    (hf : ∀ (sec : Section) (es : List StudentId),
      f { sec with enrolledStudents := es } = f sec) :
    ∀ (groups : List (CourseId × List Nat)) (secs : List Section)
      (sched : StudentId → Finset (Nat × Nat)) (imp : Bool),
      ((onePassGo groups secs sched imp).2.1).map f = secs.map f
  | [], _, _, _ => rfl
  | g :: gs, secs, sched, imp => by
    simp only [onePassGo]
    rw [onePassGo_map f hf gs _ _ _]
    exact onePassGroup_map f hf secs sched g

theorem onePass_map {β : Type} (f : Section → β)
    (hf : ∀ (sec : Section) (es : List StudentId),
      f { sec with enrolledStudents := es } = f sec) (st : OptState) :
    ((onePass st).1.sections).map f = st.sections.map f := by
  simp only [onePass]
  exact onePassGo_map f hf st.groups st.sections st.sched false

theorem optimizeRun_map {β : Type} (f : Section → β)
    (hf : ∀ (sec : Section) (es : List StudentId),
      f { sec with enrolledStudents := es } = f sec) :
    ∀ (fuel : Nat) (st : OptState),
      ((optimizeRun fuel st).1.sections).map f = st.sections.map f
  | 0, _ => rfl
  | fuel + 1, st => by
    simp only [optimizeRun]
    split
    · rw [optimizeRun_map f hf fuel _]
      exact onePass_map f hf st
    · exact onePass_map f hf st

/-- Phase 5 only writes `enrolledStudents`. -/
theorem optimizeSections_map {β : Type} (f : Section → β)
    (hf : ∀ (sec : Section) (es : List StudentId),
      f { sec with enrolledStudents := es } = f sec)
    (sections : List Section) (sched : StudentId → Finset (Nat × Nat))
    (courseMap : CourseId → Option Course) (maxIterations : Nat) :
    (optimizeSections sections sched courseMap maxIterations).map f = sections.map f := by
  simp only [optimizeSections]
  exact optimizeRun_map f hf maxIterations _

/-! ## Claim C9: courses with no qualified teacher -/

theorem makeSections_courseId (c : Course) (pool : List Teacher) :
    ∀ (fuel i : Nat) (count : TeacherId → Nat),
      ∀ sec ∈ (makeSections c pool i fuel count).2, sec.courseId = c.id
  | 0, i, count, sec, h => absurd h (by simp [makeSections])
  | fuel + 1, i, count, sec, h => by
    simp only [makeSections, List.mem_cons] at h
    rcases h with rfl | h
    · rfl
    · exact makeSections_courseId c pool fuel (i + 1) _ sec h

theorem makeSections_length (c : Course) (pool : List Teacher) :
    ∀ (fuel i : Nat) (count : TeacherId → Nat),
      (makeSections c pool i fuel count).2.length = fuel
  | 0, i, count => rfl
  | fuel + 1, i, count => by
    simp only [makeSections, List.length_cons]
    rw [makeSections_length c pool fuel (i + 1) _]

theorem makeSections_empty_pool_teacher (c : Course) :
    ∀ (fuel i : Nat) (count : TeacherId → Nat),
      ∀ sec ∈ (makeSections c [] i fuel count).2, sec.teacherId = none
  | 0, i, count, sec, h => absurd h (by simp [makeSections])
  | fuel + 1, i, count, sec, h => by
    simp only [makeSections, List.mem_cons] at h
    rcases h with rfl | h
    · rfl
    · exact makeSections_empty_pool_teacher c fuel (i + 1) _ sec h

/-- If no teacher lists `cid` as a subject, every section of a course with
that id comes out of Phase 1 with no teacher. -/
theorem createSectionsGo_no_teacher (teachers : List Teacher) (cid : CourseId)
    (h : ∀ t ∈ teachers, cid ∉ t.subjects) :
    ∀ (cs : List Course) (count : TeacherId → Nat),
      ∀ sec ∈ createSectionsGo teachers cs count, sec.courseId = cid → sec.teacherId = none
  | [], count, sec, hmem, _ => absurd hmem (by simp [createSectionsGo])
  | c :: cs, count, sec, hmem, hcid => by
    simp only [createSectionsGo, List.mem_append] at hmem
    rcases hmem with hmem | hmem
    · have hcourse := makeSections_courseId c _ c.sections 0 count sec hmem
      have hcidc : c.id = cid := hcourse ▸ hcid
      have hpool : (teachers.filter fun t =>
          c.id ∈ t.subjects && count t.id < t.maxSections) = [] := by
        rw [List.filter_eq_nil_iff]
        intro t ht
        simp only [Bool.and_eq_true, decide_eq_true_eq, not_and]
        intro hsub
        exact absurd (hcidc ▸ hsub) (h t ht)
      rw [hpool] at hmem
      exact makeSections_empty_pool_teacher c c.sections 0 count sec hmem
    · exact createSectionsGo_no_teacher teachers cid h cs _ sec hmem hcid

/-- The total number of sections requested for an id by the input courses. -/
def numSectionsFor (courses : List Course) (cid : CourseId) : Nat :=
  ((courses.filter fun c => c.id == cid).map (·.sections)).sum

/-- Phase 1 produces exactly `course.sections` sections per course. -/
theorem createSectionsGo_count (teachers : List Teacher) (cid : CourseId) :
    ∀ (cs : List Course) (count : TeacherId → Nat),
      ((createSectionsGo teachers cs count).filter fun s => s.courseId == cid).length =
        numSectionsFor cs cid
  | [], count => by simp [createSectionsGo, numSectionsFor]
  | c :: cs, count => by
    simp only [createSectionsGo, List.filter_append, List.length_append]
    rw [createSectionsGo_count teachers cid cs _]
    have hblock : (((makeSections c (teachers.filter fun t =>
        c.id ∈ t.subjects && count t.id < t.maxSections) 0 c.sections count).2).filter
          fun s => s.courseId == cid).length =
        if c.id == cid then c.sections else 0 := by
      by_cases hc : c.id = cid
      · have hall : ∀ sec ∈ (makeSections c (teachers.filter fun t =>
            c.id ∈ t.subjects && count t.id < t.maxSections) 0 c.sections count).2,
            (sec.courseId == cid) = true := by
          intro sec hmem
          have := makeSections_courseId c _ c.sections 0 count sec hmem
          simp [this, hc]
        rw [List.filter_eq_self.mpr hall, makeSections_length]
        simp [hc]
      · have hnone : ∀ sec ∈ (makeSections c (teachers.filter fun t =>
            c.id ∈ t.subjects && count t.id < t.maxSections) 0 c.sections count).2,
            ¬ ((sec.courseId == cid) = true) := by
          intro sec hmem
          have := makeSections_courseId c _ c.sections 0 count sec hmem
          simp [this, hc]
        rw [List.filter_eq_nil_iff.mpr hnone]
        simp [hc]
    rw [hblock]
    have hnum : numSectionsFor (c :: cs) cid =
        (if c.id == cid then c.sections else 0) + numSectionsFor cs cid := by
      by_cases hc : c.id = cid
      · simp [numSectionsFor, List.filter_cons, hc]
      · simp [numSectionsFor, List.filter_cons, hc]
    omega

/-- The projection preserved by Phases 2 through 5. -/
def courseTeacherOf (sec : Section) : CourseId × Option TeacherId :=
  (sec.courseId, sec.teacherId)

/-- The sections returned by `generateSchedule` carry the same course ids
and teacher ids, in the same order, as the Phase 1 output. -/
theorem generateSchedule_courseTeacher (input : ScheduleInput) (opts : SchedulerOptions)
    (t1 t2 : Int) (g : String) :
    ((generateSchedule input opts t1 t2 g).sections).map courseTeacherOf =
      (createSections input.courses input.teachers).map courseTeacherOf := by
  simp only [generateSchedule]
  rw [optimizeSections_map courseTeacherOf (fun _ _ => rfl)]
  rw [runGreedyAssignment_map courseTeacherOf (fun _ _ => rfl)]
  rw [assignRooms_map courseTeacherOf (fun _ _ => rfl)]
  rw [assignTimeSlots_map courseTeacherOf (fun _ _ => rfl)]

theorem filter_courseId_length_of_map_eq (l1 l2 : List Section) (cid : CourseId)
    (h : l1.map courseTeacherOf = l2.map courseTeacherOf) :
    (l1.filter fun s => s.courseId == cid).length =
      (l2.filter fun s => s.courseId == cid).length := by
  have e1 : (l1.filter fun s => s.courseId == cid).length =
      (l1.map courseTeacherOf).countP fun x => x.1 == cid := by
    rw [List.countP_map]
    rw [← List.countP_eq_length_filter]
    rfl
  have e2 : (l2.filter fun s => s.courseId == cid).length =
      (l2.map courseTeacherOf).countP fun x => x.1 == cid := by
    rw [List.countP_map]
    rw [← List.countP_eq_length_filter]
    rfl
  rw [e1, e2, h]

/-! ## Claim C7: the rebalancing loop terminates -/

/-- The loop executes at most `fuel` passes. -/
theorem optimizeRun_le : ∀ (fuel : Nat) (st : OptState), (optimizeRun fuel st).2 ≤ fuel
  | 0, _ => Nat.le_refl 0
  | fuel + 1, st => by
    simp only [optimizeRun]
    split
    · have := optimizeRun_le fuel (onePass st).1
      omega
    · omega

/-- A non-improving pass is the last one. -/
theorem optimizeRun_stop (fuel : Nat) (st : OptState) (h : (onePass st).2 = false) :
    optimizeRun (fuel + 1) st = ((onePass st).1, 1) := by
  simp only [optimizeRun, h]
  rfl

def emptyInput : ScheduleInput :=
  { students := [], teachers := [], courses := [], rooms := []
    config := { periodsPerDay := 1, daysPerWeek := 1 } }

/-- Claim C7: Phase 5 executes at most `max_optimization_iterations` passes
over the courses (`500` when the option is absent), and stops as soon as a
full pass commits no improving move; the whole pipeline is a total function
of its input, so it terminates on every input. -/
theorem claim_C7_termination (input : ScheduleInput) (opts : SchedulerOptions)
    (t1 t2 : Int) (g : String) :
    (opts.maxOptimizationIterations = none →
      generateSchedule input opts t1 t2 g = generateSchedule input ⟨some 500⟩ t1 t2 g) ∧
    (∀ (fuel : Nat) (st : OptState), (optimizeRun fuel st).2 ≤ fuel) ∧
    (∀ (fuel : Nat) (st : OptState), (onePass st).2 = false →
      optimizeRun (fuel + 1) st = ((onePass st).1, 1)) := by
  refine ⟨?_, optimizeRun_le, optimizeRun_stop⟩
  intro h
  obtain ⟨mo⟩ := opts
  simp only at h
  rw [h]
  rfl

/-- Witness for C7 at concrete inputs. -/
theorem claim_C7_witness :
    generateSchedule emptyInput ⟨none⟩ 0 0 "t" =
      generateSchedule emptyInput ⟨some 500⟩ 0 0 "t" ∧
    (optimizeRun 3 { sections := [], groups := [], sched := fun _ => ∅ }).2 ≤ 3 := by
  have h := claim_C7_termination emptyInput ⟨none⟩ 0 0 "t"
  exact ⟨h.1 rfl, h.2.1 3 _⟩

/-! ## Claim C8: reproducibility of the greedy pipeline -/

/-- Claim C8 counterexample: the returned value is not byte-identical across
two runs on identical input and options, because the metadata embeds the
wall-clock `generatedAt` timestamp (and the measured `solveTimeMs`): two
runs at different times differ. -/
theorem claim_C8_counterexample :
    generateSchedule emptyInput ⟨none⟩ 0 0 "2025-01-01T00:00:00.000Z" ≠
      generateSchedule emptyInput ⟨none⟩ 0 0 "2025-01-02T00:00:00.000Z" := by
  intro h
  have h2 := congrArg (fun r => r.metadata.generatedAt) h
  simp only [generateSchedule] at h2
  exact absurd h2 (by decide)

/-- Claim C8 (amended): the greedy pipeline is deterministic apart from the
clock: the sections, the unassigned list, the score and the algorithm tag of
two runs on identical input and options are always equal, and runs with
identical clock readings are equal in full (metadata included). -/
theorem claim_C8_amended (input : ScheduleInput) (opts : SchedulerOptions)
    (t1 t2 t1' t2' : Int) (g g' : String) :
    ((generateSchedule input opts t1 t2 g).sections =
        (generateSchedule input opts t1' t2' g').sections ∧
      (generateSchedule input opts t1 t2 g).unassignedStudents =
        (generateSchedule input opts t1' t2' g').unassignedStudents ∧
      (generateSchedule input opts t1 t2 g).metadata.score =
        (generateSchedule input opts t1' t2' g').metadata.score ∧
      (generateSchedule input opts t1 t2 g).metadata.algorithmVersion =
        (generateSchedule input opts t1' t2' g').metadata.algorithmVersion) ∧
    (t1 = t1' → t2 = t2' → g = g' →
      generateSchedule input opts t1 t2 g = generateSchedule input opts t1' t2' g') := by
  refine ⟨⟨rfl, rfl, rfl, rfl⟩, ?_⟩
  intro h1 h2 h3
  rw [h1, h2, h3]

/-- Witness for the amended C8 at concrete inputs. -/
theorem claim_C8_witness :
    (generateSchedule emptyInput ⟨none⟩ 0 0 "t").sections =
      (generateSchedule emptyInput ⟨none⟩ 5 9 "u").sections ∧
    generateSchedule emptyInput ⟨none⟩ 7 8 "v" =
      generateSchedule emptyInput ⟨none⟩ 7 8 "v" := by
  have h1 := claim_C8_amended emptyInput ⟨none⟩ 0 0 5 9 "t" "u"
  have h2 := claim_C8_amended emptyInput ⟨none⟩ 7 8 7 8 "v" "v"
  exact ⟨h1.1.1, h2.2 rfl rfl rfl⟩

/-! ## Claim C6: room assignment -/

/-- The candidate rooms as the claim words them: capacity at least the
section's, features a superset of the course's required ones, in ascending
capacity order (stable, so ties keep input order). -/
def claimCandidates (rooms : List Room) (sec : Section) (requiredFeatures : List String) :
    List Room :=
  sortByCapacity (rooms.filter fun r =>
    sec.capacity ≤ r.capacity && requiredFeatures.all (fun f => r.features.contains f))

/-- Phase 3 as the claim words it: for each section in order assign the
first candidate (in the order of `claimCandidates`) none of whose occupied
keys meets the section's periods, and grow that room's occupied set by the
section's periods; otherwise leave the section untouched. -/
def assignRoomsSpecGo (rooms : List Room) (courseMap : CourseId → Option Course) :
    List Section → (RoomId → Finset (Nat × Nat)) → List Section
  | [], _ => []
  | sec :: rest, occ =>
    let requiredFeatures := match courseMap sec.courseId with
      | some c => c.requiredFeatures
      | none => []
    match (claimCandidates rooms sec requiredFeatures).find? (roomFree occ sec) with
    | none => sec :: assignRoomsSpecGo rooms courseMap rest occ
    | some room =>
      { sec with roomId := some room.id } ::
        assignRoomsSpecGo rooms courseMap rest
          (Function.update occ room.id (occ room.id ∪ periodKeys sec.periods))

theorem suitableRooms_eq_claim (rooms : List Room) (sec : Section)
    (requiredFeatures : List String) :
    suitableRooms rooms sec requiredFeatures = rooms.filter fun r =>
      sec.capacity ≤ r.capacity && requiredFeatures.all (fun f => r.features.contains f) := by
  apply List.filter_congr
  intro r _
  have hcap : (! decide (r.capacity < sec.capacity)) = decide (sec.capacity ≤ r.capacity) := by
    by_cases h : r.capacity < sec.capacity
    · have h2 : ¬ sec.capacity ≤ r.capacity := by omega
      simp [h, h2]
    · have h2 : sec.capacity ≤ r.capacity := by omega
      simp [h, h2]
  simp only [suitableRooms] at *
  rw [hcap]

theorem firstFreeRoom_eq_find? (occ : RoomId → Finset (Nat × Nat)) (sec : Section) :
    ∀ (cands : List Room), firstFreeRoom occ sec cands = cands.find? (roomFree occ sec)
  | [] => rfl
  | room :: rest => by
    simp only [firstFreeRoom, List.find?_cons]
    by_cases h : roomFree occ sec room
    · simp [h]
    · simp only [h]
      rw [firstFreeRoom_eq_find? occ sec rest]
      simp [h]

theorem assignRoomsGo_eq_spec (rooms : List Room) (courseMap : CourseId → Option Course) :
    ∀ (secs : List Section) (occ : RoomId → Finset (Nat × Nat)),
      assignRoomsGo rooms courseMap secs occ = assignRoomsSpecGo rooms courseMap secs occ
  | [], _ => rfl
  | sec :: rest, occ => by
    simp only [assignRoomsGo, assignRoomsSpecGo]
    rw [show sortByCapacity (suitableRooms rooms sec (match courseMap sec.courseId with
        | some c => c.requiredFeatures
        | none => [])) = claimCandidates rooms sec (match courseMap sec.courseId with
        | some c => c.requiredFeatures
        | none => []) from by rw [claimCandidates, suitableRooms_eq_claim]]
    rw [firstFreeRoom_eq_find?]
    split
    next hfind =>
      rw [hfind]
      rw [assignRoomsGo_eq_spec rooms courseMap rest occ]
    next room hfind =>
      rw [hfind]
      rw [assignRoomsGo_eq_spec rooms courseMap rest _]

/-- Claim C6: Phase 3 equals its specification: walking the sections in
order, the room assigned (when present) is the first room, in the stable
ascending-capacity order of the candidates (rooms with enough capacity whose
features cover the course requirements), whose occupied set — seeded with
the room's unavailable periods and grown by all earlier assignments — avoids
every section period; when no candidate is free the section is untouched.
The conjuncts add that the candidate order is ascending in capacity with
exactly the claimed membership, and that `find?` returns the first
satisfying candidate. -/
theorem claim_C6_room_assignment :
    (∀ (sections : List Section) (rooms : List Room)
        (courseMap : CourseId → Option Course) (config : ScheduleConfig),
      assignRooms sections rooms courseMap config =
        assignRoomsSpecGo rooms courseMap sections (initRoomOcc rooms)) ∧
    (∀ (rooms : List Room) (sec : Section) (feats : List String),
      (claimCandidates rooms sec feats).Pairwise
        (fun a b : Room => a.capacity ≤ b.capacity) ∧
      (∀ r, r ∈ claimCandidates rooms sec feats ↔
        r ∈ rooms ∧ sec.capacity ≤ r.capacity ∧ ∀ f ∈ feats, f ∈ r.features)) ∧
    (∀ (occ : RoomId → Finset (Nat × Nat)) (sec : Section) (cands : List Room)
        (room : Room),
      cands.find? (roomFree occ sec) = some room ↔
        roomFree occ sec room = true ∧
        ∃ pre post, cands = pre ++ room :: post ∧
          ∀ r ∈ pre, roomFree occ sec r = false) := by
  refine ⟨?_, ?_, ?_⟩
  · intro sections rooms courseMap config
    simp only [assignRooms]
    exact assignRoomsGo_eq_spec rooms courseMap sections (initRoomOcc rooms)
  · intro rooms sec feats
    constructor
    · exact sorted_insertionSort_key (fun r : Room => r.capacity) _
    · intro r
      rw [claimCandidates, sortByCapacity]
      rw [(List.perm_insertionSort _ _).mem_iff, List.mem_filter]
      simp [List.all_eq_true, and_assoc, List.contains]
  · intro occ sec cands room
    rw [List.find?_eq_some]
    constructor
    · rintro ⟨hp, pre, post, rfl, hpre⟩
      exact ⟨hp, pre, post, rfl, fun r hr => by
        have := hpre r hr
        simpa using this⟩
    · rintro ⟨hp, pre, post, rfl, hpre⟩
      exact ⟨hp, pre, post, rfl, fun r hr => by
        have := hpre r hr
        simp [this]⟩

def c6Sec : Section := ⟨"L-1", "L", none, none, [⟨0, 0⟩], [], 20⟩

def c6RoomA : Room := ⟨"A", 40, [], []⟩

def c6RoomB : Room := ⟨"B", 25, ["lab"], []⟩

def c6Course : Course := ⟨"L", 20, 5, none, ["lab"], 1⟩

/-- Witness for C6 at a concrete input (the S6 scenario of the spec: the
feature check selects the lab room, not merely the smallest). -/
theorem claim_C6_witness :
    assignRooms [c6Sec] [c6RoomA, c6RoomB] (buildMap Course.id [c6Course]) ⟨4, 5⟩ =
      assignRoomsSpecGo [c6RoomA, c6RoomB] (buildMap Course.id [c6Course]) [c6Sec]
        (initRoomOcc [c6RoomA, c6RoomB]) ∧
    (assignRooms [c6Sec] [c6RoomA, c6RoomB] (buildMap Course.id [c6Course]) ⟨4, 5⟩).map
      (·.roomId) = [some "B"] := by
  refine ⟨claim_C6_room_assignment.1 [c6Sec] [c6RoomA, c6RoomB]
    (buildMap Course.id [c6Course]) ⟨4, 5⟩, by decide⟩

/-! ## Claim C1: time-slot assignment -/

/-- The feasible slots of the claim: the teacher (if any) is not occupied at
`(d, s)` for any day `d`. -/
def feasibleSlots (occ : Option (Finset (Nat × Nat))) (config : ScheduleConfig) : List Nat :=
  (List.range config.periodsPerDay).filter fun slot =>
    teacherAvailable occ config.daysPerWeek slot

/-- The claim's penalty formula: `slot_usage[s] + (1000 if the course
already used s) + Σ_{g} 500 · grade_slot_usage[g][s]`. -/
def claimPenalty (st : TimeState) (courseUsedSlots : Finset Nat) (grades : List Nat)
    (slot : Nat) : Nat :=
  st.slotUsage slot + (if slot ∈ courseUsedSlots then 1000 else 0) +
    (grades.map fun grade => 500 * st.gradeSlotUsage grade slot).sum

/-- The claim's chooser: the feasible slot of minimum penalty, ties to the
earliest element (= smallest slot, since the list ascends); `none` when no
slot is feasible. -/
def chooseMinPenalty (pen : Nat → Nat) : List Nat → Option Nat
  | [] => none
  | s :: rest =>
    match chooseMinPenalty pen rest with
    | none => some s
    | some m => if pen s ≤ pen m then some s else some m

/-- Phase 2 on one course as the claim words it. -/
def assignCourseSlotsSpec (config : ScheduleConfig) (grades : List Nat) :
    List Nat → TimeState → Finset Nat → TimeState
  | [], st, _ => st
  | idx :: rest, st, courseUsedSlots =>
    let sec := secAt st.sections idx
    let occ := sec.teacherId.bind st.teacherOcc
    let chosenSlot := (chooseMinPenalty (claimPenalty st courseUsedSlots grades)
      (feasibleSlots occ config)).getD 0
    assignCourseSlotsSpec config grades rest (commitSlot st idx chosenSlot grades config)
      (insert chosenSlot courseUsedSlots)

/-- Phase 2 as the claim words it: course groups in first-occurrence order,
each course's sections in order. -/
def assignTimeSlotsSpec (sections : List Section) (teachers : List Teacher)
    (config : ScheduleConfig) (courseMap : CourseId → Option Course) : List Section :=
  let st0 : TimeState :=
    { sections := sections
      slotUsage := fun _ => 0
      gradeSlotUsage := fun _ _ => 0
      teacherOcc := initTeacherOcc teachers }
  let groups := groupByCourse sections
  let final := groups.foldl
    (fun st group =>
      let grades := ((courseMap group.1).bind (·.gradeRestrictions)).getD []
      assignCourseSlotsSpec config grades group.2 st ∅)
    st0
  final.sections

theorem foldl_congr_fn {α β : Type} (f g : β → α → β) (h : ∀ b a, f b a = g b a) :
    ∀ (l : List α) (init : β), l.foldl f init = l.foldl g init
  | [], _ => rfl
  | x :: xs, init => by
    simp only [List.foldl_cons]
    rw [h]
    exact foldl_congr_fn f g h xs _

theorem filterMap_if_eq_filter_map {α β : Type} (p : α → Bool) (f : α → β) :
    ∀ (l : List α),
      (l.filterMap fun s => if p s then some (f s) else none) = (l.filter p).map f
  | [] => rfl
  | a :: rest => by
    simp only [List.filterMap_cons, List.filter_cons]
    by_cases h : p a
    · simp only [h, if_pos, List.map_cons]
      rw [filterMap_if_eq_filter_map p f rest]
    · simp only [h]
      rw [filterMap_if_eq_filter_map p f rest]
      rfl

/-- The penalty accumulated by the code equals the claim's formula. -/
theorem slotPenalty_eq_claim (st : TimeState) (used : Finset Nat) (slot : Nat) :
    ∀ (grades : List Nat) (init : Nat),
      grades.foldl (fun pen grade => pen + st.gradeSlotUsage grade slot * 500) init =
        init + (grades.map fun grade => 500 * st.gradeSlotUsage grade slot).sum
  | [], init => by simp
  | g :: gs, init => by
    simp only [List.foldl_cons, List.map_cons, List.sum_cons]
    rw [slotPenalty_eq_claim st used slot gs (init + st.gradeSlotUsage g slot * 500)]
    ring

theorem slotPenalty_eq_claimPenalty (st : TimeState) (used : Finset Nat)
    (grades : List Nat) (slot : Nat) :
    slotPenalty st used grades slot = claimPenalty st used grades slot := by
  simp only [slotPenalty, claimPenalty]
  rw [slotPenalty_eq_claim st used slot grades]

/-- `firstMinBy` of the tagged list projects to `chooseMinPenalty`. -/
theorem firstMinBy_map_pairs (pen : Nat → Nat) :
    ∀ (l : List Nat),
      firstMinBy (fun x : Nat × Nat => x.2) (l.map fun s => (s, pen s)) =
        (chooseMinPenalty pen l).map fun s => (s, pen s)
  | [] => rfl
  | s :: rest => by
    simp only [List.map_cons, firstMinBy, chooseMinPenalty]
    rw [firstMinBy_map_pairs pen rest]
    cases h : chooseMinPenalty pen rest with
    | none => rfl
    | some m => by_cases hle : pen s ≤ pen m <;> simp [hle]

/-- The code's sort-then-head chooser equals the claim's chooser. -/
theorem chosenSlot_eq_claim (st : TimeState) (occ : Option (Finset (Nat × Nat)))
    (config : ScheduleConfig) (used : Finset Nat) (grades : List Nat) :
    ((sortByUsage (availableSlots st occ config used grades)).head?.map Prod.fst).getD 0 =
      (chooseMinPenalty (claimPenalty st used grades) (feasibleSlots occ config)).getD 0 := by
  have h1 : availableSlots st occ config used grades =
      (feasibleSlots occ config).map fun s => (s, claimPenalty st used grades s) := by
    rw [availableSlots, feasibleSlots]
    rw [filterMap_if_eq_filter_map
      (fun slot => teacherAvailable occ config.daysPerWeek slot)
      (fun slot => (slot, slotPenalty st used grades slot))]
    apply List.map_congr_left
    intro s _
    rw [slotPenalty_eq_claimPenalty]
  rw [h1, sortByUsage]
  rw [head_insertionSort (fun x : Nat × Nat => x.2)]
  rw [firstMinBy_map_pairs]
  cases chooseMinPenalty (claimPenalty st used grades) (feasibleSlots occ config) with
  | none => rfl
  | some m => rfl

theorem assignCourseSlots_eq_spec (config : ScheduleConfig) (grades : List Nat) :
    ∀ (idxs : List Nat) (st : TimeState) (used : Finset Nat),
      assignCourseSlots config grades idxs st used =
        assignCourseSlotsSpec config grades idxs st used
  | [], _, _ => rfl
  | idx :: rest, st, used => by
    simp only [assignCourseSlots, assignCourseSlotsSpec]
    rw [chosenSlot_eq_claim]
    exact assignCourseSlots_eq_spec config grades rest _ _

/-- Claim C1, part 1: Phase 2 equals its claim-worded specification. -/
theorem assignTimeSlots_eq_spec (sections : List Section) (teachers : List Teacher)
    (config : ScheduleConfig) (courseMap : CourseId → Option Course) :
    assignTimeSlots sections teachers config courseMap =
      assignTimeSlotsSpec sections teachers config courseMap := by
  simp only [assignTimeSlots, assignTimeSlotsSpec]
  congr 1
  apply foldl_congr_fn
  intro st group
  exact assignCourseSlots_eq_spec config _ group.2 st ∅

theorem chooseMinPenalty_none_iff (pen : Nat → Nat) :
    ∀ (l : List Nat), chooseMinPenalty pen l = none ↔ l = []
  | [] => by simp [chooseMinPenalty]
  | s :: rest => by
    simp only [chooseMinPenalty]
    cases h : chooseMinPenalty pen rest with
    | none => simp
    | some m => by_cases hle : pen s ≤ pen m <;> simp [hle]

/-- The claim's chooser picks a feasible slot of minimum penalty and, on a
strictly ascending candidate list, the smallest such slot. -/
theorem chooseMinPenalty_spec (pen : Nat → Nat) :
    ∀ (l : List Nat) (s : Nat), chooseMinPenalty pen l = some s →
      s ∈ l ∧ (∀ x ∈ l, pen s ≤ pen x) ∧
      (l.Pairwise (· < ·) → ∀ x ∈ l, pen x = pen s → s ≤ x)
  | [], s, h => absurd h (by simp [chooseMinPenalty])
  | a :: rest, s, h => by
    simp only [chooseMinPenalty] at h
    cases hrec : chooseMinPenalty pen rest with
    | none =>
      rw [hrec] at h
      dsimp only at h
      have hnil : rest = [] := (chooseMinPenalty_none_iff pen rest).mp hrec
      subst hnil
      have hs : a = s := by simpa using h
      subst hs
      refine ⟨List.mem_cons_self a [], ?_, ?_⟩
      · intro x hx
        rcases List.mem_cons.mp hx with rfl | hx
        · exact Nat.le_refl _
        · exact absurd hx (List.not_mem_nil x)
      · intro _ x hx _
        rcases List.mem_cons.mp hx with rfl | hx
        · exact Nat.le_refl _
        · exact absurd hx (List.not_mem_nil x)
    | some m =>
      rw [hrec] at h
      dsimp only at h
      obtain ⟨hmem, hmin, hfirst⟩ := chooseMinPenalty_spec pen rest m hrec
      by_cases hle : pen a ≤ pen m
      · rw [if_pos hle] at h
        have hs : a = s := by simpa using h
        subst hs
        refine ⟨List.mem_cons_self a rest, ?_, ?_⟩
        · intro x hx
          rcases List.mem_cons.mp hx with rfl | hx
          · exact Nat.le_refl _
          · exact Nat.le_trans hle (hmin x hx)
        · intro hpw x hx _
          rcases List.mem_cons.mp hx with rfl | hx
          · exact Nat.le_refl _
          · exact Nat.le_of_lt ((List.pairwise_cons.mp hpw).1 x hx)
      · rw [if_neg hle] at h
        have hs : m = s := by simpa using h
        subst hs
        refine ⟨List.mem_cons_of_mem a hmem, ?_, ?_⟩
        · intro x hx
          rcases List.mem_cons.mp hx with rfl | hx
          · omega
          · exact hmin x hx
        · intro hpw x hx htie
          rcases List.mem_cons.mp hx with rfl | hx
          · omega
          · exact hfirst (List.pairwise_cons.mp hpw).2 x hx htie

theorem makeSections_courseIds (c : Course) (pool : List Teacher) :
    ∀ (fuel i : Nat) (count : TeacherId → Nat),
      (makeSections c pool i fuel count).2.map (·.courseId) = List.replicate fuel c.id
  | 0, i, count => rfl
  | fuel + 1, i, count => by
    simp only [makeSections, List.map_cons, List.replicate_succ]
    rw [makeSections_courseIds c pool fuel (i + 1) _]

/-- The key accumulation of the grouping map: first-occurrence order. -/
def keyFold (ks : List CourseId) (cs : List CourseId) : List CourseId :=
  cs.foldl (fun ks c => if c ∈ ks then ks else ks ++ [c]) ks

theorem addToGroup_keys (cid : CourseId) (i : Nat) :
    ∀ (gs : List (CourseId × List Nat)),
      (addToGroup gs cid i).map Prod.fst =
        if cid ∈ gs.map Prod.fst then gs.map Prod.fst else gs.map Prod.fst ++ [cid]
  | [] => by simp [addToGroup]
  | (c, is) :: rest => by
    simp only [addToGroup, List.map_cons]
    by_cases hc : c = cid
    · subst hc
      simp
    · rw [if_neg hc]
      simp only [List.map_cons]
      rw [addToGroup_keys cid i rest]
      have hch : ¬ (cid = c) := fun h => hc h.symm
      by_cases hmem : cid ∈ rest.map Prod.fst
      · rw [if_pos hmem, if_pos (List.mem_cons.mpr (Or.inr hmem))]
      · rw [if_neg hmem, if_neg (by
          simp only [List.mem_cons, not_or]
          exact ⟨hch, hmem⟩)]
        simp

theorem foldl_addToGroup_keys :
    ∀ (pairs : List (CourseId × Nat)) (gs : List (CourseId × List Nat)),
      ((pairs.foldl (fun gs ci => addToGroup gs ci.1 ci.2) gs).map Prod.fst) =
        keyFold (gs.map Prod.fst) (pairs.map Prod.fst)
  | [], gs => rfl
  | (cid, i) :: rest, gs => by
    simp only [List.foldl_cons, List.map_cons, keyFold]
    rw [foldl_addToGroup_keys rest (addToGroup gs cid i)]
    rw [addToGroup_keys cid i gs]
    rfl

theorem groupByCourse_keys (secs : List Section) :
    (groupByCourse secs).map Prod.fst = keyFold [] (secs.map (·.courseId)) := by
  rw [groupByCourse, foldl_addToGroup_keys]
  have h1 : ((secs.enum.map fun x => (x.2.courseId, x.1)).map Prod.fst) =
      secs.map (·.courseId) := by
    rw [List.map_map]
    rw [show (Prod.fst ∘ fun x : Nat × Section => (x.2.courseId, x.1)) =
      ((fun s : Section => s.courseId) ∘ Prod.snd) from rfl]
    rw [← List.map_map, List.enum_map_snd]
  rw [h1]
  rfl

theorem keyFold_append (ks : List CourseId) (a b : List CourseId) :
    keyFold ks (a ++ b) = keyFold (keyFold ks a) b := by
  simp [keyFold, List.foldl_append]

theorem keyFold_replicate_mem (c : CourseId) :
    ∀ (m : Nat) (ks : List CourseId), c ∈ ks → keyFold ks (List.replicate m c) = ks
  | 0, ks, _ => rfl
  | m + 1, ks, h => by
    simp only [List.replicate_succ, keyFold, List.foldl_cons, if_pos h]
    exact keyFold_replicate_mem c m ks h

theorem keyFold_replicate_new (c : CourseId) (m : Nat) (ks : List CourseId)
    (hm : m ≠ 0) (h : c ∉ ks) : keyFold ks (List.replicate m c) = ks ++ [c] := by
  cases m with
  | zero => exact absurd rfl hm
  | succ m =>
    simp only [List.replicate_succ, keyFold, List.foldl_cons, if_neg h]
    exact keyFold_replicate_mem c m (ks ++ [c]) (by simp)

theorem createSectionsGo_keyFold (teachers : List Teacher) :
    ∀ (cs : List Course) (count : TeacherId → Nat) (ks : List CourseId),
      (∀ c ∈ cs, c.id ∉ ks) → (cs.map (·.id)).Nodup →
      keyFold ks ((createSectionsGo teachers cs count).map (·.courseId)) =
        ks ++ (cs.filter fun c => c.sections != 0).map (·.id)
  | [], count, ks, _, _ => by simp [createSectionsGo, keyFold]
  | c :: cs, count, ks, hks, hnd => by
    simp only [createSectionsGo, List.map_append]
    rw [keyFold_append]
    rw [makeSections_courseIds c _ c.sections 0 count]
    rw [List.map_cons, List.nodup_cons] at hnd
    have hcid := hnd.1
    have hnd' := hnd.2
    by_cases hz : c.sections = 0
    · rw [hz]
      rw [show List.replicate 0 c.id = [] from rfl]
      rw [show keyFold ks [] = ks from rfl]
      rw [createSectionsGo_keyFold teachers cs _ ks (fun c' hc' => hks c' (by simp [hc'])) hnd']
      simp [List.filter_cons, hz]
    · rw [keyFold_replicate_new c.id c.sections ks hz (hks c (by simp))]
      rw [createSectionsGo_keyFold teachers cs _ (ks ++ [c.id]) ?_ hnd']
      · simp [List.filter_cons, hz]
      · intro c' hc'
        simp only [List.mem_append, List.mem_singleton, not_or]
        refine ⟨hks c' (by simp [hc']), ?_⟩
        intro heq
        exact hcid (heq ▸ List.mem_map_of_mem (·.id) hc')

/-- Claim C1: Phase 2 equals its claim-worded specification
(`assignTimeSlotsSpec`: course groups in first-occurrence order, each
course's sections in order, per-section slot chosen by
`chooseMinPenalty` over `feasibleSlots` with the claim's penalty formula,
falling back to slot 0, then committing periods `{(d, s)}`, the usage
counters, the course's used-slot set and the teacher occupancy).  The
further conjuncts pin the chooser down (a feasible minimum-penalty slot of
smallest index; `none` exactly when no slot is feasible), note that the
candidate list ascends, and show that for Phase 1 output with distinct
course ids the groups follow input course order. -/
theorem claim_C1_time_assignment :
    (∀ (sections : List Section) (teachers : List Teacher) (config : ScheduleConfig)
        (courseMap : CourseId → Option Course),
      assignTimeSlots sections teachers config courseMap =
        assignTimeSlotsSpec sections teachers config courseMap) ∧
    (∀ (pen : Nat → Nat) (l : List Nat) (s : Nat),
      chooseMinPenalty pen l = some s →
        s ∈ l ∧ (∀ x ∈ l, pen s ≤ pen x) ∧
        (l.Pairwise (· < ·) → ∀ x ∈ l, pen x = pen s → s ≤ x)) ∧
    (∀ (pen : Nat → Nat) (l : List Nat), chooseMinPenalty pen l = none ↔ l = []) ∧
    (∀ (occ : Option (Finset (Nat × Nat))) (config : ScheduleConfig),
      (feasibleSlots occ config).Pairwise (· < ·)) ∧
    (∀ (courses : List Course) (teachers : List Teacher),
      (courses.map (·.id)).Nodup →
      (groupByCourse (createSections courses teachers)).map Prod.fst =
        (courses.filter fun c => c.sections != 0).map (·.id)) := by
  refine ⟨assignTimeSlots_eq_spec, chooseMinPenalty_spec, chooseMinPenalty_none_iff,
    ?_, ?_⟩
  · intro occ config
    exact List.Pairwise.filter _ (List.pairwise_lt_range config.periodsPerDay)
  · intro courses teachers h
    rw [createSections, groupByCourse_keys]
    exact createSectionsGo_keyFold teachers courses (fun _ => 0) []
      (fun c _ => List.not_mem_nil c.id) h

/-- Witness for C1 at concrete inputs, discharging each hypothesis. -/
theorem claim_C1_witness :
    (assignTimeSlots [c6Sec] [] ⟨2, 1⟩ (fun _ => none) =
      assignTimeSlotsSpec [c6Sec] [] ⟨2, 1⟩ (fun _ => none)) ∧
    (0 ∈ ([0, 1] : List Nat)) ∧
    ((groupByCourse (createSections [c3Course] [c3Teacher])).map Prod.fst =
      ([c3Course].filter fun c => c.sections != 0).map (·.id)) := by
  have h := claim_C1_time_assignment
  refine ⟨h.1 [c6Sec] [] ⟨2, 1⟩ (fun _ => none), ?_,
    h.2.2.2.2 [c3Course] [c3Teacher] (by decide)⟩
  exact (h.2.1 (fun _ => 0) [0, 1] 0 (by decide)).1

/-! ## Invariants of the enrollment phases

`NoOverlap` is the property claim C5 asserts of every returned schedule;
`SchedLower` and `SchedUpper` say the per-student period-key sets bracket
the union of the periods of the student's sections. -/

theorem secAt_set_self (l : List Section) (i : Nat) (a : Section) (h : i < l.length) :
    secAt (l.set i a) i = a := by
  simp [secAt, List.getD, List.getElem?_set_self', h]

theorem secAt_set_ne (l : List Section) (i : Nat) (a : Section) (j : Nat) (h : j ≠ i) :
    secAt (l.set i a) j = secAt l j := by
  simp [secAt, List.getD, List.getElem?_set_ne (fun hh => h hh.symm)]

/-- No student sits in two distinct sections that share a period key. -/
def NoOverlap (secs : List Section) : Prop :=
  ∀ i j, i < secs.length → j < secs.length → i ≠ j →
    ∀ s, s ∈ (secAt secs i).enrolledStudents → s ∈ (secAt secs j).enrolledStudents →
      Disjoint (periodKeys (secAt secs i).periods) (periodKeys (secAt secs j).periods)

/-- Each enrolled section's keys are inside the student's schedule set. -/
def SchedLower (secs : List Section) (sched : StudentId → Finset (Nat × Nat)) : Prop :=
  ∀ i, i < secs.length → ∀ s ∈ (secAt secs i).enrolledStudents,
    periodKeys (secAt secs i).periods ⊆ sched s

/-- Every key of a student's schedule set comes from an enrolled section. -/
def SchedUpper (secs : List Section) (sched : StudentId → Finset (Nat × Nat)) : Prop :=
  ∀ s p, p ∈ sched s → ∃ i, i < secs.length ∧ s ∈ (secAt secs i).enrolledStudents ∧
    p ∈ periodKeys (secAt secs i).periods

def EnrollInv (secs : List Section) (sched : StudentId → Finset (Nat × Nat)) : Prop :=
  NoOverlap secs ∧ SchedLower secs sched ∧ SchedUpper secs sched

theorem tryEnroll_bounds (sid : StudentId) :
    ∀ (idxs : List Nat) (secs : List Section) (sched : StudentId → Finset (Nat × Nat)),
      ((tryEnroll sid idxs secs sched).1).length = secs.length
  | [], _, _ => rfl
  | i :: rest, secs, sched => by
    simp only [tryEnroll]
    split
    · exact tryEnroll_bounds sid rest secs sched
    · split
      · exact tryEnroll_bounds sid rest secs sched
      · simp

/-- Enrolling one student into one section preserves the three invariants:
the enrolled section's keys were disjoint from the student's schedule set,
so the new pair stays conflict-free and the bracketing of the schedule set
is maintained. -/
theorem enroll_step_inv (secs : List Section) (sched : StudentId → Finset (Nat × Nat))
    (sid : StudentId) (i : Nat) (hlen : i < secs.length)
    (hconf : ∀ p ∈ periodKeys (secAt secs i).periods, p ∉ sched sid)
    (hinv : EnrollInv secs sched) :
    EnrollInv
      (secs.set i { secAt secs i with
        enrolledStudents := (secAt secs i).enrolledStudents ++ [sid] })
      (Function.update sched sid (sched sid ∪ periodKeys (secAt secs i).periods)) := by
  obtain ⟨hA, hB1, hB2⟩ := hinv
  set N : Section := { secAt secs i with
    enrolledStudents := (secAt secs i).enrolledStudents ++ [sid] } with hN
  have hNen : N.enrolledStudents = (secAt secs i).enrolledStudents ++ [sid] := rfl
  have hNper : N.periods = (secAt secs i).periods := rfl
  refine ⟨?_, ?_, ?_⟩
  · -- NoOverlap
    intro i' j' hi' hj' hne s hsi hsj
    rw [List.length_set] at hi' hj'
    by_cases hii : i' = i
    · subst hii
      rw [secAt_set_self _ _ _ hlen] at hsi ⊢
      rw [secAt_set_ne _ _ _ _ (fun h => hne h.symm)] at hsj ⊢
      rw [hNen] at hsi
      rw [hNper]
      rcases List.mem_append.mp hsi with hs | hs
      · exact hA i' j' hlen hj' hne s hs hsj
      · have hsid : s = sid := by simpa using hs
        subst hsid
        have hsub := hB1 j' hj' s hsj
        rw [Finset.disjoint_left]
        intro p hp hpj
        exact hconf p hp (hsub hpj)
    · rw [secAt_set_ne _ _ _ _ hii] at hsi ⊢
      by_cases hjj : j' = i
      · subst hjj
        rw [secAt_set_self _ _ _ hlen] at hsj ⊢
        rw [hNen] at hsj
        rw [hNper]
        rcases List.mem_append.mp hsj with hs | hs
        · exact hA i' j' hi' hlen hne s hsi hs
        · have hsid : s = sid := by simpa using hs
          subst hsid
          have hsub := hB1 i' hi' s hsi
          rw [Finset.disjoint_right]
          intro p hp hpj
          exact hconf p hp (hsub hpj)
      · rw [secAt_set_ne _ _ _ _ hjj] at hsj ⊢
        exact hA i' j' hi' hj' hne s hsi hsj
  · -- SchedLower
    intro j hj s hs
    rw [List.length_set] at hj
    by_cases hjj : j = i
    · subst hjj
      rw [secAt_set_self _ _ _ hlen] at hs ⊢
      rw [hNen] at hs
      rw [hNper]
      rcases List.mem_append.mp hs with hmemA | hmemB
      · intro p hp
        by_cases hsid : s = sid
        · rw [hsid, Function.update_same]
          exact Finset.mem_union_left _ (hB1 j hlen sid (hsid ▸ hmemA) hp)
        · rw [Function.update_noteq hsid]
          exact hB1 j hlen s hmemA hp
      · have hsid : s = sid := by simpa using hmemB
        intro p hp
        rw [hsid, Function.update_same]
        exact Finset.mem_union_right _ hp
    · rw [secAt_set_ne _ _ _ _ hjj] at hs ⊢
      intro p hp
      by_cases hsid : s = sid
      · subst hsid
        rw [Function.update_same]
        exact Finset.mem_union_left _ (hB1 j hj s hs hp)
      · rw [Function.update_noteq hsid]
        exact hB1 j hj s hs hp
  · -- SchedUpper
    intro s p hp
    simp only [List.length_set]
    by_cases hsid : s = sid
    · subst hsid
      rw [Function.update_same] at hp
      rcases Finset.mem_union.mp hp with hp | hp
      · obtain ⟨j, hj, hsj, hpj⟩ := hB2 s p hp
        by_cases hjj : j = i
        · subst hjj
          refine ⟨j, hj, ?_, ?_⟩
          · rw [secAt_set_self _ _ _ hlen, hNen]
            exact List.mem_append.mpr (Or.inl hsj)
          · rw [secAt_set_self _ _ _ hlen, hNper]
            exact hpj
        · exact ⟨j, hj, by rw [secAt_set_ne _ _ _ _ hjj]; exact hsj,
            by rw [secAt_set_ne _ _ _ _ hjj]; exact hpj⟩
      · refine ⟨i, hlen, ?_, ?_⟩
        · rw [secAt_set_self _ _ _ hlen, hNen]
          simp
        · rw [secAt_set_self _ _ _ hlen, hNper]
          exact hp
    · rw [Function.update_noteq hsid] at hp
      obtain ⟨j, hj, hsj, hpj⟩ := hB2 s p hp
      by_cases hjj : j = i
      · subst hjj
        refine ⟨j, hj, ?_, ?_⟩
        · rw [secAt_set_self _ _ _ hlen, hNen]
          exact List.mem_append.mpr (Or.inl hsj)
        · rw [secAt_set_self _ _ _ hlen, hNper]
          exact hpj
      · exact ⟨j, hj, by rw [secAt_set_ne _ _ _ _ hjj]; exact hsj,
          by rw [secAt_set_ne _ _ _ _ hjj]; exact hpj⟩

/-- The section walk of `assignStudentToSection` preserves the invariants. -/
theorem tryEnroll_inv (sid : StudentId) :
    ∀ (idxs : List Nat) (secs : List Section) (sched : StudentId → Finset (Nat × Nat)),
      EnrollInv secs sched →
      EnrollInv (tryEnroll sid idxs secs sched).1 (tryEnroll sid idxs secs sched).2.1
  | [], _, _, hinv => hinv
  | i :: rest, secs, sched, hinv => by
    simp only [tryEnroll]
    split
    · exact tryEnroll_inv sid rest secs sched hinv
    · split
      · exact tryEnroll_inv sid rest secs sched hinv
      · rename_i hcap hconf
        by_cases hlen : i < secs.length
        case neg =>
          exfalso
          have hdef : secAt secs i = default := by
            simp [secAt, List.getD, List.getElem?_eq_none (by omega : secs.length ≤ i)]
          rw [hdef] at hcap
          exact hcap (by decide)
        case pos =>
          have hnoconf : ∀ p ∈ periodKeys (secAt secs i).periods, p ∉ sched sid := by
            intro p hp hmem
            apply hconf
            simp only [periodKeys, List.mem_toFinset, List.mem_map] at hp
            obtain ⟨q, hq, rfl⟩ := hp
            exact List.any_eq_true.mpr ⟨q, hq, by simp [hmem]⟩
          exact enroll_step_inv secs sched sid i hlen hnoconf hinv

theorem secAt_oob (l : List Section) (i : Nat) (h : l.length ≤ i) : secAt l i = default := by
  simp [secAt, List.getD, List.getElem?_eq_none h]

theorem secAt_eq_getElem (l : List Section) (i : Nat) (h : i < l.length) :
    secAt l i = l[i] := by
  simp [secAt, List.getD, List.getElem?_eq_getElem h]

theorem secAt_mem (l : List Section) (i : Nat) (h : i < l.length) : secAt l i ∈ l := by
  rw [secAt_eq_getElem l i h]
  exact List.getElem_mem h

theorem mem_iff_secAt (l : List Section) (sec : Section) :
    sec ∈ l ↔ ∃ i, i < l.length ∧ secAt l i = sec := by
  constructor
  · intro h
    obtain ⟨i, hi, he⟩ := List.mem_iff_getElem.mp h
    exact ⟨i, hi, by rw [secAt_eq_getElem l i hi]; exact he⟩
  · rintro ⟨i, hi, rfl⟩
    exact secAt_mem l i hi

/-- The invariants are preserved by one student course-list pass of the
required phase. -/
theorem requiredPass_inv (courseMap : CourseId → Option Course) (student : Student) :
    ∀ (cids : List CourseId) (st : GreedyState),
      EnrollInv st.sections st.sched →
      EnrollInv (requiredPass courseMap student cids st).sections
        (requiredPass courseMap student cids st).sched
  | [], _, h => h
  | cid :: rest, st, h => by
    simp only [requiredPass]
    split
    · exact requiredPass_inv courseMap student rest _ h
    · split
      · exact requiredPass_inv courseMap student rest _ h
      · split
        · exact requiredPass_inv courseMap student rest _
            (tryEnroll_inv student.id _ st.sections st.sched h)
        · exact requiredPass_inv courseMap student rest _
            (tryEnroll_inv student.id _ st.sections st.sched h)

/-- The invariants are preserved by one student course-list pass of the
elective phase. -/
theorem electivePass_inv (courseMap : CourseId → Option Course) (student : Student) :
    ∀ (cids : List CourseId) (st : GreedyState),
      EnrollInv st.sections st.sched →
      EnrollInv (electivePass courseMap student cids st).sections
        (electivePass courseMap student cids st).sched
  | [], _, h => h
  | cid :: rest, st, h => by
    simp only [electivePass]
    split
    · exact electivePass_inv courseMap student rest _ h
    · split
      · exact electivePass_inv courseMap student rest _ h
      · exact electivePass_inv courseMap student rest _
          (tryEnroll_inv student.id _ st.sections st.sched h)

theorem foldl_requiredPass_inv (courseMap : CourseId → Option Course) :
    ∀ (students : List Student) (st : GreedyState),
      EnrollInv st.sections st.sched →
      EnrollInv ((students.foldl
          (fun st student => requiredPass courseMap student student.requiredCourses st)
          st)).sections
        ((students.foldl
          (fun st student => requiredPass courseMap student student.requiredCourses st)
          st)).sched
  | [], _, h => h
  | s :: ss, st, h => by
    simp only [List.foldl_cons]
    exact foldl_requiredPass_inv courseMap ss _
      (requiredPass_inv courseMap s s.requiredCourses st h)

theorem foldl_electivePass_inv (courseMap : CourseId → Option Course) :
    ∀ (students : List Student) (st : GreedyState),
      EnrollInv st.sections st.sched →
      EnrollInv ((students.foldl
          (fun st student => electivePass courseMap student student.electivePreferences st)
          st)).sections
        ((students.foldl
          (fun st student => electivePass courseMap student student.electivePreferences st)
          st)).sched
  | [], _, h => h
  | s :: ss, st, h => by
    simp only [List.foldl_cons]
    exact foldl_electivePass_inv courseMap ss _
      (electivePass_inv courseMap s s.electivePreferences st h)

/-- The whole greedy phase preserves the invariants, starting from the empty
schedule map. -/
theorem runGreedyAssignment_inv (sections : List Section) (input : ScheduleInput)
    (courseMap : CourseId → Option Course)
    (h : EnrollInv sections (fun _ => ∅)) :
    EnrollInv (runGreedyAssignment sections input courseMap).1
      (runGreedyAssignment sections input courseMap).2.1 := by
  simp only [runGreedyAssignment]
  exact foldl_electivePass_inv courseMap input.students _
    (foldl_requiredPass_inv courseMap input.students _ h)

/-- Every section built in Phase 1 starts with an empty roster. -/
theorem makeSections_enrolled (c : Course) (pool : List Teacher) :
    ∀ (i fuel : Nat) (count : TeacherId → Nat) (sec : Section),
      sec ∈ (makeSections c pool i fuel count).2 → sec.enrolledStudents = []
  | _, 0, _, sec, h => absurd h (List.not_mem_nil sec)
  | i, fuel + 1, count, sec, h => by
    simp only [makeSections] at h
    rcases List.mem_cons.mp h with h | h
    · rw [h]
    · exact makeSections_enrolled c pool (i + 1) fuel _ sec h

theorem createSectionsGo_enrolled (teachers : List Teacher) :
    ∀ (courses : List Course) (count : TeacherId → Nat) (sec : Section),
      sec ∈ createSectionsGo teachers courses count → sec.enrolledStudents = []
  | [], _, sec, h => absurd h (List.not_mem_nil sec)
  | course :: rest, count, sec, h => by
    simp only [createSectionsGo] at h
    rcases List.mem_append.mp h with h | h
    · exact makeSections_enrolled course _ 0 course.sections count sec h
    · exact createSectionsGo_enrolled teachers rest _ sec h

theorem createSections_enrolled (courses : List Course) (teachers : List Teacher)
    (sec : Section) (h : sec ∈ createSections courses teachers) :
    sec.enrolledStudents = [] :=
  createSectionsGo_enrolled teachers courses _ sec h

/-- Rosters are still empty after the time and room phases. -/
theorem phase123_enrolled (courses : List Course) (teachers : List Teacher)
    (rooms : List Room) (config : ScheduleConfig) (courseMap : CourseId → Option Course)
    (sec : Section)
    (h : sec ∈ assignRooms (assignTimeSlots (createSections courses teachers) teachers
      config courseMap) rooms courseMap config) :
    sec.enrolledStudents = [] := by
  have hmap : (assignRooms (assignTimeSlots (createSections courses teachers) teachers
        config courseMap) rooms courseMap config).map (·.enrolledStudents) =
      (createSections courses teachers).map (·.enrolledStudents) := by
    rw [assignRooms_map (fun sec => sec.enrolledStudents) (fun s r => rfl),
      assignTimeSlots_map (fun sec => sec.enrolledStudents) (fun s ps => rfl)]
  have hm : sec.enrolledStudents ∈ (assignRooms (assignTimeSlots
      (createSections courses teachers) teachers config courseMap) rooms courseMap
      config).map (·.enrolledStudents) := List.mem_map_of_mem _ h
  rw [hmap] at hm
  obtain ⟨sec1, hmem1, heq⟩ := List.mem_map.mp hm
  rw [← heq]
  exact createSections_enrolled courses teachers sec1 hmem1

/-- Sections with empty rosters satisfy the invariants with the empty
schedule map. -/
theorem enrollInv_empty (secs : List Section)
    (h : ∀ sec ∈ secs, sec.enrolledStudents = []) :
    EnrollInv secs (fun _ => ∅) := by
  refine ⟨?_, ?_, ?_⟩
  · intro i j hi hj hne s hsi hsj
    rw [h (secAt secs i) (secAt_mem secs i hi)] at hsi
    exact absurd hsi (List.not_mem_nil s)
  · intro i hi s hs
    rw [h (secAt secs i) (secAt_mem secs i hi)] at hs
    exact absurd hs (List.not_mem_nil s)
  · intro s p hp
    exact absurd hp (Finset.not_mem_empty p)

theorem enrollInv_nil : EnrollInv [] (fun _ => ∅) :=
  enrollInv_empty [] (fun sec h => absurd h (List.not_mem_nil sec))

/-- Every enrolled id of every section belongs to the known id list. -/
def EnrolledKnown (secs : List Section) (known : List StudentId) : Prop :=
  ∀ sec ∈ secs, ∀ s ∈ sec.enrolledStudents, s ∈ known

theorem tryEnroll_known (sid : StudentId) (known : List StudentId) (hsid : sid ∈ known) :
    ∀ (idxs : List Nat) (secs : List Section) (sched : StudentId → Finset (Nat × Nat)),
      EnrolledKnown secs known → EnrolledKnown (tryEnroll sid idxs secs sched).1 known
  | [], _, _, h => h
  | i :: rest, secs, sched, h => by
    simp only [tryEnroll]
    split
    · exact tryEnroll_known sid known hsid rest secs sched h
    · split
      · exact tryEnroll_known sid known hsid rest secs sched h
      · intro sec hsec s hs
        rcases List.mem_or_eq_of_mem_set hsec with hsec | hsec
        · exact h sec hsec s hs
        · rw [hsec] at hs
          rcases List.mem_append.mp hs with hs | hs
          · by_cases hlen : i < secs.length
            · exact h (secAt secs i) (secAt_mem secs i hlen) s hs
            · rw [secAt_oob secs i (by omega)] at hs
              exact absurd hs (List.not_mem_nil s)
          · have : s = sid := by simpa using hs
            rw [this]
            exact hsid

theorem requiredPass_known (courseMap : CourseId → Option Course) (student : Student)
    (known : List StudentId) (hst : student.id ∈ known) :
    ∀ (cids : List CourseId) (st : GreedyState),
      EnrolledKnown st.sections known →
      EnrolledKnown (requiredPass courseMap student cids st).sections known
  | [], _, h => h
  | cid :: rest, st, h => by
    simp only [requiredPass]
    split
    · exact requiredPass_known courseMap student known hst rest _ h
    · split
      · exact requiredPass_known courseMap student known hst rest _ h
      · split
        · exact requiredPass_known courseMap student known hst rest _
            (tryEnroll_known student.id known hst _ st.sections st.sched h)
        · exact requiredPass_known courseMap student known hst rest _
            (tryEnroll_known student.id known hst _ st.sections st.sched h)

theorem electivePass_known (courseMap : CourseId → Option Course) (student : Student)
    (known : List StudentId) (hst : student.id ∈ known) :
    ∀ (cids : List CourseId) (st : GreedyState),
      EnrolledKnown st.sections known →
      EnrolledKnown (electivePass courseMap student cids st).sections known
  | [], _, h => h
  | cid :: rest, st, h => by
    simp only [electivePass]
    split
    · exact electivePass_known courseMap student known hst rest _ h
    · split
      · exact electivePass_known courseMap student known hst rest _ h
      · exact electivePass_known courseMap student known hst rest _
          (tryEnroll_known student.id known hst _ st.sections st.sched h)

theorem foldl_requiredPass_known (courseMap : CourseId → Option Course)
    (known : List StudentId) :
    ∀ (students : List Student), (∀ s ∈ students, s.id ∈ known) →
      ∀ (st : GreedyState), EnrolledKnown st.sections known →
      EnrolledKnown ((students.foldl
        (fun st student => requiredPass courseMap student student.requiredCourses st)
        st)).sections known
  | [], _, _, h => h
  | s :: ss, hall, st, h => by
    simp only [List.foldl_cons]
    exact foldl_requiredPass_known courseMap known ss
      (fun x hx => hall x (List.mem_cons_of_mem s hx)) _
      (requiredPass_known courseMap s known (hall s (List.mem_cons_self s ss))
        s.requiredCourses st h)

theorem foldl_electivePass_known (courseMap : CourseId → Option Course)
    (known : List StudentId) :
    ∀ (students : List Student), (∀ s ∈ students, s.id ∈ known) →
      ∀ (st : GreedyState), EnrolledKnown st.sections known →
      EnrolledKnown ((students.foldl
        (fun st student => electivePass courseMap student student.electivePreferences st)
        st)).sections known
  | [], _, _, h => h
  | s :: ss, hall, st, h => by
    simp only [List.foldl_cons]
    exact foldl_electivePass_known courseMap known ss
      (fun x hx => hall x (List.mem_cons_of_mem s hx)) _
      (electivePass_known courseMap s known (hall s (List.mem_cons_self s ss))
        s.electivePreferences st h)

/-- The ids enrolled by the greedy phase all come from the input students. -/
theorem runGreedyAssignment_known (sections : List Section) (input : ScheduleInput)
    (courseMap : CourseId → Option Course)
    (h : EnrolledKnown sections (input.students.map (·.id))) :
    EnrolledKnown (runGreedyAssignment sections input courseMap).1
      (input.students.map (·.id)) := by
  simp only [runGreedyAssignment]
  exact foldl_electivePass_known courseMap _ input.students
    (fun s hs => List.mem_map_of_mem _ hs) _
    (foldl_requiredPass_known courseMap _ input.students
      (fun s hs => List.mem_map_of_mem _ hs) _ h)

/-- The inner roster fold of `buildStudentSchedules` only grows the sets. -/
theorem buildInner_mono (known : List StudentId) (sec : Section) :
    ∀ (l : List StudentId) (sched : StudentId → Finset (Nat × Nat)) (s : StudentId),
      sched s ⊆ (l.foldl
        (fun sched sid =>
          if sid ∈ known then
            Function.update sched sid (sched sid ∪ periodKeys sec.periods)
          else sched)
        sched) s
  | [], _, _ => fun _ hp => hp
  | sid :: rest, sched, s => by
    simp only [List.foldl_cons]
    refine subset_trans ?_ (buildInner_mono known sec rest _ s)
    split
    · by_cases hs : s = sid
      · rw [hs, Function.update_same]
        exact Finset.subset_union_left
      · rw [Function.update_noteq hs]
    · exact fun _ hp => hp

/-- A known roster member picks up the section's keys in the inner fold. -/
theorem buildInner_grows (known : List StudentId) (sec : Section) :
    ∀ (l : List StudentId) (sched : StudentId → Finset (Nat × Nat)) (s : StudentId),
      s ∈ l → s ∈ known →
      periodKeys sec.periods ⊆ (l.foldl
        (fun sched sid =>
          if sid ∈ known then
            Function.update sched sid (sched sid ∪ periodKeys sec.periods)
          else sched)
        sched) s
  | [], _, _, hmem, _ => absurd hmem (List.not_mem_nil _)
  | sid :: rest, sched, s, hmem, hk => by
    simp only [List.foldl_cons]
    by_cases hs : s = sid
    · refine subset_trans ?_ (buildInner_mono known sec rest _ s)
      rw [← hs, if_pos hk, Function.update_same]
      exact Finset.subset_union_right
    · rcases List.mem_cons.mp hmem with h | h
      · exact absurd h hs
      · exact buildInner_grows known sec rest _ s h hk

/-- Everything in the inner fold's result was present before or is one of
the section's keys attached to a roster member. -/
theorem buildInner_upper (known : List StudentId) (sec : Section) :
    ∀ (l : List StudentId) (sched : StudentId → Finset (Nat × Nat)) (s : StudentId)
      (p : Nat × Nat),
      p ∈ (l.foldl
        (fun sched sid =>
          if sid ∈ known then
            Function.update sched sid (sched sid ∪ periodKeys sec.periods)
          else sched)
        sched) s →
      p ∈ sched s ∨ (s ∈ l ∧ p ∈ periodKeys sec.periods)
  | [], _, _, _, hp => Or.inl hp
  | sid :: rest, sched, s, p, hp => by
    simp only [List.foldl_cons] at hp
    rcases buildInner_upper known sec rest _ s p hp with h | ⟨hmem, hkey⟩
    · split at h
      · by_cases hs : s = sid
        · subst hs
          rw [Function.update_same] at h
          rcases Finset.mem_union.mp h with h | h
          · exact Or.inl h
          · exact Or.inr ⟨List.mem_cons_self s rest, h⟩
        · rw [Function.update_noteq hs] at h
          exact Or.inl h
      · exact Or.inl h
    · exact Or.inr ⟨List.mem_cons_of_mem sid hmem, hkey⟩

/-- The outer section fold of `buildStudentSchedules` only grows the sets. -/
theorem buildOuter_mono (known : List StudentId) :
    ∀ (secs : List Section) (sched : StudentId → Finset (Nat × Nat)) (s : StudentId),
      sched s ⊆ (secs.foldl
        (fun sched sec =>
          sec.enrolledStudents.foldl
            (fun sched sid =>
              if sid ∈ known then
                Function.update sched sid (sched sid ∪ periodKeys sec.periods)
              else sched)
            sched)
        sched) s
  | [], _, _ => fun _ hp => hp
  | sec :: rest, sched, s => by
    simp only [List.foldl_cons]
    exact subset_trans (buildInner_mono known sec sec.enrolledStudents sched s)
      (buildOuter_mono known rest _ s)

theorem buildOuter_lower (known : List StudentId) :
    ∀ (secs : List Section) (sched : StudentId → Finset (Nat × Nat)) (sec : Section)
      (s : StudentId), sec ∈ secs → s ∈ sec.enrolledStudents → s ∈ known →
      periodKeys sec.periods ⊆ (secs.foldl
        (fun sched sec =>
          sec.enrolledStudents.foldl
            (fun sched sid =>
              if sid ∈ known then
                Function.update sched sid (sched sid ∪ periodKeys sec.periods)
              else sched)
            sched)
        sched) s
  | [], _, _, _, hmem, _, _ => absurd hmem (List.not_mem_nil _)
  | sec0 :: rest, sched, sec, s, hmem, hroster, hk => by
    simp only [List.foldl_cons]
    rcases List.mem_cons.mp hmem with h | h
    · subst h
      exact subset_trans (buildInner_grows known sec sec.enrolledStudents sched s
        hroster hk) (buildOuter_mono known rest _ s)
    · exact buildOuter_lower known rest _ sec s h hroster hk

theorem buildOuter_upper (known : List StudentId) :
    ∀ (secs : List Section) (sched : StudentId → Finset (Nat × Nat)) (s : StudentId)
      (p : Nat × Nat),
      p ∈ (secs.foldl
        (fun sched sec =>
          sec.enrolledStudents.foldl
            (fun sched sid =>
              if sid ∈ known then
                Function.update sched sid (sched sid ∪ periodKeys sec.periods)
              else sched)
            sched)
        sched) s →
      p ∈ sched s ∨ ∃ sec ∈ secs, s ∈ sec.enrolledStudents ∧ p ∈ periodKeys sec.periods
  | [], _, _, _, hp => Or.inl hp
  | sec0 :: rest, sched, s, p, hp => by
    simp only [List.foldl_cons] at hp
    rcases buildOuter_upper known rest _ s p hp with h | ⟨sec, hmem, hroster, hkey⟩
    · rcases buildInner_upper known sec0 sec0.enrolledStudents sched s p h with h | ⟨hr, hk⟩
      · exact Or.inl h
      · exact Or.inr ⟨sec0, List.mem_cons_self sec0 rest, hr, hk⟩
    · exact Or.inr ⟨sec, List.mem_cons_of_mem sec0 hmem, hroster, hkey⟩

/-- The rebuilt per-student schedule sets bracket the enrollments exactly,
so they satisfy the invariants together with the sections (the rosters must
only mention known student ids, which the greedy phase guarantees). -/
theorem buildStudentSchedules_inv (secs : List Section) (students : List Student)
    (hknown : EnrolledKnown secs (students.map (·.id)))
    (hno : NoOverlap secs) :
    EnrollInv secs (buildStudentSchedules secs students) := by
  refine ⟨hno, ?_, ?_⟩
  · intro i hi s hs
    have hsecmem := secAt_mem secs i hi
    have hk := hknown (secAt secs i) hsecmem s hs
    simp only [buildStudentSchedules]
    exact buildOuter_lower (students.map (·.id)) secs _ (secAt secs i) s hsecmem hs hk
  · intro s p hp
    simp only [buildStudentSchedules] at hp
    rcases buildOuter_upper (students.map (·.id)) secs _ s p hp with h | ⟨sec, hmem, hr, hk⟩
    · exact absurd h (Finset.not_mem_empty p)
    · obtain ⟨i, hi, hsec⟩ := (mem_iff_secAt secs sec).mp hmem
      exact ⟨i, hi, by rw [hsec]; exact hr, by rw [hsec]; exact hk⟩

/-- Appending an already-enrolled student again to the same section (the
degenerate self-move of the rebalancer) preserves the invariants. -/
theorem reenroll_step_inv (secs : List Section) (sched : StudentId → Finset (Nat × Nat))
    (sid : StudentId) (i : Nat) (hlen : i < secs.length)
    (hmem : sid ∈ (secAt secs i).enrolledStudents)
    (hinv : EnrollInv secs sched) :
    EnrollInv
      (secs.set i { secAt secs i with
        enrolledStudents := (secAt secs i).enrolledStudents ++ [sid] })
      (Function.update sched sid (sched sid ∪ periodKeys (secAt secs i).periods)) := by
  obtain ⟨hA, hB1, hB2⟩ := hinv
  set N : Section := { secAt secs i with
    enrolledStudents := (secAt secs i).enrolledStudents ++ [sid] } with hN
  have hNen : N.enrolledStudents = (secAt secs i).enrolledStudents ++ [sid] := rfl
  have hNper : N.periods = (secAt secs i).periods := rfl
  have hred : ∀ k s, s ∈ (secAt (secs.set i N) k).enrolledStudents →
      s ∈ (secAt secs k).enrolledStudents := by
    intro k s hs
    by_cases hk : k = i
    · subst hk
      rw [secAt_set_self _ _ _ hlen, hNen] at hs
      rcases List.mem_append.mp hs with h | h
      · exact h
      · have hsd : s = sid := by simpa using h
        rw [hsd]; exact hmem
    · rw [secAt_set_ne _ _ _ _ hk] at hs; exact hs
  have hkeq : ∀ k, periodKeys (secAt (secs.set i N) k).periods =
      periodKeys (secAt secs k).periods := by
    intro k
    by_cases hk : k = i
    · subst hk; rw [secAt_set_self _ _ _ hlen, hNper]
    · rw [secAt_set_ne _ _ _ _ hk]
  refine ⟨?_, ?_, ?_⟩
  · intro i' j' hi' hj' hne s hsi hsj
    rw [List.length_set] at hi' hj'
    rw [hkeq i', hkeq j']
    exact hA i' j' hi' hj' hne s (hred i' s hsi) (hred j' s hsj)
  · intro k hk s hs
    rw [List.length_set] at hk
    rw [hkeq k]
    have hold := hB1 k hk s (hred k s hs)
    by_cases hsd : s = sid
    · subst hsd
      rw [Function.update_same]
      exact subset_trans hold Finset.subset_union_left
    · rw [Function.update_noteq hsd]
      exact hold
  · intro s p hp
    simp only [List.length_set]
    by_cases hsd : s = sid
    · subst hsd
      rw [Function.update_same] at hp
      rcases Finset.mem_union.mp hp with hp | hp
      · obtain ⟨k, hk, hmemk, hkeyk⟩ := hB2 s p hp
        refine ⟨k, hk, ?_, by rw [hkeq k]; exact hkeyk⟩
        by_cases hki : k = i
        · subst hki
          rw [secAt_set_self _ _ _ hlen, hNen]
          exact List.mem_append.mpr (Or.inl hmemk)
        · rw [secAt_set_ne _ _ _ _ hki]; exact hmemk
      · refine ⟨i, hlen, ?_, ?_⟩
        · rw [secAt_set_self _ _ _ hlen, hNen]
          simp
        · rw [secAt_set_self _ _ _ hlen, hNper]
          exact hp
    · rw [Function.update_noteq hsd] at hp
      obtain ⟨k, hk, hmemk, hkeyk⟩ := hB2 s p hp
      refine ⟨k, hk, ?_, by rw [hkeq k]; exact hkeyk⟩
      by_cases hki : k = i
      · subst hki
        rw [secAt_set_self _ _ _ hlen, hNen]
        exact List.mem_append.mpr (Or.inl hmemk)
      · rw [secAt_set_ne _ _ _ _ hki]; exact hmemk

/-- A committed rebalancer move — delete the student from the larger
section, append them to the smaller one, swap the key sets in the student's
schedule — preserves the invariants, provided the landing section's keys
avoid the rest of the student's schedule. -/
theorem move_step_inv (secs : List Section) (sched : StudentId → Finset (Nat × Nat))
    (sid : StudentId) (li si : Nat) (hli : li < secs.length) (hsi : si < secs.length)
    (hne : si ≠ li)
    (hmem : sid ∈ (secAt secs li).enrolledStudents)
    (hconf : ∀ p ∈ periodKeys (secAt secs si).periods,
      p ∉ sched sid \ periodKeys (secAt secs li).periods)
    (hinv : EnrollInv secs sched) :
    EnrollInv
      ((secs.set li { secAt secs li with
          enrolledStudents := (secAt secs li).enrolledStudents.filter (· != sid) }).set si
        { secAt secs si with
          enrolledStudents := (secAt secs si).enrolledStudents ++ [sid] })
      (Function.update sched sid
        ((sched sid \ periodKeys (secAt secs li).periods) ∪
          periodKeys (secAt secs si).periods)) := by
  obtain ⟨hA, hB1, hB2⟩ := hinv
  set L : Section := { secAt secs li with
    enrolledStudents := (secAt secs li).enrolledStudents.filter (· != sid) } with hL
  set S : Section := { secAt secs si with
    enrolledStudents := (secAt secs si).enrolledStudents ++ [sid] } with hS
  set secs2 : List Section := (secs.set li L).set si S with hsecs2
  have hSen : S.enrolledStudents = (secAt secs si).enrolledStudents ++ [sid] := rfl
  have hSper : S.periods = (secAt secs si).periods := rfl
  have hLen : L.enrolledStudents = (secAt secs li).enrolledStudents.filter (· != sid) := rfl
  have hLper : L.periods = (secAt secs li).periods := rfl
  have hlen2 : secs2.length = secs.length := by
    rw [hsecs2, List.length_set, List.length_set]
  have hsecS : secAt secs2 si = S := by
    rw [hsecs2]
    exact secAt_set_self _ _ _ (by rw [List.length_set]; exact hsi)
  have hsecL : secAt secs2 li = L := by
    rw [hsecs2, secAt_set_ne _ _ _ _ (Ne.symm hne)]
    exact secAt_set_self _ _ _ hli
  have hsecO : ∀ k, k ≠ si → k ≠ li → secAt secs2 k = secAt secs k := by
    intro k h1 h2
    rw [hsecs2, secAt_set_ne _ _ _ _ h1, secAt_set_ne _ _ _ _ h2]
  have hkeq : ∀ k, periodKeys (secAt secs2 k).periods =
      periodKeys (secAt secs k).periods := by
    intro k
    by_cases h1 : k = si
    · subst h1; rw [hsecS, hSper]
    · by_cases h2 : k = li
      · subst h2; rw [hsecL, hLper]
      · rw [hsecO k h1 h2]
  have hred : ∀ k s, s ∈ (secAt secs2 k).enrolledStudents →
      (s ∈ (secAt secs k).enrolledStudents ∧ (k = li → s ≠ sid)) ∨ (k = si ∧ s = sid) := by
    intro k s hs
    by_cases h1 : k = si
    · subst h1
      rw [hsecS, hSen] at hs
      rcases List.mem_append.mp hs with h | h
      · exact Or.inl ⟨h, fun hk => absurd hk hne⟩
      · exact Or.inr ⟨rfl, by simpa using h⟩
    · by_cases h2 : k = li
      · subst h2
        rw [hsecL, hLen] at hs
        have hm := List.mem_filter.mp hs
        exact Or.inl ⟨hm.1, fun _ => by simpa using hm.2⟩
      · rw [hsecO k h1 h2] at hs
        exact Or.inl ⟨hs, fun hk => absurd hk h2⟩
  have hup : ∀ k s, k ≠ li → s ∈ (secAt secs k).enrolledStudents →
      s ∈ (secAt secs2 k).enrolledStudents := by
    intro k s hk hs
    by_cases h1 : k = si
    · subst h1
      rw [hsecS, hSen]
      exact List.mem_append.mpr (Or.inl hs)
    · rw [hsecO k h1 hk]
      exact hs
  have hupli : ∀ s, s ≠ sid → s ∈ (secAt secs li).enrolledStudents →
      s ∈ (secAt secs2 li).enrolledStudents := by
    intro s hsne hs
    rw [hsecL, hLen]
    exact List.mem_filter.mpr ⟨hs, by simpa using hsne⟩
  have hDdisj : ∀ k, k < secs.length → k ≠ si → k ≠ li →
      sid ∈ (secAt secs k).enrolledStudents →
      Disjoint (periodKeys (secAt secs si).periods) (periodKeys (secAt secs k).periods) := by
    intro k hk h1 h2 hmemk
    have hsub := hB1 k hk sid hmemk
    have hdisLK := hA k li hk hli h2 sid hmemk hmem
    rw [Finset.disjoint_left]
    intro p hpS hpk
    apply hconf p hpS
    rw [Finset.mem_sdiff]
    exact ⟨hsub hpk, fun hpl => (Finset.disjoint_left.mp hdisLK hpk) hpl⟩
  refine ⟨?_, ?_, ?_⟩
  · intro i' j' hi' hj' hne' s hsi' hsj'
    have hi'' : i' < secs.length := by rwa [hlen2] at hi'
    have hj'' : j' < secs.length := by rwa [hlen2] at hj'
    rw [hkeq i', hkeq j']
    rcases hred i' s hsi' with ⟨h1, h1li⟩ | ⟨hieq, hseq⟩
    · rcases hred j' s hsj' with ⟨h2, h2li⟩ | ⟨hjeq, hseq⟩
      · exact hA i' j' hi'' hj'' hne' s h1 h2
      · rw [hjeq]
        have h1nesi : i' ≠ si := fun h => hne' (h.trans hjeq.symm)
        have h1neli : i' ≠ li := fun h => (h1li h) hseq
        exact (hDdisj i' hi'' h1nesi h1neli (hseq ▸ h1)).symm
    · rcases hred j' s hsj' with ⟨h2, h2li⟩ | ⟨hjeq, hseq2⟩
      · rw [hieq]
        have h2nesi : j' ≠ si := fun h => hne' (hieq.trans h.symm)
        have h2neli : j' ≠ li := fun h => (h2li h) hseq
        exact hDdisj j' hj'' h2nesi h2neli (hseq ▸ h2)
      · exact absurd (hieq.trans hjeq.symm) hne'
  · intro k hk s hs
    have hk' : k < secs.length := by rwa [hlen2] at hk
    rw [hkeq k]
    rcases hred k s hs with ⟨h1, h1li⟩ | ⟨hksi, hssid⟩
    · by_cases hsd : s = sid
      · subst hsd
        rw [Function.update_same]
        by_cases hksi : k = si
        · rw [hksi]
          exact Finset.subset_union_right
        · have hkli : k ≠ li := fun h => (h1li h) rfl
          have hsub := hB1 k hk' s h1
          refine subset_trans ?_ Finset.subset_union_left
          intro p hp
          rw [Finset.mem_sdiff]
          refine ⟨hsub hp, ?_⟩
          have hdis := hA k li hk' hli hkli s h1 hmem
          exact fun hpl => (Finset.disjoint_left.mp hdis hp) hpl
      · rw [Function.update_noteq hsd]
        exact hB1 k hk' s h1
    · rw [hksi, hssid, Function.update_same]
      exact Finset.subset_union_right
  · intro s p hp
    by_cases hsd : s = sid
    · subst hsd
      rw [Function.update_same] at hp
      rcases Finset.mem_union.mp hp with hp | hp
      · have hpm := Finset.mem_sdiff.mp hp
        obtain ⟨k, hk, hmemk, hkeyk⟩ := hB2 s p hpm.1
        have hkli : k ≠ li := by
          intro h
          exact hpm.2 (h ▸ hkeyk)
        exact ⟨k, by rw [hlen2]; exact hk, hup k s hkli hmemk,
          by rw [hkeq k]; exact hkeyk⟩
      · refine ⟨si, by rw [hlen2]; exact hsi, ?_, by rw [hkeq si]; exact hp⟩
        rw [hsecS, hSen]
        simp
    · rw [Function.update_noteq hsd] at hp
      obtain ⟨k, hk, hmemk, hkeyk⟩ := hB2 s p hp
      by_cases hkli : k = li
      · refine ⟨k, by rw [hlen2]; exact hk, ?_, by rw [hkeq k]; exact hkeyk⟩
        rw [hkli]
        exact hupli s hsd (hkli ▸ hmemk)
      · exact ⟨k, by rw [hlen2]; exact hk, hup k s hkli hmemk,
          by rw [hkeq k]; exact hkeyk⟩

/-- The candidate walk of the rebalancer preserves the invariants: a
committed move is covered by the step lemmas and a rolled-back attempt
restores the schedule map exactly. -/
theorem tryMove_inv (li si : Nat) :
    ∀ (cands : List StudentId) (secs : List Section)
      (sched : StudentId → Finset (Nat × Nat)),
      (∀ x ∈ cands, x ∈ (secAt secs li).enrolledStudents) →
      EnrollInv secs sched →
      EnrollInv (tryMove li si cands secs sched).1 (tryMove li si cands secs sched).2.1
  | [], _, _, _, hinv => hinv
  | sid :: rest, secs, sched, hc, hinv => by
    have hmem : sid ∈ (secAt secs li).enrolledStudents :=
      hc sid (List.mem_cons_self sid rest)
    have hli : li < secs.length := by
      by_contra hcon
      rw [secAt_oob secs li (by omega)] at hmem
      exact absurd hmem (List.not_mem_nil sid)
    have hLsub : periodKeys (secAt secs li).periods ⊆ sched sid :=
      hinv.2.1 li hli sid hmem
    simp only [tryMove]
    split
    · rename_i hcond
      have h2len := of_decide_eq_true (Bool.and_eq_true_iff.mp hcond).2
      have hnoc := (Bool.and_eq_true_iff.mp hcond).1
      have hsi : si < secs.length := by
        by_contra hcon
        rw [secAt_oob secs si (by omega)] at h2len
        exact absurd h2len (by decide)
      have hupd : Function.update
            (Function.update sched sid
              (sched sid \ periodKeys (secAt secs li).periods)) sid
            (Function.update sched sid
              (sched sid \ periodKeys (secAt secs li).periods) sid ∪
              periodKeys (secAt secs si).periods) =
          Function.update sched sid
            ((sched sid \ periodKeys (secAt secs li).periods) ∪
              periodKeys (secAt secs si).periods) := by
        rw [Function.update_same, Function.update_idem]
      rw [hupd]
      have hconf : ∀ p ∈ periodKeys (secAt secs si).periods,
          p ∉ sched sid \ periodKeys (secAt secs li).periods := by
        intro p hp hpmem
        obtain ⟨q, hq, hqk⟩ := List.mem_map.mp (List.mem_toFinset.mp hp)
        have hfalse : ((secAt secs si).periods.any fun p =>
            decide (p.key ∈ Function.update sched sid
              (sched sid \ periodKeys (secAt secs li).periods) sid)) = false := by
          rw [Bool.not_eq_true'] at hnoc
          exact hnoc
        have := List.any_eq_false.mp hfalse q hq
        rw [Function.update_same] at this
        exact this (by rw [hqk]; exact decide_eq_true hpmem)
      by_cases hsl : si = li
      · subst hsl
        rw [List.set_set, Finset.sdiff_union_self_eq_union]
        exact reenroll_step_inv secs sched sid si hli hmem hinv
      · exact move_step_inv secs sched sid li si hli hsi hsl hmem hconf hinv
    · have hres : Function.update
          (Function.update sched sid
            (sched sid \ periodKeys (secAt secs li).periods)) sid
          (Function.update sched sid
            (sched sid \ periodKeys (secAt secs li).periods) sid ∪
            periodKeys (secAt secs li).periods) = sched := by
        rw [Function.update_same, Function.update_idem,
          Finset.sdiff_union_self_eq_union, Finset.union_eq_left.mpr hLsub,
          Function.update_eq_self]
      rw [hres]
      exact tryMove_inv li si rest secs sched
        (fun x hx => hc x (List.mem_cons_of_mem sid hx)) hinv

/-- One course group of the rebalancer preserves the invariants. -/
theorem onePassGroup_inv (secs : List Section) (sched : StudentId → Finset (Nat × Nat))
    (group : CourseId × List Nat) (hinv : EnrollInv secs sched) :
    EnrollInv (onePassGroup secs sched group).2.1 (onePassGroup secs sched group).2.2.1 := by
  simp only [onePassGroup]
  split
  · exact hinv
  · split
    · exact hinv
    · exact tryMove_inv _ _ _ secs sched (fun x hx => hx) hinv

theorem onePassGo_inv :
    ∀ (groups : List (CourseId × List Nat)) (secs : List Section)
      (sched : StudentId → Finset (Nat × Nat)) (imp : Bool),
      EnrollInv secs sched →
      EnrollInv (onePassGo groups secs sched imp).2.1 (onePassGo groups secs sched imp).2.2.1
  | [], _, _, _, hinv => hinv
  | g :: gs, secs, sched, imp, hinv => by
    simp only [onePassGo]
    exact onePassGo_inv gs _ _ _ (onePassGroup_inv secs sched g hinv)

/-- One full rebalancing iteration preserves the invariants. -/
theorem onePass_inv (st : OptState) (hinv : EnrollInv st.sections st.sched) :
    EnrollInv (onePass st).1.sections (onePass st).1.sched := by
  simp only [onePass]
  exact onePassGo_inv st.groups st.sections st.sched false hinv

theorem optimizeRun_inv :
    ∀ (fuel : Nat) (st : OptState), EnrollInv st.sections st.sched →
      EnrollInv (optimizeRun fuel st).1.sections (optimizeRun fuel st).1.sched
  | 0, _, hinv => hinv
  | fuel + 1, st, hinv => by
    simp only [optimizeRun]
    split
    · exact optimizeRun_inv fuel _ (onePass_inv st hinv)
    · exact onePass_inv st hinv

/-- Phase 5 preserves the no-overlap invariant. -/
theorem optimizeSections_inv (sections : List Section)
    (sched : StudentId → Finset (Nat × Nat)) (courseMap : CourseId → Option Course)
    (maxIterations : Nat) (hinv : EnrollInv sections sched) :
    NoOverlap (optimizeSections sections sched courseMap maxIterations) := by
  simp only [optimizeSections]
  exact (optimizeRun_inv maxIterations
    { sections := sections, groups := groupByCourse sections, sched := sched } hinv).1

/-- Claim C5: for every schedule returned by `generateSchedule` and every
student, no two sections whose rosters both contain that student share a
(day, slot) period key; moreover each enrollment step of the greedy passes
and each full rebalancing iteration (commits and rollbacks included)
preserves the no-overlap invariant of the evolving state, schedule map
included. -/
theorem claim_C5_no_overlap :
    (∀ (input : ScheduleInput) (opts : SchedulerOptions) (t1 t2 : Int) (gen : String),
      NoOverlap (generateSchedule input opts t1 t2 gen).sections) ∧
    (∀ (sid : StudentId) (idxs : List Nat) (secs : List Section)
        (sched : StudentId → Finset (Nat × Nat)),
      EnrollInv secs sched →
      EnrollInv (tryEnroll sid idxs secs sched).1 (tryEnroll sid idxs secs sched).2.1) ∧
    (∀ (st : OptState), EnrollInv st.sections st.sched →
      EnrollInv (onePass st).1.sections (onePass st).1.sched) := by
  refine ⟨?_, fun sid idxs secs sched h => tryEnroll_inv sid idxs secs sched h,
    fun st h => onePass_inv st h⟩
  intro input opts t1 t2 gen
  simp only [generateSchedule]
  apply optimizeSections_inv
  apply buildStudentSchedules_inv
  · apply runGreedyAssignment_known
    intro sec hs s hmem
    rw [phase123_enrolled input.courses input.teachers input.rooms input.config _ sec hs]
      at hmem
    exact absurd hmem (List.not_mem_nil s)
  · exact (runGreedyAssignment_inv _ input _ (enrollInv_empty _
      (phase123_enrolled input.courses input.teachers input.rooms input.config _))).1

/-- Witness for C5 at concrete inputs, discharging each hypothesis. -/
theorem claim_C5_witness :
    NoOverlap (generateSchedule emptyInput ⟨none⟩ 0 0 "t").sections ∧
    EnrollInv (tryEnroll "S" [] [] (fun _ => ∅)).1 (tryEnroll "S" [] [] (fun _ => ∅)).2.1 ∧
    EnrollInv (onePass { sections := [], groups := [], sched := fun _ => ∅ }).1.sections
      (onePass { sections := [], groups := [], sched := fun _ => ∅ }).1.sched :=
  ⟨claim_C5_no_overlap.1 emptyInput ⟨none⟩ 0 0 "t",
   claim_C5_no_overlap.2.1 "S" [] [] (fun _ => ∅) enrollInv_nil,
   claim_C5_no_overlap.2.2 { sections := [], groups := [], sched := fun _ => ∅ }
     enrollInv_nil⟩

theorem set_secAt : ∀ (l : List Section) (i : Nat), l.set i (secAt l i) = l
  | [], _ => by simp
  | a :: l, 0 => by simp [secAt]
  | a :: l, i + 1 => by
    simp only [List.set_cons_succ]
    rw [show secAt (a :: l) (i + 1) = secAt l i from by simp [secAt, List.getD]]
    rw [set_secAt l i]

/-- With `days_per_week = 0` a commit adds no periods, so Phase 2 leaves the
sections untouched. -/
theorem commitSlot_sections_zero (st : TimeState) (idx slot : Nat) (grades : List Nat)
    (config : ScheduleConfig) (h : config.daysPerWeek = 0) :
    (commitSlot st idx slot grades config).sections = st.sections := by
  have : (commitSlot st idx slot grades config).sections =
      st.sections.set idx (secAt st.sections idx) := by
    simp only [commitSlot, h, List.range_zero, List.map_nil, List.append_nil]
  rw [this, set_secAt]

theorem assignCourseSlots_sections_zero (config : ScheduleConfig) (grades : List Nat)
    (h : config.daysPerWeek = 0) :
    ∀ (idxs : List Nat) (st : TimeState) (used : Finset Nat),
      (assignCourseSlots config grades idxs st used).sections = st.sections
  | [], _, _ => rfl
  | idx :: rest, st, used => by
    simp only [assignCourseSlots]
    rw [assignCourseSlots_sections_zero config grades h rest _ _]
    exact commitSlot_sections_zero st idx _ grades config h

theorem assignTimeSlots_zero (sections : List Section) (teachers : List Teacher)
    (config : ScheduleConfig) (courseMap : CourseId → Option Course)
    (h : config.daysPerWeek = 0) :
    assignTimeSlots sections teachers config courseMap = sections := by
  simp only [assignTimeSlots]
  generalize hgs : groupByCourse sections = gs
  suffices hgen : ∀ (gs : List (CourseId × List Nat)) (st : TimeState),
      (gs.foldl (fun st group =>
        assignCourseSlots config
          (((courseMap group.1).bind (·.gradeRestrictions)).getD []) group.2 st ∅)
        st).sections = st.sections by
    rw [hgen]
  intro gs
  induction gs with
  | nil => intro st; rfl
  | cons g rest ih =>
    intro st
    simp only [List.foldl_cons]
    rw [ih]
    exact assignCourseSlots_sections_zero config _ h g.2 st ∅

/-- Every section built in Phase 1 starts with no periods. -/
theorem makeSections_periods (c : Course) (pool : List Teacher) :
    ∀ (i fuel : Nat) (count : TeacherId → Nat) (sec : Section),
      sec ∈ (makeSections c pool i fuel count).2 → sec.periods = []
  | _, 0, _, sec, h => absurd h (List.not_mem_nil sec)
  | i, fuel + 1, count, sec, h => by
    simp only [makeSections] at h
    rcases List.mem_cons.mp h with h | h
    · rw [h]
    · exact makeSections_periods c pool (i + 1) fuel _ sec h

theorem createSectionsGo_periods (teachers : List Teacher) :
    ∀ (courses : List Course) (count : TeacherId → Nat) (sec : Section),
      sec ∈ createSectionsGo teachers courses count → sec.periods = []
  | [], _, sec, h => absurd h (List.not_mem_nil sec)
  | course :: rest, count, sec, h => by
    simp only [createSectionsGo] at h
    rcases List.mem_append.mp h with h | h
    · exact makeSections_periods course _ 0 course.sections count sec h
    · exact createSectionsGo_periods teachers rest _ sec h

/-- Transfer a pointwise roster-independent fact along a `map` equality. -/
theorem forall_mem_of_map_eq {β : Type} (f : Section → β) (P : β → Prop)
    (l1 l2 : List Section) (h : l1.map f = l2.map f)
    (h2 : ∀ sec ∈ l2, P (f sec)) : ∀ sec ∈ l1, P (f sec) := by
  intro sec hs
  have hm : f sec ∈ l1.map f := List.mem_map_of_mem f hs
  rw [h] at hm
  obtain ⟨sec2, hmem2, heq⟩ := List.mem_map.mp hm
  rw [← heq]
  exact h2 sec2 hmem2

theorem commitSlot_length (st : TimeState) (idx slot : Nat) (grades : List Nat)
    (config : ScheduleConfig) :
    (commitSlot st idx slot grades config).sections.length = st.sections.length := by
  simp [commitSlot, List.length_set]

/-- With at least one school day a commit makes the section's period list
nonempty. -/
theorem commitSlot_periods_ne (st : TimeState) (idx slot : Nat) (grades : List Nat)
    (config : ScheduleConfig) (hD : config.daysPerWeek ≠ 0)
    (hidx : idx < st.sections.length) :
    (secAt (commitSlot st idx slot grades config).sections idx).periods ≠ [] := by
  have : (secAt (commitSlot st idx slot grades config).sections idx).periods =
      (secAt st.sections idx).periods ++
        (List.range config.daysPerWeek).map fun day => Period.mk day slot := by
    simp only [commitSlot]
    rw [secAt_set_self _ _ _ hidx]
  rw [this]
  apply List.length_pos.mp
  rw [List.length_append, List.length_map, List.length_range]
  omega

theorem commitSlot_periods_preserve (st : TimeState) (idx slot : Nat) (grades : List Nat)
    (config : ScheduleConfig) (k : Nat)
    (h : (secAt st.sections k).periods ≠ []) :
    (secAt (commitSlot st idx slot grades config).sections k).periods ≠ [] := by
  by_cases hk : k = idx
  · subst hk
    by_cases hlen : k < st.sections.length
    · have : (secAt (commitSlot st k slot grades config).sections k).periods =
          (secAt st.sections k).periods ++
            (List.range config.daysPerWeek).map fun day => Period.mk day slot := by
        simp only [commitSlot]
        rw [secAt_set_self _ _ _ hlen]
      rw [this]
      apply List.length_pos.mp
      rw [List.length_append]
      have := List.length_pos.mpr h
      omega
    · have : (commitSlot st k slot grades config).sections = st.sections.set k _ := rfl
      rw [this, List.set_eq_of_length_le (by omega)]
      exact h
  · have : secAt (commitSlot st idx slot grades config).sections k =
        secAt st.sections k := by
      simp only [commitSlot]
      exact secAt_set_ne _ _ _ _ hk
    rw [this]
    exact h

theorem assignCourseSlots_length (config : ScheduleConfig) (grades : List Nat) :
    ∀ (idxs : List Nat) (st : TimeState) (used : Finset Nat),
      (assignCourseSlots config grades idxs st used).sections.length =
        st.sections.length
  | [], _, _ => rfl
  | idx :: rest, st, used => by
    simp only [assignCourseSlots]
    rw [assignCourseSlots_length config grades rest _ _, commitSlot_length]

theorem assignCourseSlots_periods_preserve (config : ScheduleConfig) (grades : List Nat) :
    ∀ (idxs : List Nat) (st : TimeState) (used : Finset Nat) (k : Nat),
      (secAt st.sections k).periods ≠ [] →
      (secAt (assignCourseSlots config grades idxs st used).sections k).periods ≠ []
  | [], _, _, _, h => h
  | idx :: rest, st, used, k, h => by
    simp only [assignCourseSlots]
    exact assignCourseSlots_periods_preserve config grades rest _ _ k
      (commitSlot_periods_preserve st idx _ grades config k h)

theorem assignCourseSlots_periods_cover (config : ScheduleConfig) (grades : List Nat)
    (hD : config.daysPerWeek ≠ 0) :
    ∀ (idxs : List Nat) (st : TimeState) (used : Finset Nat) (k : Nat),
      k ∈ idxs → k < st.sections.length →
      (secAt (assignCourseSlots config grades idxs st used).sections k).periods ≠ []
  | [], _, _, _, hmem, _ => absurd hmem (List.not_mem_nil _)
  | idx :: rest, st, used, k, hmem, hlen => by
    simp only [assignCourseSlots]
    rcases List.mem_cons.mp hmem with h | h
    · subst h
      exact assignCourseSlots_periods_preserve config grades rest _ _ k
        (commitSlot_periods_ne st k _ grades config hD hlen)
    · exact assignCourseSlots_periods_cover config grades hD rest _ _ k h
        (by rw [commitSlot_length]; exact hlen)

theorem addToGroup_mem_new : ∀ (gs : List (CourseId × List Nat)) (c : CourseId) (i : Nat),
    ∃ g ∈ addToGroup gs c i, i ∈ g.2
  | [], c, i => ⟨(c, [i]), by simp [addToGroup]⟩
  | (c0, is) :: rest, c, i => by
    simp only [addToGroup]
    split
    · exact ⟨(c0, is ++ [i]), List.mem_cons_self _ _, by simp⟩
    · obtain ⟨g, hg, hi⟩ := addToGroup_mem_new rest c i
      exact ⟨g, List.mem_cons_of_mem _ hg, hi⟩

theorem addToGroup_mem_old : ∀ (gs : List (CourseId × List Nat)) (c : CourseId) (i : Nat)
    (g0 : CourseId × List Nat), g0 ∈ gs → ∀ j ∈ g0.2, ∃ g ∈ addToGroup gs c i, j ∈ g.2
  | [], _, _, g0, hg, _, _ => absurd hg (List.not_mem_nil g0)
  | (c0, is) :: rest, c, i, g0, hg, j, hj => by
    simp only [addToGroup]
    split
    · rcases List.mem_cons.mp hg with h | h
      · refine ⟨(c0, is ++ [i]), List.mem_cons_self _ _, ?_⟩
        rw [h] at hj
        exact List.mem_append_left _ hj
      · exact ⟨g0, List.mem_cons_of_mem _ h, hj⟩
    · rcases List.mem_cons.mp hg with h | h
      · exact ⟨(c0, is), List.mem_cons_self _ _, h ▸ hj⟩
      · obtain ⟨g, hgmem, hjm⟩ := addToGroup_mem_old rest c i g0 h j hj
        exact ⟨g, List.mem_cons_of_mem _ hgmem, hjm⟩

theorem foldl_addToGroup_cover :
    ∀ (L : List (CourseId × Nat)) (gs : List (CourseId × List Nat)) (c : CourseId)
      (i : Nat), ((c, i) ∈ L ∨ ∃ g ∈ gs, i ∈ g.2) →
      ∃ g ∈ L.foldl (fun gs ci => addToGroup gs ci.1 ci.2) gs, i ∈ g.2
  | [], gs, c, i, h => by
    rcases h with h | h
    · exact absurd h (List.not_mem_nil _)
    · exact h
  | (c0, i0) :: rest, gs, c, i, h => by
    simp only [List.foldl_cons]
    rcases h with h | h
    · rcases List.mem_cons.mp h with h | h
      · obtain ⟨g, hg, hm⟩ := addToGroup_mem_new gs c0 i0
        have h2 : i = i0 := congrArg Prod.snd h
        exact foldl_addToGroup_cover rest _ c i (Or.inr ⟨g, hg, by rw [h2]; exact hm⟩)
      · exact foldl_addToGroup_cover rest _ c i (Or.inl h)
    · obtain ⟨g0, hg0, hi0⟩ := h
      obtain ⟨g, hg, hm⟩ := addToGroup_mem_old gs c0 i0 g0 hg0 i hi0
      exact foldl_addToGroup_cover rest _ c i (Or.inr ⟨g, hg, hm⟩)

/-- Every index of the section list appears in some course group. -/
theorem groupByCourse_cover (secs : List Section) (i : Nat) (hi : i < secs.length) :
    ∃ g ∈ groupByCourse secs, i ∈ g.2 := by
  simp only [groupByCourse]
  apply foldl_addToGroup_cover _ _ (secAt secs i).courseId i
  left
  have hlen : i < secs.enum.length := by rw [List.enum_length]; exact hi
  have hmem : secs.enum[i] ∈ secs.enum := List.getElem_mem hlen
  have heq : secs.enum[i] = (i, secs[i]) := List.getElem_enum secs i hlen
  rw [heq] at hmem
  have := List.mem_map_of_mem (fun x => (x.2.courseId, x.1)) hmem
  simpa [secAt_eq_getElem secs i hi] using this

theorem foldl_assign_length (config : ScheduleConfig)
    (courseMap : CourseId → Option Course) :
    ∀ (gs : List (CourseId × List Nat)) (st : TimeState),
      ((gs.foldl (fun st group =>
        assignCourseSlots config
          (((courseMap group.1).bind (·.gradeRestrictions)).getD []) group.2 st ∅)
        st)).sections.length = st.sections.length
  | [], _ => rfl
  | g :: rest, st => by
    simp only [List.foldl_cons]
    rw [foldl_assign_length config courseMap rest _, assignCourseSlots_length]

theorem foldl_assign_cover (config : ScheduleConfig)
    (courseMap : CourseId → Option Course) (hD : config.daysPerWeek ≠ 0) :
    ∀ (gs : List (CourseId × List Nat)) (st : TimeState) (k : Nat),
      (((∃ g ∈ gs, k ∈ g.2) ∧ k < st.sections.length) ∨
        (secAt st.sections k).periods ≠ []) →
      (secAt ((gs.foldl (fun st group =>
        assignCourseSlots config
          (((courseMap group.1).bind (·.gradeRestrictions)).getD []) group.2 st ∅)
        st)).sections k).periods ≠ []
  | [], st, k, h => by
    rcases h with ⟨⟨g, hg, _⟩, _⟩ | h
    · exact absurd hg (List.not_mem_nil g)
    · exact h
  | g0 :: rest, st, k, h => by
    simp only [List.foldl_cons]
    rcases h with ⟨⟨g, hg, hk⟩, hlen⟩ | h
    · rcases List.mem_cons.mp hg with hgg | hgg
      · apply foldl_assign_cover config courseMap hD rest _ k
        right
        exact assignCourseSlots_periods_cover config _ hD g0.2 st ∅ k
          (by rw [← hgg]; exact hk) hlen
      · apply foldl_assign_cover config courseMap hD rest _ k
        left
        exact ⟨⟨g, hgg, hk⟩, by rw [assignCourseSlots_length]; exact hlen⟩
    · apply foldl_assign_cover config courseMap hD rest _ k
      right
      exact assignCourseSlots_periods_preserve config _ g0.2 st ∅ k h

/-- With at least one school day, Phase 2 gives every section a nonempty
period list. -/
theorem assignTimeSlots_nonempty (sections : List Section) (teachers : List Teacher)
    (config : ScheduleConfig) (courseMap : CourseId → Option Course)
    (hD : config.daysPerWeek ≠ 0) (i : Nat) (hi : i < sections.length) :
    (secAt (assignTimeSlots sections teachers config courseMap) i).periods ≠ [] := by
  simp only [assignTimeSlots]
  apply foldl_assign_cover config courseMap hD (groupByCourse sections) _ i
  left
  exact ⟨groupByCourse_cover sections i hi, hi⟩

theorem assignTimeSlots_length (sections : List Section) (teachers : List Teacher)
    (config : ScheduleConfig) (courseMap : CourseId → Option Course) :
    (assignTimeSlots sections teachers config courseMap).length = sections.length := by
  simp only [assignTimeSlots]
  exact foldl_assign_length config courseMap (groupByCourse sections) _

theorem addToGroup_forall (P : CourseId → Nat → Prop) :
    ∀ (gs : List (CourseId × List Nat)) (c : CourseId) (i : Nat),
      (∀ g ∈ gs, ∀ j ∈ g.2, P g.1 j) → P c i →
      ∀ g ∈ addToGroup gs c i, ∀ j ∈ g.2, P g.1 j
  | [], c, i, _, hP => by
    intro g hg j hj
    simp only [addToGroup, List.mem_singleton] at hg
    rw [hg] at hj ⊢
    have : j = i := by simpa using hj
    rw [this]
    exact hP
  | (c0, is) :: rest, c, i, hall, hP => by
    simp only [addToGroup]
    split
    · rename_i hceq
      intro g hg j hj
      rcases List.mem_cons.mp hg with h | h
      · rw [h] at hj ⊢
        rcases List.mem_append.mp hj with hj | hj
        · exact hall (c0, is) (List.mem_cons_self _ _) j hj
        · have : j = i := by simpa using hj
          rw [this, hceq]
          exact hP
      · exact hall g (List.mem_cons_of_mem _ h) j hj
    · intro g hg j hj
      rcases List.mem_cons.mp hg with h | h
      · rw [h] at hj ⊢
        exact hall (c0, is) (List.mem_cons_self _ _) j hj
      · exact addToGroup_forall P rest c i
          (fun g hg => hall g (List.mem_cons_of_mem _ hg)) hP g h j hj

theorem foldl_addToGroup_forall (P : CourseId → Nat → Prop) :
    ∀ (L : List (CourseId × Nat)) (gs : List (CourseId × List Nat)),
      (∀ g ∈ gs, ∀ j ∈ g.2, P g.1 j) → (∀ ci ∈ L, P ci.1 ci.2) →
      ∀ g ∈ L.foldl (fun gs ci => addToGroup gs ci.1 ci.2) gs, ∀ j ∈ g.2, P g.1 j
  | [], _, hall, _ => hall
  | ci :: rest, gs, hall, hL => by
    simp only [List.foldl_cons]
    exact foldl_addToGroup_forall P rest _
      (addToGroup_forall P gs ci.1 ci.2 hall (hL ci (List.mem_cons_self ci rest)))
      (fun x hx => hL x (List.mem_cons_of_mem ci hx))

/-- Every group member is an in-range index of a section of the group's
course. -/
theorem groupByCourse_tag (secs : List Section) :
    ∀ g ∈ groupByCourse secs, ∀ i ∈ g.2,
      i < secs.length ∧ (secAt secs i).courseId = g.1 := by
  simp only [groupByCourse]
  apply foldl_addToGroup_forall (fun c i => i < secs.length ∧ (secAt secs i).courseId = c)
  · intro g hg
    exact absurd hg (List.not_mem_nil g)
  · intro ci hci
    obtain ⟨x, hx, heq⟩ := List.mem_map.mp hci
    obtain ⟨k, hk, hgx⟩ := List.mem_iff_getElem.mp hx
    rw [List.getElem_enum] at hgx
    have hklen : k < secs.length := by
      rw [List.enum_length] at hk
      exact hk
    rw [← heq, ← hgx]
    exact ⟨hklen, by rw [secAt_eq_getElem secs k hklen]⟩

theorem keyFold_nodup : ∀ (cs ks : List CourseId), ks.Nodup → (keyFold ks cs).Nodup
  | [], _, h => h
  | c :: rest, ks, h => by
    show (keyFold (if c ∈ ks then ks else ks ++ [c]) rest).Nodup
    apply keyFold_nodup rest
    split
    · exact h
    · rename_i hc
      simp [List.nodup_append, h, hc]

theorem groupByCourse_keys_nodup (secs : List Section) :
    ((groupByCourse secs).map Prod.fst).Nodup := by
  rw [groupByCourse_keys]
  exact keyFold_nodup _ [] List.nodup_nil

theorem eq_of_nodup_map_fst :
    ∀ (l : List (CourseId × List Nat)), (l.map Prod.fst).Nodup →
      ∀ g ∈ l, ∀ g' ∈ l, g.1 = g'.1 → g = g'
  | [], _, g, hg, _, _, _ => absurd hg (List.not_mem_nil g)
  | x :: rest, hnd, g, hg, g', hg', heq => by
    simp only [List.map_cons, List.nodup_cons] at hnd
    rcases List.mem_cons.mp hg with h | h
    · rcases List.mem_cons.mp hg' with h' | h'
      · rw [h, h']
      · exfalso
        apply hnd.1
        rw [h] at heq
        exact heq ▸ List.mem_map_of_mem Prod.fst h'
    · rcases List.mem_cons.mp hg' with h' | h'
      · exfalso
        apply hnd.1
        rw [h'] at heq
        exact heq.symm ▸ List.mem_map_of_mem Prod.fst h
      · exact eq_of_nodup_map_fst rest hnd.2 g h g' h' heq

/-- Each course group of `groupByCourse` is complete: it contains every
index whose section carries the group's course id. -/
theorem groupByCourse_complete (secs : List Section) :
    ∀ g ∈ groupByCourse secs, ∀ k, k < secs.length →
      (secAt secs k).courseId = g.1 → k ∈ g.2 := by
  intro g hg k hk hc
  obtain ⟨g', hg', hkmem⟩ := groupByCourse_cover secs k hk
  have htag := groupByCourse_tag secs g' hg' k hkmem
  have hgg : g = g' :=
    eq_of_nodup_map_fst _ (groupByCourse_keys_nodup secs) g hg g' hg'
      (hc.symm.trans htag.2)
  rw [hgg]
  exact hkmem

/-- The number of copies of a student id across the rosters of a course's
sections (the per-course enrollment multiset, one student at a time). -/
def enrollCount (secs : List Section) (sid : StudentId) (cid : CourseId) : Nat :=
  ∑ i in Finset.range secs.length,
    if (secAt secs i).courseId == cid then (secAt secs i).enrolledStudents.count sid else 0

theorem sum_range_agree_add (n : Nat) (f g : Nat → Nat) (i : Nat) (hi : i < n) (d : Nat)
    (hagree : ∀ j, j ≠ i → f j = g j) (hfi : f i = g i + d) :
    ∑ j in Finset.range n, f j = (∑ j in Finset.range n, g j) + d := by
  have hmem : i ∈ Finset.range n := Finset.mem_range.mpr hi
  rw [← Finset.add_sum_erase _ f hmem, ← Finset.add_sum_erase _ g hmem]
  have hsum : ∑ j in (Finset.range n).erase i, f j =
      ∑ j in (Finset.range n).erase i, g j :=
    Finset.sum_congr rfl (fun j hj => hagree j (Finset.ne_of_mem_erase hj))
  rw [hsum, hfi]
  omega

theorem sum_range_two_agree (n : Nat) (f g : Nat → Nat) (i j : Nat) (hi : i < n)
    (hj : j < n) (hij : i ≠ j)
    (hagree : ∀ k, k ≠ i → k ≠ j → f k = g k) (hsum : f i + f j = g i + g j) :
    ∑ k in Finset.range n, f k = ∑ k in Finset.range n, g k := by
  have hmi : i ∈ Finset.range n := Finset.mem_range.mpr hi
  have hmj : j ∈ (Finset.range n).erase i :=
    Finset.mem_erase.mpr ⟨fun h => hij h.symm, Finset.mem_range.mpr hj⟩
  rw [← Finset.add_sum_erase _ f hmi, ← Finset.add_sum_erase _ g hmi,
    ← Finset.add_sum_erase _ f hmj, ← Finset.add_sum_erase _ g hmj]
  have hcong : ∑ k in ((Finset.range n).erase i).erase j, f k =
      ∑ k in ((Finset.range n).erase i).erase j, g k := by
    apply Finset.sum_congr rfl
    intro k hk
    exact hagree k (Finset.ne_of_mem_erase (Finset.mem_of_mem_erase hk))
      (Finset.ne_of_mem_erase hk)
  rw [hcong]
  omega

theorem count_append_single (l : List StudentId) (x s : StudentId) :
    (l ++ [x]).count s = l.count s + if x = s then 1 else 0 := by
  rw [List.count_append]
  by_cases h : x = s
  · rw [if_pos h, h]
    simp
  · rw [if_neg h]
    have : [x].count s = 0 := by
      rw [List.count_eq_zero]
      simp [Ne.symm h]
    omega

theorem count_filter_self (l : List StudentId) (x : StudentId) :
    (l.filter (· != x)).count x = 0 := by
  rw [List.count_eq_zero]
  intro h
  have := (List.mem_filter.mp h).2
  simp at this

theorem count_filter_other (l : List StudentId) (x s : StudentId) (h : s ≠ x) :
    (l.filter (· != x)).count s = l.count s :=
  List.count_filter (by simpa using h)

/-- Appending one student to one section's roster bumps exactly that
student's count for that section's course. -/
theorem enrollCount_set_append (secs : List Section) (i : Nat) (hi : i < secs.length)
    (sid : StudentId) (s : StudentId) (cid : CourseId) :
    enrollCount (secs.set i { secAt secs i with
      enrolledStudents := (secAt secs i).enrolledStudents ++ [sid] }) s cid =
    enrollCount secs s cid +
      if sid = s ∧ ((secAt secs i).courseId == cid) = true then 1 else 0 := by
  simp only [enrollCount, List.length_set]
  apply sum_range_agree_add _ _ _ i hi
  · intro j hj
    rw [secAt_set_ne _ _ _ _ hj]
  · rw [secAt_set_self _ _ _ hi]
    have hcid : ({ secAt secs i with
        enrolledStudents := (secAt secs i).enrolledStudents ++ [sid] } : Section).courseId =
        (secAt secs i).courseId := rfl
    have hen : ({ secAt secs i with
        enrolledStudents := (secAt secs i).enrolledStudents ++ [sid] } : Section).enrolledStudents =
        (secAt secs i).enrolledStudents ++ [sid] := rfl
    rw [hcid, hen]
    by_cases hb : ((secAt secs i).courseId == cid) = true
    · rw [if_pos hb, if_pos hb, count_append_single]
      by_cases hs : sid = s
      · rw [if_pos hs, if_pos ⟨hs, hb⟩]
      · rw [if_neg hs, if_neg (fun hh => hs hh.1)]
    · rw [if_neg hb, if_neg hb, if_neg (fun hh => hb hh.2)]

/-- A committed move between two distinct sections of the same course, with
a single copy of the student in the source roster, preserves every
per-course enrollment count. -/
theorem enrollCount_move (secs : List Section) (sid : StudentId) (li si : Nat)
    (hli : li < secs.length) (hsi : si < secs.length) (hne : si ≠ li)
    (hcourse : (secAt secs si).courseId = (secAt secs li).courseId)
    (hcount : (secAt secs li).enrolledStudents.count sid = 1)
    (s : StudentId) (cid : CourseId) :
    enrollCount ((secs.set li { secAt secs li with
        enrolledStudents := (secAt secs li).enrolledStudents.filter (· != sid) }).set si
      { secAt secs si with
        enrolledStudents := (secAt secs si).enrolledStudents ++ [sid] }) s cid =
    enrollCount secs s cid := by
  simp only [enrollCount, List.length_set]
  apply sum_range_two_agree _ _ _ li si hli hsi (fun h => hne h.symm)
  · intro k h1 h2
    rw [secAt_set_ne _ _ _ _ h2, secAt_set_ne _ _ _ _ h1]
  · have hsecL : secAt ((secs.set li { secAt secs li with
        enrolledStudents := (secAt secs li).enrolledStudents.filter (· != sid) }).set si
        { secAt secs si with
          enrolledStudents := (secAt secs si).enrolledStudents ++ [sid] }) li =
        { secAt secs li with
          enrolledStudents := (secAt secs li).enrolledStudents.filter (· != sid) } := by
      rw [secAt_set_ne _ _ _ _ (Ne.symm hne)]
      exact secAt_set_self _ _ _ hli
    have hsecS : secAt ((secs.set li { secAt secs li with
        enrolledStudents := (secAt secs li).enrolledStudents.filter (· != sid) }).set si
        { secAt secs si with
          enrolledStudents := (secAt secs si).enrolledStudents ++ [sid] }) si =
        { secAt secs si with
          enrolledStudents := (secAt secs si).enrolledStudents ++ [sid] } := by
      exact secAt_set_self _ _ _ (by rw [List.length_set]; exact hsi)
    rw [hsecL, hsecS]
    have hcL : ({ secAt secs li with
        enrolledStudents := (secAt secs li).enrolledStudents.filter (· != sid) } :
        Section).courseId = (secAt secs li).courseId := rfl
    have hcS : ({ secAt secs si with
        enrolledStudents := (secAt secs si).enrolledStudents ++ [sid] } :
        Section).courseId = (secAt secs si).courseId := rfl
    have heL : ({ secAt secs li with
        enrolledStudents := (secAt secs li).enrolledStudents.filter (· != sid) } :
        Section).enrolledStudents = (secAt secs li).enrolledStudents.filter (· != sid) :=
      rfl
    have heS : ({ secAt secs si with
        enrolledStudents := (secAt secs si).enrolledStudents ++ [sid] } :
        Section).enrolledStudents = (secAt secs si).enrolledStudents ++ [sid] := rfl
    rw [hcL, hcS, heL, heS, hcourse]
    by_cases hb : ((secAt secs li).courseId == cid) = true
    · rw [if_pos hb, if_pos hb, if_pos hb, if_pos hb, count_append_single]
      by_cases hs : s = sid
      · rw [hs, count_filter_self, if_pos rfl, hcount]
        omega
      · rw [count_filter_other _ _ _ hs, if_neg (fun hh => hs hh.symm)]
        omega
    · rw [if_neg hb, if_neg hb, if_neg hb, if_neg hb]

/-- A roster can hold a duplicate id only when the section meets at no
periods (then the conflict check can never fire). -/
def DupEmpty (secs : List Section) : Prop :=
  ∀ i, i < secs.length → ∀ sid, 2 ≤ (secAt secs i).enrolledStudents.count sid →
    periodKeys (secAt secs i).periods = ∅

theorem tryEnroll_dup (sid : StudentId) :
    ∀ (idxs : List Nat) (secs : List Section) (sched : StudentId → Finset (Nat × Nat)),
      EnrollInv secs sched → DupEmpty secs → DupEmpty (tryEnroll sid idxs secs sched).1
  | [], _, _, _, hdup => hdup
  | i :: rest, secs, sched, hinv, hdup => by
    simp only [tryEnroll]
    split
    · exact tryEnroll_dup sid rest secs sched hinv hdup
    · split
      · exact tryEnroll_dup sid rest secs sched hinv hdup
      · rename_i hcap hconf
        intro k hk x hcnt
        rw [List.length_set] at hk
        by_cases hki : k = i
        · subst hki
          rw [secAt_set_self _ _ _ hk] at hcnt ⊢
          have hNper : ({ secAt secs k with
              enrolledStudents := (secAt secs k).enrolledStudents ++ [sid] } :
              Section).periods = (secAt secs k).periods := rfl
          have hNen : ({ secAt secs k with
              enrolledStudents := (secAt secs k).enrolledStudents ++ [sid] } :
              Section).enrolledStudents =
              (secAt secs k).enrolledStudents ++ [sid] := rfl
          rw [hNper]
          rw [hNen, count_append_single] at hcnt
          by_cases hx : sid = x
          · subst hx
            rw [if_pos rfl] at hcnt
            by_cases hold : 2 ≤ (secAt secs k).enrolledStudents.count sid
            · exact hdup k hk sid hold
            · have hcnt1 : (secAt secs k).enrolledStudents.count sid = 1 := by omega
              have hmem : sid ∈ (secAt secs k).enrolledStudents := by
                rw [← List.count_pos_iff]
                omega
              have hsub := hinv.2.1 k hk sid hmem
              rw [Finset.eq_empty_iff_forall_not_mem]
              intro p hp
              obtain ⟨q, hq, hqk⟩ := List.mem_map.mp (List.mem_toFinset.mp hp)
              apply hconf
              exact List.any_eq_true.mpr ⟨q, hq,
                decide_eq_true (by rw [hqk]; exact hsub hp)⟩
          · rw [if_neg hx] at hcnt
            exact hdup k hk x (by omega)
        · rw [secAt_set_ne _ _ _ _ hki] at hcnt ⊢
          exact hdup k hk x hcnt

theorem requiredPass_dup (courseMap : CourseId → Option Course) (student : Student) :
    ∀ (cids : List CourseId) (st : GreedyState),
      EnrollInv st.sections st.sched → DupEmpty st.sections →
      DupEmpty (requiredPass courseMap student cids st).sections
  | [], _, _, hdup => hdup
  | cid :: rest, st, hinv, hdup => by
    simp only [requiredPass]
    split
    · exact requiredPass_dup courseMap student rest _ hinv hdup
    · split
      · exact requiredPass_dup courseMap student rest _ hinv hdup
      · split
        · exact requiredPass_dup courseMap student rest _
            (tryEnroll_inv student.id _ st.sections st.sched hinv)
            (tryEnroll_dup student.id _ st.sections st.sched hinv hdup)
        · exact requiredPass_dup courseMap student rest _
            (tryEnroll_inv student.id _ st.sections st.sched hinv)
            (tryEnroll_dup student.id _ st.sections st.sched hinv hdup)

theorem electivePass_dup (courseMap : CourseId → Option Course) (student : Student) :
    ∀ (cids : List CourseId) (st : GreedyState),
      EnrollInv st.sections st.sched → DupEmpty st.sections →
      DupEmpty (electivePass courseMap student cids st).sections
  | [], _, _, hdup => hdup
  | cid :: rest, st, hinv, hdup => by
    simp only [electivePass]
    split
    · exact electivePass_dup courseMap student rest _ hinv hdup
    · split
      · exact electivePass_dup courseMap student rest _ hinv hdup
      · exact electivePass_dup courseMap student rest _
          (tryEnroll_inv student.id _ st.sections st.sched hinv)
          (tryEnroll_dup student.id _ st.sections st.sched hinv hdup)

theorem foldl_requiredPass_dup (courseMap : CourseId → Option Course) :
    ∀ (students : List Student) (st : GreedyState),
      EnrollInv st.sections st.sched → DupEmpty st.sections →
      DupEmpty ((students.foldl
        (fun st student => requiredPass courseMap student student.requiredCourses st)
        st)).sections
  | [], _, _, hdup => hdup
  | s :: ss, st, hinv, hdup => by
    simp only [List.foldl_cons]
    exact foldl_requiredPass_dup courseMap ss _
      (requiredPass_inv courseMap s s.requiredCourses st hinv)
      (requiredPass_dup courseMap s s.requiredCourses st hinv hdup)

theorem foldl_electivePass_dup (courseMap : CourseId → Option Course) :
    ∀ (students : List Student) (st : GreedyState),
      EnrollInv st.sections st.sched → DupEmpty st.sections →
      DupEmpty ((students.foldl
        (fun st student => electivePass courseMap student student.electivePreferences st)
        st)).sections
  | [], _, _, hdup => hdup
  | s :: ss, st, hinv, hdup => by
    simp only [List.foldl_cons]
    exact foldl_electivePass_dup courseMap ss _
      (electivePass_inv courseMap s s.electivePreferences st hinv)
      (electivePass_dup courseMap s s.electivePreferences st hinv hdup)

theorem runGreedyAssignment_dup (sections : List Section) (input : ScheduleInput)
    (courseMap : CourseId → Option Course)
    (hinv : EnrollInv sections (fun _ => ∅)) (hdup : DupEmpty sections) :
    DupEmpty (runGreedyAssignment sections input courseMap).1 := by
  simp only [runGreedyAssignment]
  exact foldl_electivePass_dup courseMap input.students _
    (foldl_requiredPass_inv courseMap input.students _ hinv)
    (foldl_requiredPass_dup courseMap input.students _ hinv hdup)

theorem tryMove_dup (li si : Nat) (hne : si ≠ li) :
    ∀ (cands : List StudentId) (secs : List Section)
      (sched : StudentId → Finset (Nat × Nat)),
      (∀ x ∈ cands, x ∈ (secAt secs li).enrolledStudents) →
      EnrollInv secs sched → DupEmpty secs →
      DupEmpty (tryMove li si cands secs sched).1
  | [], _, _, _, _, hdup => hdup
  | sid :: rest, secs, sched, hc, hinv, hdup => by
    have hmem : sid ∈ (secAt secs li).enrolledStudents :=
      hc sid (List.mem_cons_self sid rest)
    have hli : li < secs.length := by
      by_contra hcon
      rw [secAt_oob secs li (by omega)] at hmem
      exact absurd hmem (List.not_mem_nil sid)
    have hLsub : periodKeys (secAt secs li).periods ⊆ sched sid :=
      hinv.2.1 li hli sid hmem
    simp only [tryMove]
    split
    · rename_i hcond
      have h2len := of_decide_eq_true (Bool.and_eq_true_iff.mp hcond).2
      have hnoc := (Bool.and_eq_true_iff.mp hcond).1
      have hsi : si < secs.length := by
        by_contra hcon
        rw [secAt_oob secs si (by omega)] at h2len
        exact absurd h2len (by decide)
      have hnocf : ((secAt secs si).periods.any fun p =>
          decide (p.key ∈ Function.update sched sid
            (sched sid \ periodKeys (secAt secs li).periods) sid)) = false := by
        rw [Bool.not_eq_true'] at hnoc
        exact hnoc
      intro k hk x hcnt
      rw [List.length_set, List.length_set] at hk
      by_cases hksi : k = si
      · subst hksi
        rw [secAt_set_self _ _ _ (by rw [List.length_set]; exact hsi)] at hcnt ⊢
        have hSper : ({ secAt secs k with
            enrolledStudents := (secAt secs k).enrolledStudents ++ [sid] } :
            Section).periods = (secAt secs k).periods := rfl
        have hSen : ({ secAt secs k with
            enrolledStudents := (secAt secs k).enrolledStudents ++ [sid] } :
            Section).enrolledStudents =
            (secAt secs k).enrolledStudents ++ [sid] := rfl
        rw [hSper]
        rw [hSen, count_append_single] at hcnt
        by_cases hx : sid = x
        · subst hx
          rw [if_pos rfl] at hcnt
          by_cases hold : 2 ≤ (secAt secs k).enrolledStudents.count sid
          · exact hdup k hk sid hold
          · have hmemS : sid ∈ (secAt secs k).enrolledStudents := by
              rw [← List.count_pos_iff]
              omega
            have hsub := hinv.2.1 k hk sid hmemS
            have hdis := hinv.1 k li hk hli hne sid hmemS hmem
            rw [Finset.eq_empty_iff_forall_not_mem]
            intro p hp
            obtain ⟨q, hq, hqk⟩ := List.mem_map.mp (List.mem_toFinset.mp hp)
            have := List.any_eq_false.mp hnocf q hq
            rw [Function.update_same] at this
            apply this
            apply decide_eq_true
            rw [hqk, Finset.mem_sdiff]
            exact ⟨hsub hp, fun hpl => (Finset.disjoint_left.mp hdis hp) hpl⟩
        · rw [if_neg hx] at hcnt
          exact hdup k hk x (by omega)
      · by_cases hkli : k = li
        · subst hkli
          rw [secAt_set_ne _ _ _ _ hksi, secAt_set_self _ _ _ hli] at hcnt ⊢
          have hLper : ({ secAt secs k with
              enrolledStudents := (secAt secs k).enrolledStudents.filter (· != sid) } :
              Section).periods = (secAt secs k).periods := rfl
          have hLen2 : ({ secAt secs k with
              enrolledStudents := (secAt secs k).enrolledStudents.filter (· != sid) } :
              Section).enrolledStudents =
              (secAt secs k).enrolledStudents.filter (· != sid) := rfl
          rw [hLper]
          rw [hLen2] at hcnt
          by_cases hx : x = sid
          · subst hx
            rw [count_filter_self] at hcnt
            omega
          · rw [count_filter_other _ _ _ hx] at hcnt
            exact hdup k hk x hcnt
        · rw [secAt_set_ne _ _ _ _ hksi, secAt_set_ne _ _ _ _ hkli] at hcnt ⊢
          exact hdup k hk x hcnt
    · have hres : Function.update
          (Function.update sched sid
            (sched sid \ periodKeys (secAt secs li).periods)) sid
          (Function.update sched sid
            (sched sid \ periodKeys (secAt secs li).periods) sid ∪
            periodKeys (secAt secs li).periods) = sched := by
        rw [Function.update_same, Function.update_idem,
          Finset.sdiff_union_self_eq_union, Finset.union_eq_left.mpr hLsub,
          Function.update_eq_self]
      rw [hres]
      exact tryMove_dup li si hne rest secs sched
        (fun x hx => hc x (List.mem_cons_of_mem sid hx)) hinv hdup

theorem onePassGroup_dup (secs : List Section) (sched : StudentId → Finset (Nat × Nat))
    (group : CourseId × List Nat) (hinv : EnrollInv secs sched)
    (hdup : DupEmpty secs) :
    DupEmpty (onePassGroup secs sched group).2.1 := by
  simp only [onePassGroup]
  split
  · exact hdup
  · split
    · exact hdup
    · rename_i hgap
      have hne : (sortIdxBySize secs group.2).headD 0 ≠
          (sortIdxBySize secs group.2).getLastD 0 := by
        intro h
        apply hgap
        rw [h]
        omega
      exact tryMove_dup _ _ hne _ secs sched (fun x hx => hx) hinv hdup

theorem onePassGo_dup :
    ∀ (groups : List (CourseId × List Nat)) (secs : List Section)
      (sched : StudentId → Finset (Nat × Nat)) (imp : Bool),
      EnrollInv secs sched → DupEmpty secs →
      DupEmpty (onePassGo groups secs sched imp).2.1
  | [], _, _, _, _, hdup => hdup
  | g :: gs, secs, sched, imp, hinv, hdup => by
    simp only [onePassGo]
    exact onePassGo_dup gs _ _ _ (onePassGroup_inv secs sched g hinv)
      (onePassGroup_dup secs sched g hinv hdup)

theorem onePass_dup (st : OptState) (hinv : EnrollInv st.sections st.sched)
    (hdup : DupEmpty st.sections) : DupEmpty (onePass st).1.sections := by
  simp only [onePass]
  exact onePassGo_dup st.groups st.sections st.sched false hinv hdup

theorem length_of_map_eq {β : Type} (f : Section → β) (l1 l2 : List Section)
    (h : l1.map f = l2.map f) : l1.length = l2.length := by
  rw [← List.length_map l1 f, h, List.length_map]

theorem secAt_proj_of_map_eq {β : Type} (f : Section → β) (l1 l2 : List Section)
    (h : l1.map f = l2.map f) (i : Nat) (hi : i < l2.length) :
    f (secAt l1 i) = f (secAt l2 i) := by
  have hlen := length_of_map_eq f l1 l2 h
  rw [secAt_eq_getElem l1 i (by omega), secAt_eq_getElem l2 i hi]
  have h1 : (l1.map f)[i]? = (l2.map f)[i]? := by rw [h]
  rw [List.getElem?_map, List.getElem?_map,
    List.getElem?_eq_getElem (show i < l1.length by omega),
    List.getElem?_eq_getElem hi] at h1
  simpa using h1

theorem tryMove_bounds (li si : Nat) :
    ∀ (cands : List StudentId) (secs : List Section)
      (sched : StudentId → Finset (Nat × Nat)),
      ((tryMove li si cands secs sched).1).length = secs.length
  | [], _, _ => rfl
  | sid :: rest, secs, sched => by
    simp only [tryMove]
    split
    · simp
    · exact tryMove_bounds li si rest secs _

/-- A walk of the rebalancer between two fixed distinct sections of one
course preserves every per-course enrollment count, provided the source
section meets at some period (so its roster holds at most one copy of each
id). -/
theorem tryMove_count (li si : Nat) (hne : si ≠ li) :
    ∀ (cands : List StudentId) (secs : List Section)
      (sched : StudentId → Finset (Nat × Nat)),
      (∀ x ∈ cands, x ∈ (secAt secs li).enrolledStudents) →
      (secAt secs si).courseId = (secAt secs li).courseId →
      DupEmpty secs →
      periodKeys (secAt secs li).periods ≠ ∅ →
      ∀ (s : StudentId) (cid : CourseId),
        enrollCount (tryMove li si cands secs sched).1 s cid = enrollCount secs s cid
  | [], _, _, _, _, _, _, _, _ => rfl
  | sid :: rest, secs, sched, hc, hcourse, hdup, hkeys, s, cid => by
    have hmem : sid ∈ (secAt secs li).enrolledStudents :=
      hc sid (List.mem_cons_self sid rest)
    have hli : li < secs.length := by
      by_contra hcon
      rw [secAt_oob secs li (by omega)] at hmem
      exact absurd hmem (List.not_mem_nil sid)
    simp only [tryMove]
    split
    · rename_i hcond
      have h2len := of_decide_eq_true (Bool.and_eq_true_iff.mp hcond).2
      have hsi : si < secs.length := by
        by_contra hcon
        rw [secAt_oob secs si (by omega)] at h2len
        exact absurd h2len (by decide)
      have hcount : (secAt secs li).enrolledStudents.count sid = 1 := by
        have hpos : 0 < (secAt secs li).enrolledStudents.count sid :=
          List.count_pos_iff.mpr hmem
        by_contra hcon
        exact hkeys (hdup li hli sid (by omega))
      exact enrollCount_move secs sid li si hli hsi hne hcourse hcount s cid
    · exact tryMove_count li si hne rest secs _
        (fun x hx => hc x (List.mem_cons_of_mem sid hx)) hcourse hdup hkeys s cid

/-- One course group of the rebalancer preserves every per-course
enrollment count when all sections meet at some period. -/
theorem onePassGroup_count (secs : List Section)
    (sched : StudentId → Finset (Nat × Nat)) (group : CourseId × List Nat)
    (hinv : EnrollInv secs sched) (hdup : DupEmpty secs)
    (htag : ∀ i ∈ group.2, i < secs.length ∧ (secAt secs i).courseId = group.1)
    (hkeysNE : ∀ i, i < secs.length → periodKeys (secAt secs i).periods ≠ ∅) :
    ∀ (s : StudentId) (cid : CourseId),
      enrollCount (onePassGroup secs sched group).2.1 s cid = enrollCount secs s cid := by
  simp only [onePassGroup]
  split
  · exact fun s cid => rfl
  · split
    · exact fun s cid => rfl
    · rename_i hlen2 hgap
      have hne : (sortIdxBySize secs group.2).headD 0 ≠
          (sortIdxBySize secs group.2).getLastD 0 := by
        intro h
        apply hgap
        rw [h]
        omega
      have hsortlen : (sortIdxBySize secs group.2).length = group.2.length :=
        List.length_insertionSort _ _
      have hsortne : sortIdxBySize secs group.2 ≠ [] := by
        intro h
        rw [h] at hsortlen
        simp at hsortlen
        omega
      have hperm : ∀ x ∈ sortIdxBySize secs group.2, x ∈ group.2 := by
        intro x hx
        exact (List.Perm.mem_iff (List.perm_insertionSort _ group.2)).mp hx
      have hheadmem : (sortIdxBySize secs group.2).headD 0 ∈ group.2 :=
        hperm _ (headD_mem 0 _ hsortne)
      have hlastmem : (sortIdxBySize secs group.2).getLastD 0 ∈ group.2 :=
        hperm _ (getLastD_mem 0 _ hsortne)
      have hcourse : (secAt secs ((sortIdxBySize secs group.2).headD 0)).courseId =
          (secAt secs ((sortIdxBySize secs group.2).getLastD 0)).courseId := by
        rw [(htag _ hheadmem).2, (htag _ hlastmem).2]
      exact tryMove_count _ _ hne _ secs sched (fun x hx => hx) hcourse hdup
        (hkeysNE _ (htag _ hlastmem).1)

theorem onePassGroup_group (secs : List Section)
    (sched : StudentId → Finset (Nat × Nat)) (group : CourseId × List Nat) :
    (onePassGroup secs sched group).1.1 = group.1 ∧
    ∀ i ∈ (onePassGroup secs sched group).1.2, i ∈ group.2 := by
  simp only [onePassGroup]
  split
  · exact ⟨rfl, fun i h => h⟩
  · split
    · exact ⟨rfl, fun i h =>
        (List.Perm.mem_iff (List.perm_insertionSort _ group.2)).mp h⟩
    · exact ⟨rfl, fun i h =>
        (List.Perm.mem_iff (List.perm_insertionSort _ group.2)).mp h⟩

theorem onePassGo_groups :
    ∀ (groups : List (CourseId × List Nat)) (secs : List Section)
      (sched : StudentId → Finset (Nat × Nat)) (imp : Bool),
      ∀ g' ∈ (onePassGo groups secs sched imp).1,
        ∃ g ∈ groups, g'.1 = g.1 ∧ ∀ i ∈ g'.2, i ∈ g.2
  | [], _, _, _, g', hg' => absurd hg' (List.not_mem_nil g')
  | g0 :: gs, secs, sched, imp, g', hg' => by
    simp only [onePassGo] at hg'
    rcases List.mem_cons.mp hg' with h | h
    · refine ⟨g0, List.mem_cons_self g0 gs, ?_, ?_⟩
      · rw [h]
        exact (onePassGroup_group secs sched g0).1
      · intro i hi
        rw [h] at hi
        exact (onePassGroup_group secs sched g0).2 i hi
    · obtain ⟨g, hg, h1, h2⟩ := onePassGo_groups gs _ _ _ g' h
      exact ⟨g, List.mem_cons_of_mem g0 hg, h1, h2⟩

theorem onePassGo_count :
    ∀ (groups : List (CourseId × List Nat)) (secs : List Section)
      (sched : StudentId → Finset (Nat × Nat)) (imp : Bool),
      EnrollInv secs sched → DupEmpty secs →
      (∀ g ∈ groups, ∀ i ∈ g.2, i < secs.length ∧ (secAt secs i).courseId = g.1) →
      (∀ i, i < secs.length → periodKeys (secAt secs i).periods ≠ ∅) →
      ∀ (s : StudentId) (cid : CourseId),
        enrollCount (onePassGo groups secs sched imp).2.1 s cid = enrollCount secs s cid
  | [], _, _, _, _, _, _, _, _, _ => rfl
  | g0 :: gs, secs, sched, imp, hinv, hdup, htags, hkeys, s, cid => by
    simp only [onePassGo]
    have hmapC : ((onePassGroup secs sched g0).2.1).map (fun sec => sec.courseId) =
        secs.map (fun sec => sec.courseId) :=
      onePassGroup_map (fun sec => sec.courseId) (fun s es => rfl) secs sched g0
    have hmapP : ((onePassGroup secs sched g0).2.1).map (fun sec => sec.periods) =
        secs.map (fun sec => sec.periods) :=
      onePassGroup_map (fun sec => sec.periods) (fun s es => rfl) secs sched g0
    have hlen : ((onePassGroup secs sched g0).2.1).length = secs.length :=
      length_of_map_eq _ _ _ hmapC
    rw [onePassGo_count gs _ _ _ (onePassGroup_inv secs sched g0 hinv)
      (onePassGroup_dup secs sched g0 hinv hdup)
      (by
        intro g hg i hi
        have h1 := htags g (List.mem_cons_of_mem g0 hg) i hi
        refine ⟨by omega, ?_⟩
        rw [secAt_proj_of_map_eq (fun sec => sec.courseId) _ secs hmapC i h1.1]
        exact h1.2)
      (by
        intro i hi
        rw [hlen] at hi
        rw [show (secAt (onePassGroup secs sched g0).2.1 i).periods =
          (secAt secs i).periods from
          secAt_proj_of_map_eq (fun sec => sec.periods) _ secs hmapP i hi]
        exact hkeys i hi) s cid]
    exact onePassGroup_count secs sched g0 hinv hdup
      (htags g0 (List.mem_cons_self g0 gs)) hkeys s cid

theorem onePass_count (st : OptState) (hinv : EnrollInv st.sections st.sched)
    (hdup : DupEmpty st.sections)
    (htags : ∀ g ∈ st.groups, ∀ i ∈ g.2,
      i < st.sections.length ∧ (secAt st.sections i).courseId = g.1)
    (hkeys : ∀ i, i < st.sections.length →
      periodKeys (secAt st.sections i).periods ≠ ∅) :
    ∀ (s : StudentId) (cid : CourseId),
      enrollCount (onePass st).1.sections s cid = enrollCount st.sections s cid := by
  simp only [onePass]
  exact onePassGo_count st.groups st.sections st.sched false hinv hdup htags hkeys

theorem optimizeRun_count :
    ∀ (fuel : Nat) (st : OptState),
      EnrollInv st.sections st.sched → DupEmpty st.sections →
      (∀ g ∈ st.groups, ∀ i ∈ g.2,
        i < st.sections.length ∧ (secAt st.sections i).courseId = g.1) →
      (∀ i, i < st.sections.length →
        periodKeys (secAt st.sections i).periods ≠ ∅) →
      ∀ (s : StudentId) (cid : CourseId),
        enrollCount (optimizeRun fuel st).1.sections s cid = enrollCount st.sections s cid
  | 0, _, _, _, _, _, _, _ => rfl
  | fuel + 1, st, hinv, hdup, htags, hkeys, s, cid => by
    simp only [optimizeRun]
    have hmapC : ((onePass st).1.sections).map (fun sec => sec.courseId) =
        st.sections.map (fun sec => sec.courseId) :=
      onePass_map (fun sec => sec.courseId) (fun s es => rfl) st
    have hmapP : ((onePass st).1.sections).map (fun sec => sec.periods) =
        st.sections.map (fun sec => sec.periods) :=
      onePass_map (fun sec => sec.periods) (fun s es => rfl) st
    have hlen : ((onePass st).1.sections).length = st.sections.length :=
      length_of_map_eq _ _ _ hmapC
    have htags' : ∀ g ∈ (onePass st).1.groups, ∀ i ∈ g.2,
        i < (onePass st).1.sections.length ∧
        (secAt (onePass st).1.sections i).courseId = g.1 := by
      intro g' hg' i hi
      obtain ⟨g, hg, h1, h2⟩ := onePassGo_groups st.groups st.sections st.sched false g' hg'
      have h3 := htags g hg i (h2 i hi)
      refine ⟨by omega, ?_⟩
      rw [secAt_proj_of_map_eq (fun sec => sec.courseId) _ st.sections hmapC i h3.1]
      rw [h1]
      exact h3.2
    have hkeys' : ∀ i, i < (onePass st).1.sections.length →
        periodKeys (secAt (onePass st).1.sections i).periods ≠ ∅ := by
      intro i hi
      rw [hlen] at hi
      rw [show (secAt (onePass st).1.sections i).periods = (secAt st.sections i).periods
        from secAt_proj_of_map_eq (fun sec => sec.periods) _ st.sections hmapP i hi]
      exact hkeys i hi
    split
    · rw [optimizeRun_count fuel (onePass st).1 (onePass_inv st hinv)
        (onePass_dup st hinv hdup) htags' hkeys' s cid]
      exact onePass_count st hinv hdup htags hkeys s cid
    · exact onePass_count st hinv hdup htags hkeys s cid

/-- With every section meeting at some period, Phase 5 preserves every
per-course enrollment count. -/
theorem optimizeSections_count_nonempty (sections : List Section)
    (sched : StudentId → Finset (Nat × Nat)) (courseMap : CourseId → Option Course)
    (maxIterations : Nat) (hinv : EnrollInv sections sched) (hdup : DupEmpty sections)
    (hkeys : ∀ i, i < sections.length → periodKeys (secAt sections i).periods ≠ ∅) :
    ∀ (s : StudentId) (cid : CourseId),
      enrollCount (optimizeSections sections sched courseMap maxIterations) s cid =
        enrollCount sections s cid := by
  simp only [optimizeSections]
  exact optimizeRun_count maxIterations
    { sections := sections, groups := groupByCourse sections, sched := sched }
    hinv hdup (groupByCourse_tag sections) hkeys

/-- Per-course balance: whenever a section is a non-full minimum of its
course, every section of that course holds at most one student more. -/
def Inv2 (n : Nat) (size cap : Nat → Nat) (course : Nat → CourseId) : Prop :=
  ∀ i j, i < n → j < n → course i = course j → size i < cap i →
    (∀ k, k < n → course k = course i → size i ≤ size k) → size j ≤ size i + 1

def CourseBalanced (secs : List Section) : Prop :=
  Inv2 secs.length (fun k => (secAt secs k).enrolledStudents.length)
    (fun k => (secAt secs k).capacity) (fun k => (secAt secs k).courseId)

theorem inv2_congr (n : Nat) (s1 s2 c1 c2 : Nat → Nat) (co1 co2 : Nat → CourseId)
    (hs : ∀ k, k < n → s1 k = s2 k) (hc : ∀ k, k < n → c1 k = c2 k)
    (hco : ∀ k, k < n → co1 k = co2 k) (h : Inv2 n s2 c2 co2) : Inv2 n s1 c1 co1 := by
  intro i j hi hj hcij hnfi hmini
  rw [hs j hj, hs i hi]
  apply h i j hi hj (by rw [← hco i hi, ← hco j hj]; exact hcij)
    (by rw [← hs i hi, ← hc i hi]; exact hnfi)
  intro k hk hck
  rw [← hs i hi, ← hs k hk]
  exact hmini k hk (by rw [hco k hk, hco i hi]; exact hck)

/-- Adding one student to a non-full minimum (among the non-full sections of
its course) keeps the balance invariant. -/
theorem inv2_step (n : Nat) (size cap : Nat → Nat) (course : Nat → CourseId) (m : Nat)
    (hm : m < n) (hnf : size m < cap m)
    (hmin : ∀ k, k < n → course k = course m → size k < cap k → size m ≤ size k)
    (hinv : Inv2 n size cap course) :
    Inv2 n (Function.update size m (size m + 1)) cap course := by
  have hupd : ∀ k, Function.update size m (size m + 1) k =
      if k = m then size m + 1 else size k := by
    intro k
    by_cases h : k = m
    · subst h
      rw [Function.update_same, if_pos rfl]
    · rw [Function.update_noteq h, if_neg h]
  intro i j hi hj hcij hnfi hmini
  rw [hupd i] at hnfi
  rw [hupd i, hupd j]
  have hmini' : ∀ k, k < n → course k = course i →
      (if i = m then size m + 1 else size i) ≤ (if k = m then size m + 1 else size k) := by
    intro k hk hck
    have := hmini k hk hck
    rw [hupd i, hupd k] at this
    exact this
  by_cases hcim : course i = course m
  case neg =>
    have him : i ≠ m := fun h => hcim (by rw [h])
    have hjm : j ≠ m := fun h => hcim (hcij.trans (by rw [h]))
    rw [if_neg him] at hnfi ⊢
    rw [if_neg hjm]
    apply hinv i j hi hj hcij hnfi
    intro k hk hck
    have hle := hmini' k hk hck
    rw [if_neg him] at hle
    by_cases hkm : k = m
    · exact absurd (hkm ▸ hck) (fun h => hcim h.symm)
    · rw [if_neg hkm] at hle
      exact hle
  case pos =>
    by_cases him : i = m
    · subst him
      rw [if_pos rfl] at hnfi ⊢
      have hold : ∀ k, k < n → course k = course i → size i ≤ size k := by
        intro k hk hck
        by_cases hki : k = i
        · rw [hki]
        · have hle := hmini' k hk hck
          rw [if_pos rfl, if_neg hki] at hle
          omega
      have hj2 := hinv i j hi hj hcij hnf hold
      by_cases hji : j = i
      · rw [if_pos hji]
        omega
      · rw [if_neg hji]
        omega
    · rw [if_neg him] at hnfi ⊢
      have h1 : size m ≤ size i := hmin i hi hcim hnfi
      have h2 : size i ≤ size m + 1 := by
        have hle := hmini' m hm hcim.symm
        rw [if_neg him, if_pos rfl] at hle
        exact hle
      by_cases hc2 : size i = size m
      · have hold : ∀ k, k < n → course k = course i → size i ≤ size k := by
          intro k hk hck
          by_cases hkm : k = m
          · rw [hkm]
            omega
          · have hle := hmini' k hk hck
            rw [if_neg him, if_neg hkm] at hle
            exact hle
        have hj2 := hinv i j hi hj hcij hnfi hold
        by_cases hjm : j = m
        · rw [if_pos hjm]
          omega
        · rw [if_neg hjm]
          omega
      · have hc3 : size i = size m + 1 := by omega
        have holdm : ∀ k, k < n → course k = course m → size m ≤ size k := by
          intro k hk hck
          by_cases hkm : k = m
          · rw [hkm]
          · have hle := hmini' k hk (hck.trans hcim.symm)
            rw [if_neg him, if_neg hkm] at hle
            omega
        have hj2 := hinv m j hm hj (hcim.symm.trans hcij) hnf holdm
        by_cases hjm : j = m
        · rw [if_pos hjm]
          omega
        · rw [if_neg hjm]
          omega

theorem tryEnroll_periods_nil (sid : StudentId) (idxs : List Nat) (secs : List Section)
    (sched : StudentId → Finset (Nat × Nat))
    (hnil : ∀ sec ∈ secs, sec.periods = []) :
    ∀ sec ∈ (tryEnroll sid idxs secs sched).1, sec.periods = [] :=
  forall_mem_of_map_eq (fun sec => sec.periods) (fun ps => ps = []) _ secs
    (tryEnroll_map (fun sec => sec.periods) (fun s es => rfl) sid idxs secs sched) hnil

/-- With all periods empty, an enrollment lands in a minimum-size non-full
section of the course, so the greedy walk keeps the per-course balance. -/
theorem tryEnroll_bal (sid : StudentId) (c : CourseId) :
    ∀ (idxs : List Nat) (secs : List Section) (sched : StudentId → Finset (Nat × Nat)),
      (∀ sec ∈ secs, sec.periods = []) →
      (∀ i ∈ idxs, i < secs.length ∧ (secAt secs i).courseId = c) →
      List.Pairwise (fun a b => (secAt secs a).enrolledStudents.length ≤
        (secAt secs b).enrolledStudents.length) idxs →
      (∀ k, k < secs.length → (secAt secs k).courseId = c →
        (secAt secs k).enrolledStudents.length < (secAt secs k).capacity → k ∈ idxs) →
      CourseBalanced secs →
      CourseBalanced (tryEnroll sid idxs secs sched).1
  | [], _, _, _, _, _, _, hbal => hbal
  | i :: rest, secs, sched, hnil, hidx, hsort, hcompl, hbal => by
    simp only [tryEnroll]
    split
    · rename_i hfull
      apply tryEnroll_bal sid c rest secs sched hnil
        (fun j hj => hidx j (List.mem_cons_of_mem _ hj))
        (List.pairwise_cons.mp hsort).2 ?_ hbal
      intro k hk hck hnf
      rcases List.mem_cons.mp (hcompl k hk hck hnf) with h | h
      · exfalso
        rw [h] at hnf
        omega
      · exact h
    · split
      · rename_i hfull hconf
        exfalso
        have hilen : i < secs.length := (hidx i (List.mem_cons_self i rest)).1
        have hpnil : (secAt secs i).periods = [] := hnil _ (secAt_mem secs i hilen)
        rw [hpnil] at hconf
        simp at hconf
      · rename_i hfull hconf
        have hilen : i < secs.length := (hidx i (List.mem_cons_self i rest)).1
        have hnfull : (secAt secs i).enrolledStudents.length <
            (secAt secs i).capacity := by omega
        have hminp : ∀ k, k < secs.length →
            (secAt secs k).courseId = (secAt secs i).courseId →
            (secAt secs k).enrolledStudents.length < (secAt secs k).capacity →
            (secAt secs i).enrolledStudents.length ≤
              (secAt secs k).enrolledStudents.length := by
          intro k hk hck hnf
          rcases List.mem_cons.mp
            (hcompl k hk (hck.trans (hidx i (List.mem_cons_self i rest)).2) hnf) with h | h
          · rw [h]
          · exact List.rel_of_pairwise_cons hsort h
        have hstep := inv2_step secs.length
          (fun k => (secAt secs k).enrolledStudents.length)
          (fun k => (secAt secs k).capacity)
          (fun k => (secAt secs k).courseId) i hilen hnfull hminp hbal
        show Inv2 ((secs.set i { secAt secs i with
          enrolledStudents := (secAt secs i).enrolledStudents ++ [sid] }).length) _ _ _
        rw [List.length_set]
        apply inv2_congr secs.length _ _ _ _ _ _ ?_ ?_ ?_ hstep
        · intro k hk
          by_cases hki : k = i
          · subst hki
            rw [secAt_set_self _ _ _ hilen, Function.update_same]
            show ((secAt secs k).enrolledStudents ++ [sid]).length = _
            rw [List.length_append]
            rfl
          · rw [secAt_set_ne _ _ _ _ hki, Function.update_noteq hki]
        · intro k hk
          by_cases hki : k = i
          · subst hki
            rw [secAt_set_self _ _ _ hilen]
          · rw [secAt_set_ne _ _ _ _ hki]
        · intro k hk
          by_cases hki : k = i
          · subst hki
            rw [secAt_set_self _ _ _ hilen]
          · rw [secAt_set_ne _ _ _ _ hki]

theorem assignStudentToSection_bal (sid : StudentId) (cid : CourseId)
    (secs : List Section) (sched : StudentId → Finset (Nat × Nat))
    (hnil : ∀ sec ∈ secs, sec.periods = []) (hbal : CourseBalanced secs) :
    CourseBalanced (assignStudentToSection sid cid secs sched).1 := by
  simp only [assignStudentToSection]
  apply tryEnroll_bal sid cid _ secs sched hnil ?_ ?_ ?_ hbal
  · intro i hi
    have hi2 : i ∈ courseSectionIdxs secs cid :=
      (List.Perm.mem_iff (List.perm_insertionSort _ _)).mp hi
    have hm := List.mem_filter.mp hi2
    exact ⟨List.mem_range.mp hm.1, eq_of_beq hm.2⟩
  · exact sorted_insertionSort_key
      (fun i => (secAt secs i).enrolledStudents.length) (courseSectionIdxs secs cid)
  · intro k hk hck _
    apply (List.Perm.mem_iff (List.perm_insertionSort _ _)).mpr
    apply List.mem_filter.mpr
    exact ⟨List.mem_range.mpr hk, by simp [hck]⟩

theorem assignStudentToSection_periods_nil (sid : StudentId) (cid : CourseId)
    (secs : List Section) (sched : StudentId → Finset (Nat × Nat))
    (hnil : ∀ sec ∈ secs, sec.periods = []) :
    ∀ sec ∈ (assignStudentToSection sid cid secs sched).1, sec.periods = [] :=
  tryEnroll_periods_nil sid _ secs sched hnil

theorem requiredPass_bal (courseMap : CourseId → Option Course) (student : Student) :
    ∀ (cids : List CourseId) (st : GreedyState),
      (∀ sec ∈ st.sections, sec.periods = []) → CourseBalanced st.sections →
      (∀ sec ∈ (requiredPass courseMap student cids st).sections, sec.periods = []) ∧
      CourseBalanced (requiredPass courseMap student cids st).sections
  | [], _, hnil, hbal => ⟨hnil, hbal⟩
  | cid :: rest, st, hnil, hbal => by
    simp only [requiredPass]
    split
    · exact requiredPass_bal courseMap student rest _ hnil hbal
    · split
      · exact requiredPass_bal courseMap student rest _ hnil hbal
      · split
        · exact requiredPass_bal courseMap student rest _
            (assignStudentToSection_periods_nil student.id cid st.sections st.sched hnil)
            (assignStudentToSection_bal student.id cid st.sections st.sched hnil hbal)
        · exact requiredPass_bal courseMap student rest _
            (assignStudentToSection_periods_nil student.id cid st.sections st.sched hnil)
            (assignStudentToSection_bal student.id cid st.sections st.sched hnil hbal)

theorem electivePass_bal (courseMap : CourseId → Option Course) (student : Student) :
    ∀ (cids : List CourseId) (st : GreedyState),
      (∀ sec ∈ st.sections, sec.periods = []) → CourseBalanced st.sections →
      (∀ sec ∈ (electivePass courseMap student cids st).sections, sec.periods = []) ∧
      CourseBalanced (electivePass courseMap student cids st).sections
  | [], _, hnil, hbal => ⟨hnil, hbal⟩
  | cid :: rest, st, hnil, hbal => by
    simp only [electivePass]
    split
    · exact electivePass_bal courseMap student rest _ hnil hbal
    · split
      · exact electivePass_bal courseMap student rest _ hnil hbal
      · exact electivePass_bal courseMap student rest _
          (assignStudentToSection_periods_nil student.id cid st.sections st.sched hnil)
          (assignStudentToSection_bal student.id cid st.sections st.sched hnil hbal)

theorem foldl_requiredPass_bal (courseMap : CourseId → Option Course) :
    ∀ (students : List Student) (st : GreedyState),
      (∀ sec ∈ st.sections, sec.periods = []) → CourseBalanced st.sections →
      (∀ sec ∈ ((students.foldl
        (fun st student => requiredPass courseMap student student.requiredCourses st)
        st)).sections, sec.periods = []) ∧
      CourseBalanced ((students.foldl
        (fun st student => requiredPass courseMap student student.requiredCourses st)
        st)).sections
  | [], _, hnil, hbal => ⟨hnil, hbal⟩
  | s :: ss, st, hnil, hbal => by
    simp only [List.foldl_cons]
    obtain ⟨hnil2, hbal2⟩ := requiredPass_bal courseMap s s.requiredCourses st hnil hbal
    exact foldl_requiredPass_bal courseMap ss _ hnil2 hbal2

theorem foldl_electivePass_bal (courseMap : CourseId → Option Course) :
    ∀ (students : List Student) (st : GreedyState),
      (∀ sec ∈ st.sections, sec.periods = []) → CourseBalanced st.sections →
      (∀ sec ∈ ((students.foldl
        (fun st student => electivePass courseMap student student.electivePreferences st)
        st)).sections, sec.periods = []) ∧
      CourseBalanced ((students.foldl
        (fun st student => electivePass courseMap student student.electivePreferences st)
        st)).sections
  | [], _, hnil, hbal => ⟨hnil, hbal⟩
  | s :: ss, st, hnil, hbal => by
    simp only [List.foldl_cons]
    obtain ⟨hnil2, hbal2⟩ := electivePass_bal courseMap s s.electivePreferences st hnil hbal
    exact foldl_electivePass_bal courseMap ss _ hnil2 hbal2

theorem runGreedyAssignment_bal (sections : List Section) (input : ScheduleInput)
    (courseMap : CourseId → Option Course)
    (hnil : ∀ sec ∈ sections, sec.periods = []) (hbal : CourseBalanced sections) :
    CourseBalanced (runGreedyAssignment sections input courseMap).1 := by
  simp only [runGreedyAssignment]
  obtain ⟨hnil1, hbal1⟩ := foldl_requiredPass_bal courseMap input.students
    { sections := sections, sched := fun _ => ∅, unassigned := [] } hnil hbal
  exact (foldl_electivePass_bal courseMap input.students _ hnil1 hbal1).2

theorem balanced_of_empty (secs : List Section)
    (h : ∀ sec ∈ secs, sec.enrolledStudents = []) : CourseBalanced secs := by
  intro i j hi hj hcij hnfi hmini
  have hj2 : (secAt secs j).enrolledStudents = [] := h _ (secAt_mem secs j hj)
  show (secAt secs j).enrolledStudents.length ≤ _
  rw [hj2]
  simp

/-- When the landing section is full, the rebalancer walk commits nothing
and restores the state exactly. -/
theorem tryMove_nocommit (li si : Nat) :
    ∀ (cands : List StudentId) (secs : List Section)
      (sched : StudentId → Finset (Nat × Nat)),
      (∀ x ∈ cands, x ∈ (secAt secs li).enrolledStudents) →
      EnrollInv secs sched →
      ¬ ((secAt secs si).enrolledStudents.length < (secAt secs si).capacity) →
      tryMove li si cands secs sched = (secs, sched, false)
  | [], _, _, _, _, _ => rfl
  | sid :: rest, secs, sched, hc, hinv, hnf => by
    have hmem : sid ∈ (secAt secs li).enrolledStudents :=
      hc sid (List.mem_cons_self sid rest)
    have hli : li < secs.length := by
      by_contra hcon
      rw [secAt_oob secs li (by omega)] at hmem
      exact absurd hmem (List.not_mem_nil sid)
    have hLsub : periodKeys (secAt secs li).periods ⊆ sched sid :=
      hinv.2.1 li hli sid hmem
    simp only [tryMove]
    rw [if_neg (by
      rw [decide_eq_false hnf, Bool.and_false]
      exact Bool.false_ne_true)]
    have hres : Function.update
        (Function.update sched sid
          (sched sid \ periodKeys (secAt secs li).periods)) sid
        (Function.update sched sid
          (sched sid \ periodKeys (secAt secs li).periods) sid ∪
          periodKeys (secAt secs li).periods) = sched := by
      rw [Function.update_same, Function.update_idem,
        Finset.sdiff_union_self_eq_union, Finset.union_eq_left.mpr hLsub,
        Function.update_eq_self]
    rw [hres]
    exact tryMove_nocommit li si rest secs sched
      (fun x hx => hc x (List.mem_cons_of_mem sid hx)) hinv hnf

/-- Under the balance invariant a course group never rebalances: either the
gap guard fails, or the smallest section is full and every candidate is
rolled back. -/
theorem onePassGroup_noop (secs : List Section)
    (sched : StudentId → Finset (Nat × Nat)) (group : CourseId × List Nat)
    (hinv : EnrollInv secs sched) (hbal : CourseBalanced secs)
    (htag : ∀ i ∈ group.2, i < secs.length ∧ (secAt secs i).courseId = group.1)
    (hcompl : ∀ k, k < secs.length → (secAt secs k).courseId = group.1 → k ∈ group.2) :
    (onePassGroup secs sched group).2.1 = secs ∧
    (onePassGroup secs sched group).2.2.1 = sched ∧
    (onePassGroup secs sched group).2.2.2 = false := by
  simp only [onePassGroup]
  split
  · exact ⟨rfl, rfl, rfl⟩
  · split
    · exact ⟨rfl, rfl, rfl⟩
    · rename_i hlen2 hgap
      have hsortlen : (sortIdxBySize secs group.2).length = group.2.length :=
        List.length_insertionSort _ _
      have hsortne : sortIdxBySize secs group.2 ≠ [] := by
        intro h
        rw [h] at hsortlen
        simp at hsortlen
        omega
      have hsorted := sorted_insertionSort_key
        (fun i => (secAt secs i).enrolledStudents.length) group.2
      have hheadmem : (sortIdxBySize secs group.2).headD 0 ∈ group.2 :=
        (List.Perm.mem_iff (List.perm_insertionSort _ group.2)).mp
          (headD_mem 0 _ hsortne)
      have hlastmem : (sortIdxBySize secs group.2).getLastD 0 ∈ group.2 :=
        (List.Perm.mem_iff (List.perm_insertionSort _ group.2)).mp
          (getLastD_mem 0 _ hsortne)
      set si := (sortIdxBySize secs group.2).headD 0 with hsi
      set li := (sortIdxBySize secs group.2).getLastD 0 with hli
      by_cases hnf : (secAt secs si).enrolledStudents.length < (secAt secs si).capacity
      · -- non-full minimum: balance bounds the gap, contradicting the guard
        exfalso
        apply hgap
        have hmin : ∀ k, k < secs.length →
            (secAt secs k).courseId = (secAt secs si).courseId →
            (secAt secs si).enrolledStudents.length ≤
              (secAt secs k).enrolledStudents.length := by
          intro k hk hck
          have hkmem : k ∈ group.2 :=
            hcompl k hk (hck.trans (htag si hheadmem).2)
          have hkmem2 : k ∈ sortIdxBySize secs group.2 :=
            (List.Perm.mem_iff (List.perm_insertionSort _ group.2)).mpr hkmem
          exact pairwise_headD_le
            (fun i => (secAt secs i).enrolledStudents.length) 0 _ hsorted k hkmem2
        have hb : (secAt secs li).enrolledStudents.length ≤
            (secAt secs si).enrolledStudents.length + 1 :=
          hbal si li (htag si hheadmem).1 (htag li hlastmem).1
            (show (secAt secs si).courseId = (secAt secs li).courseId from
              (htag si hheadmem).2.trans (htag li hlastmem).2.symm) hnf hmin
        omega
      · -- the smallest is full: the walk commits nothing
        rw [tryMove_nocommit li si _ secs sched (fun x hx => hx) hinv hnf]
        exact ⟨rfl, rfl, rfl⟩

theorem onePassGo_noop :
    ∀ (groups : List (CourseId × List Nat)) (secs : List Section)
      (sched : StudentId → Finset (Nat × Nat)) (imp : Bool),
      EnrollInv secs sched → CourseBalanced secs →
      (∀ g ∈ groups, (∀ i ∈ g.2, i < secs.length ∧ (secAt secs i).courseId = g.1) ∧
        (∀ k, k < secs.length → (secAt secs k).courseId = g.1 → k ∈ g.2)) →
      (onePassGo groups secs sched imp).2.1 = secs ∧
      (onePassGo groups secs sched imp).2.2.1 = sched ∧
      (onePassGo groups secs sched imp).2.2.2 = imp
  | [], _, _, _, _, _, _ => ⟨rfl, rfl, rfl⟩
  | g :: gs, secs, sched, imp, hinv, hbal, hgroups => by
    simp only [onePassGo]
    obtain ⟨h1, h2, h3⟩ := onePassGroup_noop secs sched g hinv hbal
      (hgroups g (List.mem_cons_self g gs)).1 (hgroups g (List.mem_cons_self g gs)).2
    rw [h1, h2, h3]
    obtain ⟨h4, h5, h6⟩ := onePassGo_noop gs secs sched (imp || false) hinv hbal
      (fun g' hg' => hgroups g' (List.mem_cons_of_mem g hg'))
    rw [h4, h5, h6]
    simp

/-- Under the balance invariant Phase 5 returns the sections unchanged: the
first pass improves nothing and the loop stops. -/
theorem optimizeSections_zero (sections : List Section)
    (sched : StudentId → Finset (Nat × Nat)) (courseMap : CourseId → Option Course)
    (maxIterations : Nat) (hinv : EnrollInv sections sched)
    (hbal : CourseBalanced sections) :
    optimizeSections sections sched courseMap maxIterations = sections := by
  simp only [optimizeSections]
  have hgroups : ∀ g ∈ groupByCourse sections,
      (∀ i ∈ g.2, i < sections.length ∧ (secAt sections i).courseId = g.1) ∧
      (∀ k, k < sections.length → (secAt sections k).courseId = g.1 → k ∈ g.2) :=
    fun g hg => ⟨fun i hi => groupByCourse_tag sections g hg i hi,
      fun k hk hc => groupByCourse_complete sections g hg k hk hc⟩
  obtain ⟨h1, h2, h3⟩ := onePassGo_noop (groupByCourse sections) sections sched false
    hinv hbal hgroups
  cases maxIterations with
  | zero => rfl
  | succ fuel =>
    simp only [optimizeRun]
    rw [if_neg (by
      show ¬ ((onePass (⟨sections, groupByCourse sections, sched⟩ : OptState)).2 = true)
      simp only [onePass]
      rw [h3]
      exact Bool.false_ne_true)]
    show (onePass (⟨sections, groupByCourse sections, sched⟩ : OptState)).1.sections =
      sections
    simp only [onePass]
    exact h1

/-- The section list entering Phase 5: the pipeline of `generateSchedule`
through the greedy assignment (Phases 1 to 4). -/
def greedySections (input : ScheduleInput) : List Section :=
  (runGreedyAssignment
    (assignRooms
      (assignTimeSlots (createSections input.courses input.teachers) input.teachers
        input.config (buildMap Course.id input.courses))
      input.rooms (buildMap Course.id input.courses) input.config)
    input (buildMap Course.id input.courses)).1

theorem periodKeys_ne_empty (ps : List Period) (h : ps ≠ []) : periodKeys ps ≠ ∅ := by
  cases ps with
  | nil => exact absurd rfl h
  | cons p t =>
    intro hcon
    have hm : p.key ∈ periodKeys (p :: t) := by simp [periodKeys]
    rw [hcon] at hm
    exact absurd hm (Finset.not_mem_empty _)

theorem dupEmpty_of_empty (secs : List Section)
    (h : ∀ sec ∈ secs, sec.enrolledStudents = []) : DupEmpty secs := by
  intro i hi sid hcnt
  rw [h _ (secAt_mem secs i hi)] at hcnt
  simp at hcnt

/-- Every per-course enrollment count survives Phase 5 of the pipeline. -/
theorem generateSchedule_enrollCount (input : ScheduleInput) (opts : SchedulerOptions)
    (t1 t2 : Int) (gen : String) (sid : StudentId) (cid : CourseId) :
    enrollCount (generateSchedule input opts t1 t2 gen).sections sid cid =
      enrollCount (greedySections input) sid cid := by
  have hgen : (generateSchedule input opts t1 t2 gen).sections =
      optimizeSections (greedySections input)
        (buildStudentSchedules (greedySections input) input.students)
        (buildMap Course.id input.courses)
        (opts.maxOptimizationIterations.getD 500) := rfl
  have hen3 : ∀ sec ∈ assignRooms
      (assignTimeSlots (createSections input.courses input.teachers) input.teachers
        input.config (buildMap Course.id input.courses))
      input.rooms (buildMap Course.id input.courses) input.config,
      sec.enrolledStudents = [] :=
    fun sec h =>
      phase123_enrolled input.courses input.teachers input.rooms input.config
        (buildMap Course.id input.courses) sec h
  have hinv3 := enrollInv_empty _ hen3
  have hknown4 : EnrolledKnown (greedySections input) (input.students.map (·.id)) :=
    runGreedyAssignment_known _ input _
      (fun sec h s hm => absurd ((hen3 sec h) ▸ hm) (List.not_mem_nil s))
  have hno4 : NoOverlap (greedySections input) :=
    (runGreedyAssignment_inv _ input _ hinv3).1
  have hinv4 : EnrollInv (greedySections input)
      (buildStudentSchedules (greedySections input) input.students) :=
    buildStudentSchedules_inv _ _ hknown4 hno4
  rw [hgen]
  by_cases hD : input.config.daysPerWeek = 0
  · -- no school days: all periods stay empty, the greedy walk keeps the
    -- courses balanced, and the rebalancer never fires
    have hsec2 : assignTimeSlots (createSections input.courses input.teachers)
        input.teachers input.config (buildMap Course.id input.courses) =
        createSections input.courses input.teachers :=
      assignTimeSlots_zero _ _ _ _ hD
    have hnil1 : ∀ sec ∈ createSections input.courses input.teachers,
        sec.periods = [] :=
      fun sec h => createSectionsGo_periods input.teachers input.courses _ sec h
    have hnil3 : ∀ sec ∈ assignRooms
        (assignTimeSlots (createSections input.courses input.teachers) input.teachers
          input.config (buildMap Course.id input.courses))
        input.rooms (buildMap Course.id input.courses) input.config,
        sec.periods = [] := by
      have hmapN : (assignRooms
          (assignTimeSlots (createSections input.courses input.teachers)
            input.teachers input.config (buildMap Course.id input.courses))
          input.rooms (buildMap Course.id input.courses) input.config).map
          (fun sec => sec.periods) =
          (createSections input.courses input.teachers).map
            (fun sec => sec.periods) := by
        rw [assignRooms_map (fun sec => sec.periods) (fun s r => rfl), hsec2]
      exact forall_mem_of_map_eq (fun sec => sec.periods) (fun ps => ps = []) _ _
        hmapN hnil1
    have hbal3 : CourseBalanced (assignRooms
        (assignTimeSlots (createSections input.courses input.teachers) input.teachers
          input.config (buildMap Course.id input.courses))
        input.rooms (buildMap Course.id input.courses) input.config) :=
      balanced_of_empty _ hen3
    have hbal4 : CourseBalanced (greedySections input) :=
      runGreedyAssignment_bal _ input _ hnil3 hbal3
    rw [optimizeSections_zero _ _ _ _ hinv4 hbal4]
  · -- at least one school day: every section meets, rosters have no
    -- duplicates, and every committed move preserves the counts
    have hdup3 : DupEmpty (assignRooms
        (assignTimeSlots (createSections input.courses input.teachers) input.teachers
          input.config (buildMap Course.id input.courses))
        input.rooms (buildMap Course.id input.courses) input.config) :=
      dupEmpty_of_empty _ hen3
    have hdup4 : DupEmpty (greedySections input) :=
      runGreedyAssignment_dup _ input _ hinv3 hdup3
    have hmapP34 : (greedySections input).map (fun sec => sec.periods) =
        (assignRooms
          (assignTimeSlots (createSections input.courses input.teachers)
            input.teachers input.config (buildMap Course.id input.courses))
          input.rooms (buildMap Course.id input.courses) input.config).map
          (fun sec => sec.periods) :=
      runGreedyAssignment_map (fun sec => sec.periods) (fun s es => rfl) _ input _
    have hmapP23 : (assignRooms
        (assignTimeSlots (createSections input.courses input.teachers)
          input.teachers input.config (buildMap Course.id input.courses))
        input.rooms (buildMap Course.id input.courses) input.config).map
        (fun sec => sec.periods) =
        (assignTimeSlots (createSections input.courses input.teachers)
          input.teachers input.config (buildMap Course.id input.courses)).map
          (fun sec => sec.periods) :=
      assignRooms_map (fun sec => sec.periods) (fun s r => rfl) _ _ _ _
    have hmapP24 := hmapP34.trans hmapP23
    have hlen21 : (assignTimeSlots (createSections input.courses input.teachers)
        input.teachers input.config (buildMap Course.id input.courses)).length =
        (createSections input.courses input.teachers).length :=
      assignTimeSlots_length _ _ _ _
    have hlen42 := length_of_map_eq _ _ _ hmapP24
    have hkeys4 : ∀ i, i < (greedySections input).length →
        periodKeys (secAt (greedySections input) i).periods ≠ ∅ := by
      intro i hi
      have hi2 : i < (assignTimeSlots (createSections input.courses input.teachers)
          input.teachers input.config (buildMap Course.id input.courses)).length := by
        omega
      rw [show (secAt (greedySections input) i).periods =
        (secAt (assignTimeSlots (createSections input.courses input.teachers)
          input.teachers input.config (buildMap Course.id input.courses)) i).periods
        from secAt_proj_of_map_eq (fun sec => sec.periods) _ _ hmapP24 i hi2]
      apply periodKeys_ne_empty
      exact assignTimeSlots_nonempty _ _ _ _ hD i (by omega)
    exact optimizeSections_count_nonempty _ _ _ _ hinv4 hdup4 hkeys4 sid cid

/-- Claim C10: Phase 5 never changes a section's id, course id, teacher,
room, periods, or capacity (hence also not the number or order of
sections), and for every course and student the number of enrollment
copies over that course's sections is the same before and after
rebalancing: a committed move deletes its student from one section of a
course and appends them to another section of the same course. -/
theorem claim_C10_rebalancer_frame :
    ∀ (input : ScheduleInput) (opts : SchedulerOptions) (t1 t2 : Int) (gen : String),
      (generateSchedule input opts t1 t2 gen).sections.map
        (fun sec => (sec.id, sec.courseId, sec.teacherId, sec.roomId, sec.periods,
          sec.capacity)) =
        (greedySections input).map
          (fun sec => (sec.id, sec.courseId, sec.teacherId, sec.roomId, sec.periods,
            sec.capacity)) ∧
      ∀ (sid : StudentId) (cid : CourseId),
        enrollCount (generateSchedule input opts t1 t2 gen).sections sid cid =
          enrollCount (greedySections input) sid cid := by
  intro input opts t1 t2 gen
  have hgen : (generateSchedule input opts t1 t2 gen).sections =
      optimizeSections (greedySections input)
        (buildStudentSchedules (greedySections input) input.students)
        (buildMap Course.id input.courses)
        (opts.maxOptimizationIterations.getD 500) := rfl
  have hen3 : ∀ sec ∈ assignRooms
      (assignTimeSlots (createSections input.courses input.teachers) input.teachers
        input.config (buildMap Course.id input.courses))
      input.rooms (buildMap Course.id input.courses) input.config,
      sec.enrolledStudents = [] :=
    fun sec h =>
      phase123_enrolled input.courses input.teachers input.rooms input.config
        (buildMap Course.id input.courses) sec h
  have hinv3 := enrollInv_empty _ hen3
  have hknown4 : EnrolledKnown (greedySections input) (input.students.map (·.id)) :=
    runGreedyAssignment_known _ input _
      (fun sec h s hm => absurd ((hen3 sec h) ▸ hm) (List.not_mem_nil s))
  have hno4 : NoOverlap (greedySections input) :=
    (runGreedyAssignment_inv _ input _ hinv3).1
  have hinv4 : EnrollInv (greedySections input)
      (buildStudentSchedules (greedySections input) input.students) :=
    buildStudentSchedules_inv _ _ hknown4 hno4
  constructor
  · rw [hgen]
    exact optimizeSections_map
      (fun sec => (sec.id, sec.courseId, sec.teacherId, sec.roomId, sec.periods,
        sec.capacity)) (fun s es => rfl) _ _ _ _
  · intro sid cid
    exact generateSchedule_enrollCount input opts t1 t2 gen sid cid

/-- How many sections of a course list the student among their enrolled
ids. -/
def sectionsContaining (secs : List Section) (sid : StudentId) (cid : CourseId) : Nat :=
  (secs.filter (fun sec => sec.courseId == cid && sec.enrolledStudents.contains sid)).length

/-- A student whose single course id sits in both the required list and the
elective preference list. -/
def c2Input : ScheduleInput :=
  { students := [{ id := "S", grade := 9, requiredCourses := ["X"],
                   electivePreferences := ["X"] }]
    teachers := [{ id := "T", subjects := ["X"], maxSections := 2, unavailable := [] }]
    courses := [{ id := "X", maxStudents := 30, periodsPerWeek := 5,
                  gradeRestrictions := none, requiredFeatures := [], sections := 2 }]
    rooms := []
    config := { periodsPerDay := 2, daysPerWeek := 1 } }

/-- Claim C2 counterexample: with course X in both the required and the
elective list, the greedy passes enroll the student twice — the returned
schedule has the student in both sections of course X. -/
theorem claim_C2_counterexample :
    sectionsContaining (generateSchedule c2Input ⟨none⟩ 0 0 "t").sections "S" "X" = 2 := by
  decide

theorem enrollCount_eq_sum :
    ∀ (secs : List Section) (sid : StudentId) (cid : CourseId),
      enrollCount secs sid cid = (secs.map
        (fun sec => if sec.courseId == cid then sec.enrolledStudents.count sid
          else 0)).sum
  | [], _, _ => rfl
  | a :: l, sid, cid => by
    simp only [enrollCount, List.length_cons]
    rw [Finset.sum_range_succ']
    have hs : ∀ i, secAt (a :: l) (i + 1) = secAt l i := fun i => rfl
    have h0 : secAt (a :: l) 0 = a := rfl
    simp only [hs, h0]
    rw [List.map_cons, List.sum_cons]
    have hrec := enrollCount_eq_sum l sid cid
    simp only [enrollCount] at hrec
    omega

theorem filterlen_le_sum :
    ∀ (secs : List Section) (sid : StudentId) (cid : CourseId),
      ((secs.filter
        (fun sec => sec.courseId == cid && sec.enrolledStudents.contains sid)).length) ≤
      (secs.map
        (fun sec => if sec.courseId == cid then sec.enrolledStudents.count sid
          else 0)).sum
  | [], _, _ => Nat.le_refl 0
  | a :: l, sid, cid => by
    simp only [List.filter_cons, List.map_cons, List.sum_cons]
    have hrec := filterlen_le_sum l sid cid
    split
    · rename_i hcond
      have h1 := (Bool.and_eq_true_iff.mp hcond).1
      have h2 := (Bool.and_eq_true_iff.mp hcond).2
      have hm : sid ∈ a.enrolledStudents := by simpa using h2
      have hc1 : 1 ≤ a.enrolledStudents.count sid := List.count_pos_iff.mpr hm
      rw [if_pos h1]
      simp only [List.length_cons]
      omega
    · omega

/-- A section counted by `sectionsContaining` carries at least one roster
copy, so the section count is below the copy count. -/
theorem sectionsContaining_le_enrollCount (secs : List Section) (sid : StudentId)
    (cid : CourseId) : sectionsContaining secs sid cid ≤ enrollCount secs sid cid := by
  rw [enrollCount_eq_sum]
  exact filterlen_le_sum secs sid cid

theorem enrollCount_zero (secs : List Section)
    (h : ∀ sec ∈ secs, sec.enrolledStudents = []) (sid : StudentId) (cid : CourseId) :
    enrollCount secs sid cid = 0 := by
  apply Finset.sum_eq_zero
  intro i hi
  rw [h _ (secAt_mem secs i (Finset.mem_range.mp hi))]
  simp

/-- One enrollment walk adds at most one copy, and only for the walking
student and the walked course. -/
theorem tryEnroll_count (sid : StudentId) (c : CourseId) :
    ∀ (idxs : List Nat) (secs : List Section) (sched : StudentId → Finset (Nat × Nat)),
      (∀ i ∈ idxs, i < secs.length ∧ (secAt secs i).courseId = c) →
      ∀ (s : StudentId) (cid : CourseId),
        enrollCount (tryEnroll sid idxs secs sched).1 s cid ≤
          enrollCount secs s cid + if sid = s ∧ c = cid then 1 else 0
  | [], _, _, _, s, cid => Nat.le_add_right _ _
  | i :: rest, secs, sched, hidx, s, cid => by
    simp only [tryEnroll]
    split
    · exact tryEnroll_count sid c rest secs sched
        (fun j hj => hidx j (List.mem_cons_of_mem _ hj)) s cid
    · split
      · exact tryEnroll_count sid c rest secs sched
          (fun j hj => hidx j (List.mem_cons_of_mem _ hj)) s cid
      · have hilen := (hidx i (List.mem_cons_self i rest)).1
        have hic := (hidx i (List.mem_cons_self i rest)).2
        rw [enrollCount_set_append secs i hilen sid s cid]
        have hite : (if sid = s ∧ ((secAt secs i).courseId == cid) = true then 1 else 0) ≤
            (if sid = s ∧ c = cid then 1 else 0) := by
          by_cases hcnd : sid = s ∧ ((secAt secs i).courseId == cid) = true
          · rw [if_pos hcnd]
            have hceq : c = cid := by
              rw [← hic]
              exact eq_of_beq hcnd.2
            rw [if_pos ⟨hcnd.1, hceq⟩]
          · rw [if_neg hcnd]
            exact Nat.zero_le _
        omega

theorem assignStudentToSection_count (sid : StudentId) (c : CourseId)
    (secs : List Section) (sched : StudentId → Finset (Nat × Nat)) (s : StudentId)
    (cid : CourseId) :
    enrollCount (assignStudentToSection sid c secs sched).1 s cid ≤
      enrollCount secs s cid + if sid = s ∧ c = cid then 1 else 0 := by
  simp only [assignStudentToSection]
  apply tryEnroll_count sid c _ secs sched
  intro i hi
  have hi2 : i ∈ courseSectionIdxs secs c :=
    (List.Perm.mem_iff (List.perm_insertionSort _ _)).mp hi
  have hm := List.mem_filter.mp hi2
  exact ⟨List.mem_range.mp hm.1, eq_of_beq hm.2⟩

/-- The required pass of one student adds at most one copy per occurrence of
the course in their required list, and nothing for other students. -/
theorem requiredPass_count (courseMap : CourseId → Option Course) (u : Student) :
    ∀ (L : List CourseId) (st : GreedyState) (s : StudentId) (cid : CourseId),
      enrollCount (requiredPass courseMap u L st).sections s cid ≤
        enrollCount st.sections s cid + if u.id = s then L.count cid else 0
  | [], _, _, _ => Nat.le_add_right _ _
  | c :: rest, st, s, cid => by
    have hcnt : (c :: rest).count cid = rest.count cid + (if c = cid then 1 else 0) := by
      rw [List.count_cons]
      by_cases h : c = cid
      · rw [if_pos h, if_pos (beq_iff_eq.mpr h)]
      · rw [if_neg h, if_neg (fun hb => h (eq_of_beq hb))]
    simp only [requiredPass]
    split
    · refine le_trans (requiredPass_count courseMap u rest _ s cid) ?_
      dsimp only
      by_cases hs : u.id = s
      · simp only [if_pos hs]
        omega
      · simp only [if_neg hs]
        omega
    · split
      · refine le_trans (requiredPass_count courseMap u rest _ s cid) ?_
        by_cases hs : u.id = s
        · simp only [if_pos hs]
          omega
        · simp only [if_neg hs]
          omega
      · have hstep := assignStudentToSection_count u.id c st.sections st.sched s cid
        split
        · refine le_trans (requiredPass_count courseMap u rest _ s cid) ?_
          dsimp only
          by_cases hs : u.id = s
          · simp only [if_pos hs]
            by_cases hc : c = cid
            · rw [if_pos ⟨hs, hc⟩] at hstep
              rw [if_pos hc] at hcnt
              omega
            · rw [if_neg (fun hh => hc hh.2)] at hstep
              rw [if_neg hc] at hcnt
              omega
          · simp only [if_neg hs]
            rw [if_neg (fun hh => hs hh.1)] at hstep
            omega
        · refine le_trans (requiredPass_count courseMap u rest _ s cid) ?_
          dsimp only
          by_cases hs : u.id = s
          · simp only [if_pos hs]
            by_cases hc : c = cid
            · rw [if_pos ⟨hs, hc⟩] at hstep
              rw [if_pos hc] at hcnt
              omega
            · rw [if_neg (fun hh => hc hh.2)] at hstep
              rw [if_neg hc] at hcnt
              omega
          · simp only [if_neg hs]
            rw [if_neg (fun hh => hs hh.1)] at hstep
            omega

theorem electivePass_count (courseMap : CourseId → Option Course) (u : Student) :
    ∀ (L : List CourseId) (st : GreedyState) (s : StudentId) (cid : CourseId),
      enrollCount (electivePass courseMap u L st).sections s cid ≤
        enrollCount st.sections s cid + if u.id = s then L.count cid else 0
  | [], _, _, _ => Nat.le_add_right _ _
  | c :: rest, st, s, cid => by
    have hcnt : (c :: rest).count cid = rest.count cid + (if c = cid then 1 else 0) := by
      rw [List.count_cons]
      by_cases h : c = cid
      · rw [if_pos h, if_pos (beq_iff_eq.mpr h)]
      · rw [if_neg h, if_neg (fun hb => h (eq_of_beq hb))]
    simp only [electivePass]
    split
    · refine le_trans (electivePass_count courseMap u rest _ s cid) ?_
      by_cases hs : u.id = s
      · simp only [if_pos hs]
        omega
      · simp only [if_neg hs]
        omega
    · split
      · refine le_trans (electivePass_count courseMap u rest _ s cid) ?_
        by_cases hs : u.id = s
        · simp only [if_pos hs]
          omega
        · simp only [if_neg hs]
          omega
      · have hstep := assignStudentToSection_count u.id c st.sections st.sched s cid
        refine le_trans (electivePass_count courseMap u rest _ s cid) ?_
        dsimp only
        by_cases hs : u.id = s
        · simp only [if_pos hs]
          by_cases hc : c = cid
          · rw [if_pos ⟨hs, hc⟩] at hstep
            rw [if_pos hc] at hcnt
            omega
          · rw [if_neg (fun hh => hc hh.2)] at hstep
            rw [if_neg hc] at hcnt
            omega
        · simp only [if_neg hs]
          rw [if_neg (fun hh => hs hh.1)] at hstep
          omega

theorem foldl_requiredPass_count (courseMap : CourseId → Option Course) :
    ∀ (students : List Student) (st : GreedyState) (s : StudentId) (cid : CourseId),
      enrollCount ((students.foldl
        (fun st u => requiredPass courseMap u u.requiredCourses st) st)).sections s cid ≤
        enrollCount st.sections s cid +
          ((students.filter (fun u => u.id == s)).map
            (fun u => u.requiredCourses.count cid)).sum
  | [], _, _, _ => Nat.le_add_right _ _
  | u :: rest, st, s, cid => by
    simp only [List.foldl_cons, List.filter_cons]
    have h1 := requiredPass_count courseMap u u.requiredCourses st s cid
    refine le_trans (foldl_requiredPass_count courseMap rest
      (requiredPass courseMap u u.requiredCourses st) s cid) ?_
    by_cases hs : u.id = s
    · rw [if_pos (beq_iff_eq.mpr hs)]
      rw [if_pos hs] at h1
      simp only [List.map_cons, List.sum_cons]
      omega
    · rw [if_neg (fun hb => hs (eq_of_beq hb))]
      rw [if_neg hs] at h1
      omega

theorem foldl_electivePass_count (courseMap : CourseId → Option Course) :
    ∀ (students : List Student) (st : GreedyState) (s : StudentId) (cid : CourseId),
      enrollCount ((students.foldl
        (fun st u => electivePass courseMap u u.electivePreferences st) st)).sections
          s cid ≤
        enrollCount st.sections s cid +
          ((students.filter (fun u => u.id == s)).map
            (fun u => u.electivePreferences.count cid)).sum
  | [], _, _, _ => Nat.le_add_right _ _
  | u :: rest, st, s, cid => by
    simp only [List.foldl_cons, List.filter_cons]
    have h1 := electivePass_count courseMap u u.electivePreferences st s cid
    refine le_trans (foldl_electivePass_count courseMap rest
      (electivePass courseMap u u.electivePreferences st) s cid) ?_
    by_cases hs : u.id = s
    · rw [if_pos (beq_iff_eq.mpr hs)]
      rw [if_pos hs] at h1
      simp only [List.map_cons, List.sum_cons]
      omega
    · rw [if_neg (fun hb => hs (eq_of_beq hb))]
      rw [if_neg hs] at h1
      omega

/-- The greedy phase gives a student at most as many copies per course as
the occurrences of that course over the id-matching students' lists. -/
theorem runGreedyAssignment_count (sections : List Section) (input : ScheduleInput)
    (courseMap : CourseId → Option Course)
    (hempty : ∀ sec ∈ sections, sec.enrolledStudents = [])
    (s : StudentId) (cid : CourseId) :
    enrollCount (runGreedyAssignment sections input courseMap).1 s cid ≤
      ((input.students.filter (fun u => u.id == s)).map
        (fun u => u.requiredCourses.count cid)).sum +
      ((input.students.filter (fun u => u.id == s)).map
        (fun u => u.electivePreferences.count cid)).sum := by
  simp only [runGreedyAssignment]
  have h1 := foldl_requiredPass_count courseMap input.students
    { sections := sections, sched := fun _ => ∅, unassigned := [] } s cid
  have h2 := foldl_electivePass_count courseMap input.students
    (input.students.foldl
      (fun st u => requiredPass courseMap u u.requiredCourses st)
      { sections := sections, sched := fun _ => ∅, unassigned := [] }) s cid
  rw [enrollCount_zero sections hempty s cid] at h1
  omega

theorem nodup_filter_single :
    ∀ (students : List Student) (s : StudentId), ((students.map (·.id)).Nodup) →
      students.filter (fun u => u.id == s) = [] ∨
      ∃ u, students.filter (fun u => u.id == s) = [u] ∧ u ∈ students
  | [], _, _ => Or.inl rfl
  | u :: rest, s, hnd => by
    simp only [List.map_cons, List.nodup_cons] at hnd
    simp only [List.filter_cons]
    by_cases hb : (u.id == s) = true
    · rw [if_pos hb]
      right
      refine ⟨u, ?_, List.mem_cons_self u rest⟩
      have hrest : rest.filter (fun u => u.id == s) = [] := by
        rw [List.filter_eq_nil_iff]
        intro v hv hvb
        apply hnd.1
        rw [show u.id = s from eq_of_beq hb, ← show v.id = s from eq_of_beq hvb]
        exact List.mem_map_of_mem _ hv
      rw [hrest]
    · rw [if_neg hb]
      rcases nodup_filter_single rest s hnd.2 with h | ⟨v, hv, hvm⟩
      · exact Or.inl h
      · exact Or.inr ⟨v, hv, List.mem_cons_of_mem u hvm⟩

/-- Claim C2 (amended): when student ids are distinct and no student's
combined required-plus-elective list repeats a course id, every student
appears in at most one section of any course in the returned schedule. -/
theorem claim_C2_amended (input : ScheduleInput) (opts : SchedulerOptions)
    (t1 t2 : Int) (gen : String)
    (hids : ((input.students.map (·.id)).Nodup))
    (hcourses : ∀ st ∈ input.students,
      (st.requiredCourses ++ st.electivePreferences).Nodup) :
    ∀ (sid : StudentId) (cid : CourseId),
      sectionsContaining (generateSchedule input opts t1 t2 gen).sections sid cid ≤ 1 := by
  intro sid cid
  have hle := sectionsContaining_le_enrollCount
    (generateSchedule input opts t1 t2 gen).sections sid cid
  have hcnt := generateSchedule_enrollCount input opts t1 t2 gen sid cid
  have hen3 : ∀ sec ∈ assignRooms
      (assignTimeSlots (createSections input.courses input.teachers) input.teachers
        input.config (buildMap Course.id input.courses))
      input.rooms (buildMap Course.id input.courses) input.config,
      sec.enrolledStudents = [] :=
    fun sec h =>
      phase123_enrolled input.courses input.teachers input.rooms input.config
        (buildMap Course.id input.courses) sec h
  have h4 : enrollCount (greedySections input) sid cid ≤
      ((input.students.filter (fun u => u.id == sid)).map
        (fun u => u.requiredCourses.count cid)).sum +
      ((input.students.filter (fun u => u.id == sid)).map
        (fun u => u.electivePreferences.count cid)).sum :=
    runGreedyAssignment_count _ input _ hen3 sid cid
  rcases nodup_filter_single input.students sid hids with hnil | ⟨u, hu, hum⟩
  · rw [hnil] at h4
    simp only [List.map_nil, List.sum_nil] at h4
    omega
  · rw [hu] at h4
    simp only [List.map_cons, List.map_nil, List.sum_cons, List.sum_nil] at h4
    have hcount : (u.requiredCourses ++ u.electivePreferences).count cid ≤ 1 :=
      List.nodup_iff_count_le_one.mp (hcourses u hum) cid
    rw [List.count_append] at hcount
    omega

/-- Witness for the amended C2 at a concrete input, discharging each
hypothesis. -/
theorem claim_C2_witness :
    ((emptyInput.students.map (·.id)).Nodup) ∧
    (∀ st ∈ emptyInput.students,
      (st.requiredCourses ++ st.electivePreferences).Nodup) ∧
    ∀ (sid : StudentId) (cid : CourseId),
      sectionsContaining (generateSchedule emptyInput ⟨none⟩ 0 0 "t").sections sid cid ≤
        1 :=
  ⟨by decide, fun st h => absurd h (List.not_mem_nil st),
   claim_C2_amended emptyInput ⟨none⟩ 0 0 "t" (by decide)
     (fun st h => absurd h (List.not_mem_nil st))⟩

/-- The running per-teacher section count threaded by Phase 1, after
processing a course list (the first component of the `createSectionsGo`
recursion). -/
def createSectionsCount (teachers : List Teacher) :
    List Course → (TeacherId → Nat) → (TeacherId → Nat)
  | [], count => count
  | course :: rest, count =>
    let qualifiedTeachers := teachers.filter fun t =>
      course.id ∈ t.subjects && count t.id < t.maxSections
    createSectionsCount teachers rest
      (makeSections course qualifiedTeachers 0 course.sections count).1

/-- The running count never decreases. -/
theorem makeSections_count_mono (c : Course) (pool : List Teacher)
    (i fuel : Nat) (count : TeacherId → Nat) (tid : TeacherId) :
    count tid ≤ (makeSections c pool i fuel count).1 tid := by
  rw [makeSections_count]
  omega

theorem createSectionsGo_append (teachers : List Teacher) :
    ∀ (l1 l2 : List Course) (count : TeacherId → Nat),
      createSectionsGo teachers (l1 ++ l2) count =
        createSectionsGo teachers l1 count ++
          createSectionsGo teachers l2 (createSectionsCount teachers l1 count)
  | [], _, _ => rfl
  | c :: l1, l2, count => by
    simp only [List.cons_append, List.append_eq, createSectionsGo, createSectionsCount]
    rw [createSectionsGo_append teachers l1 l2 _, List.append_assoc]

/-- Every Phase 1 section is a section of some processed course. -/
theorem createSectionsGo_course_mem (teachers : List Teacher) :
    ∀ (courses : List Course) (count : TeacherId → Nat) (sec : Section),
      sec ∈ createSectionsGo teachers courses count →
      ∃ course ∈ courses, sec.courseId = course.id
  | [], _, sec, h => absurd h (List.not_mem_nil sec)
  | c :: cs, count, sec, h => by
    simp only [createSectionsGo, List.mem_append] at h
    rcases h with h | h
    · exact ⟨c, List.mem_cons_self c cs,
        makeSections_courseId c _ c.sections 0 count sec h⟩
    · obtain ⟨course, hm, he⟩ := createSectionsGo_course_mem teachers cs _ sec h
      exact ⟨course, List.mem_cons_of_mem c hm, he⟩

/-- If every teacher listing `cid` as a subject has already reached their
section cap in the running count, the qualified pool of each course with
that id is empty — the counts only grow — so all its sections come out
teacherless. -/
theorem createSectionsGo_capped (teachers : List Teacher) (cid : CourseId) :
    ∀ (courses : List Course) (count : TeacherId → Nat),
      (∀ t ∈ teachers, cid ∈ t.subjects → t.maxSections ≤ count t.id) →
      ∀ sec ∈ createSectionsGo teachers courses count,
        sec.courseId = cid → sec.teacherId = none
  | [], _, _, sec, hmem, _ => absurd hmem (List.not_mem_nil sec)
  | course :: rest, count, hcap, sec, hmem, hcid => by
    simp only [createSectionsGo, List.mem_append] at hmem
    rcases hmem with hmem | hmem
    · have hcourse := makeSections_courseId course _ course.sections 0 count sec hmem
      have hcidc : course.id = cid := hcourse ▸ hcid
      have hpool : (teachers.filter fun t =>
          course.id ∈ t.subjects && count t.id < t.maxSections) = [] := by
        rw [List.filter_eq_nil_iff]
        intro t ht
        simp only [Bool.and_eq_true, decide_eq_true_eq, not_and]
        intro hsub
        have := hcap t ht (hcidc ▸ hsub)
        omega
      rw [hpool] at hmem
      exact makeSections_empty_pool_teacher course course.sections 0 count sec hmem
    · apply createSectionsGo_capped teachers cid rest _ ?_ sec hmem hcid
      intro t ht hsub
      exact le_trans (hcap t ht hsub)
        (makeSections_count_mono course _ 0 course.sections count t.id)

/-- Claim C9: a course whose qualified pool is empty — because no teacher
lists it as a subject, or because every teacher who does has already
reached their section cap by the time the course is processed — crashes
nothing: each of its `course.sections` sections is produced with
`teacherId` absent, and the full pipeline (a total function here) carries
them through all five phases unchanged in course and teacher.  The cap is
measured against the running count the code holds when it first reaches a
course with that id. -/
theorem claim_C9_no_available_teacher (input : ScheduleInput) (opts : SchedulerOptions)
    (t1 t2 : Int) (g : String) (cid : CourseId)
    (h : ∀ t ∈ input.teachers, cid ∈ t.subjects →
      t.maxSections ≤ createSectionsCount input.teachers
        (input.courses.takeWhile fun c => !(c.id == cid)) (fun _ => 0) t.id) :
    (∀ sec ∈ (generateSchedule input opts t1 t2 g).sections,
        sec.courseId = cid → sec.teacherId = none) ∧
    ((generateSchedule input opts t1 t2 g).sections.filter
        fun s => s.courseId == cid).length = numSectionsFor input.courses cid := by
  have hmap := generateSchedule_courseTeacher input opts t1 t2 g
  constructor
  · intro sec hmem hcid
    have hin : courseTeacherOf sec ∈
        ((generateSchedule input opts t1 t2 g).sections).map courseTeacherOf :=
      List.mem_map_of_mem _ hmem
    rw [hmap] at hin
    obtain ⟨sec0, hmem0, heq⟩ := List.mem_map.mp hin
    simp only [courseTeacherOf, Prod.mk.injEq] at heq
    have hcid0 : sec0.courseId = cid := heq.1.trans hcid
    have hmem1 : sec0 ∈ createSectionsGo input.teachers
        ((input.courses.takeWhile fun c => !(c.id == cid)) ++
          (input.courses.dropWhile fun c => !(c.id == cid))) (fun _ => 0) := by
      rw [List.takeWhile_append_dropWhile]
      exact hmem0
    rw [createSectionsGo_append] at hmem1
    rcases List.mem_append.mp hmem1 with hpre | hpost
    · exfalso
      obtain ⟨course, hcm, hce⟩ :=
        createSectionsGo_course_mem input.teachers _ _ sec0 hpre
      have hp := List.mem_takeWhile_imp hcm
      simp only [Bool.not_eq_true'] at hp
      rw [hce.symm.trans hcid0] at hp
      simp at hp
    · have hres := createSectionsGo_capped input.teachers cid _ _ h sec0 hpost hcid0
      rw [← heq.2, hres]
  · rw [filter_courseId_length_of_map_eq _ _ cid hmap]
    exact createSectionsGo_count input.teachers cid input.courses (fun _ => 0)

/-- A course nobody lists, and a course whose only subject-qualified
teacher spent their single section allowance on an earlier course. -/
def c9CapInput : ScheduleInput :=
  { students := []
    teachers := [⟨"T", ["W", "X"], 1, []⟩]
    courses := [⟨"W", 20, 5, none, [], 1⟩, ⟨"X", 20, 5, none, [], 2⟩]
    rooms := []
    config := { periodsPerDay := 2, daysPerWeek := 5 } }

/-- Witness for C9 at a concrete input exercising the cap case: teacher T
is qualified for X but used up by course W, so both X sections are
teacherless and the counts match. -/
theorem claim_C9_witness :
    (∀ t ∈ c9CapInput.teachers, "X" ∈ t.subjects →
      t.maxSections ≤ createSectionsCount c9CapInput.teachers
        (c9CapInput.courses.takeWhile fun c => !(c.id == "X")) (fun _ => 0) t.id) ∧
    (∀ sec ∈ (generateSchedule c9CapInput ⟨none⟩ 0 0 "t").sections,
        sec.courseId = "X" → sec.teacherId = none) ∧
    ((generateSchedule c9CapInput ⟨none⟩ 0 0 "t").sections.filter
        fun s => s.courseId == "X").length = numSectionsFor c9CapInput.courses "X" := by
  have h := claim_C9_no_available_teacher c9CapInput ⟨none⟩ 0 0 "t" "X" (by decide)
  exact ⟨by decide, h.1, h.2⟩
